import Mathlib

/-! go-muhash: the 3072-bit field engine and the MuHash accumulator

A shallow embedding of `src/go-muhash` (`uint3072.go`, `num3072.go`, `muhash.go`).

* Machine words (`uint`, `C.limb_t`) are 64 bits wide and are modelled as natural
  numbers; every wrapping operation carries an explicit `% 2 ^ 64`.
* A `[48]uint` array is a function `Fin 48 → Nat`; `idx` reads a limb and `setLimb`
  writes one.
* `for` loops with a counter are `forLoop lo hi body`, a left fold of the body over
  `lo, lo+1, ..., hi-1`.
* A method with a pointer receiver returns the new value of the receiver (and of every
  other argument it writes to).
* `assert` panics when its condition is false: a function that contains an `assert`
  returns an `Option`, and `none` is the panic.
-/

namespace muhash

/-! ## Constants (`muhash.go`, `num3072.go`, `uint3072.go`) -/

/-- The constant `wordSize` of num3072.go on a 64-bit machine. -/
abbrev wordSize : Nat := 64

/-- The constant `wordSizeInBytes`. -/
abbrev wordSizeInBytes : Nat := 8

/-- The constant `elementBitSize`. -/
abbrev elementBitSize : Nat := 3072

/-- The constant `elementByteSize = elementBitSize / 8`. -/
abbrev elementByteSize : Nat := elementBitSize / 8

/-- The constant `elementWordSize = elementByteSize / wordSizeInBytes`. -/
abbrev elementWordSize : Nat := elementByteSize / wordSizeInBytes

/-- The constant `limbs = elementWordSize` of uint3072.go. -/
abbrev limbs : Nat := elementWordSize

/-- The constant `HashSize`. -/
abbrev HashSize : Nat := 32

/-- The constant `primeDiff`. -/
def primeDiff : Nat := 1103717

/-- The constant `maxUint = ^uint(0)`. -/
def maxUint : Nat := 2 ^ 64 - 1

/-- The constant `maxLimb = ^word(0)`. -/
def maxLimb : Nat := 2 ^ 64 - 1

/-- The modulus `prime = (1 << 3072) - primeDiff`. -/
def prime : Nat := 2 ^ 3072 - primeDiff

/-! ## Arrays and loops -/

/-- The Go type `uint3072 = [limbs]uint`. -/
abbrev uint3072 : Type := Fin limbs → Nat

/-- The Go type `num3072` (the C struct `Num3072`, whose only field is `limbs`). -/
abbrev num3072 : Type := Fin limbs → Nat

/-- Array read `a[i]` (the index is in range at every use in the source). -/
def idx {n : Nat} (a : Fin n → Nat) (i : Nat) : Nat :=
  if h : i < n then a ⟨i, h⟩ else 0

/-- Array write `a[i] = x`. -/
def setLimb {n : Nat} (a : Fin n → Nat) (i : Nat) (x : Nat) : Fin n → Nat :=
  fun k => if k.val = i then x else a k

/-- The loop `for i := lo; i < hi; i++ { s = body i s }`. -/
def forLoop {σ : Type} (lo hi : Nat) (body : Nat → σ → σ) (s : σ) : σ :=
  (List.range' lo (hi - lo)).foldl (fun acc i => body i acc) s

/-- Every limb is a 64-bit word. -/
def WF {n : Nat} (a : Fin n → Nat) : Prop := ∀ i, a i < 2 ^ 64

/-- The little-endian value of the first `n` entries of `f` in base `2 ^ 64`. -/
def limbsVal (f : Nat → Nat) : Nat → Nat
  | 0 => 0
  | n + 1 => limbsVal f n + f n * 2 ^ (64 * n)

/-- The integer represented by a 48-limb value: `val a = Σ a[i] * 2 ^ (64 i)`. -/
def val (a : uint3072) : Nat := limbsVal (idx a) limbs

/-- The 48 little-endian 64-bit words of a natural number. -/
def ofNat (v : Nat) : uint3072 := fun i => (v / 2 ^ (64 * i.val)) % 2 ^ 64

/-! ## `math/bits` -/

/-- The function `bits.Mul(x, y)`: the pair `(hi, lo)` of the 128-bit product. -/
def bitsMul (x y : Nat) : Nat × Nat := ((x * y) / 2 ^ 64, (x * y) % 2 ^ 64)

/-- The function `bits.Add(x, y, carry)`: the pair `(sum, carryOut)`. -/
def bitsAdd (x y carry : Nat) : Nat × Nat :=
  ((x + y + carry) % 2 ^ 64, (x + y + carry) / 2 ^ 64)

/-! ## `uint3072.go` -/

namespace uint3072

/-- The method `IsOverflow`: limb 0 above `maxUint - primeDiff` and all other limbs
equal to `maxUint`. -/
def IsOverflow (lhs : uint3072) : Bool :=
  if idx lhs 0 ≤ maxUint - primeDiff then false
  else (List.range' 1 (limbs - 1)).all (fun i => idx lhs i == maxUint)

/-- The body of the loop of `FullReduce`; the state is `(low, high, lhs)`. -/
def FullReduce.body (i : Nat) (s : Nat × Nat × uint3072) : Nat × Nat × uint3072 :=
  let low := (bitsAdd s.1 (idx s.2.2 i) 0).1
  let carry := (bitsAdd s.1 (idx s.2.2 i) 0).2
  let high := (bitsAdd s.2.1 0 carry).1
  let carry := (bitsAdd s.2.1 0 carry).2
  let high' := (bitsAdd high 0 carry).1
  let carry' := (bitsAdd high 0 carry).2
  (high', carry', setLimb s.2.2 i low)

/-- The method `FullReduce`: add `primeDiff` with carry propagation over all limbs. -/
def FullReduce (lhs : uint3072) : uint3072 :=
  (forLoop 0 limbs FullReduce.body (primeDiff, 0, lhs)).2.2

/-- The accumulation `[low, high, carry] += a * b` written inline three times in `Mul`
(lines 103-107, 123-126 and 135-138). -/
def Mul.acc (a b : Nat) (s : Nat × Nat × Nat) : Nat × Nat × Nat :=
  let tmpHigh := (bitsMul a b).1
  let tmpLow := (bitsMul a b).2
  let low := (bitsAdd s.1 tmpLow 0).1
  let tmpCarry := (bitsAdd s.1 tmpLow 0).2
  let high := (bitsAdd s.2.1 tmpHigh tmpCarry).1
  let tmpCarry2 := (bitsAdd s.2.1 tmpHigh tmpCarry).2
  (low, high, (s.2.2 + tmpCarry2) % 2 ^ 64)

/-- Lines 100-108 of `Mul`: the column `limbs + j` of the product,
`Σ_{i = j+1}^{limbs-1} lhs[i] * rhs[limbs + j - i]`, as `(low, high, carry)`. -/
def Mul.highColumn (lhs rhs : uint3072) (j : Nat) : Nat × Nat × Nat :=
  forLoop (2 + j) limbs
    (fun i s => Mul.acc (idx lhs i) (idx rhs (limbs + j - i)) s)
    ((bitsMul (idx lhs (1 + j)) (idx rhs (limbs + j - (1 + j)))).2,
     (bitsMul (idx lhs (1 + j)) (idx rhs (limbs + j - (1 + j)))).1,
     0)

/-- Lines 109-120 of `Mul`: the running carry `(carryLow, carryHigh, carryHighest)`
receives `primeDiff * [low, high, carry]`; the incoming `carryHighest` is
overwritten. -/
def Mul.fold (c : Nat × Nat × Nat) (s : Nat × Nat × Nat) : Nat × Nat × Nat :=
  let tmpHigh := (bitsMul c.1 primeDiff).1
  let tmpLow := (bitsMul c.1 primeDiff).2
  let carryLow := (bitsAdd s.1 tmpLow 0).1
  let tmpCarry := (bitsAdd s.1 tmpLow 0).2
  let tmpHigh' := (tmpHigh + tmpCarry) % 2 ^ 64
  let tmpHigh2 := (bitsMul c.2.1 primeDiff).1
  let tmpLow2 := (bitsMul c.2.1 primeDiff).2
  let carryHigh := (bitsAdd tmpLow2 s.2.1 0).1
  let tmpCarry2 := (bitsAdd tmpLow2 s.2.1 0).2
  let tmpHigh2' := (tmpHigh2 + tmpCarry2) % 2 ^ 64
  let carryHigh' := (bitsAdd carryHigh tmpHigh' 0).1
  let tmpCarry3 := (bitsAdd carryHigh tmpHigh' 0).2
  let carryHighest := (bitsAdd tmpHigh2' ((c.2.2 * primeDiff) % 2 ^ 64) tmpCarry3).1
  (carryLow, carryHigh', carryHighest)

/-- Lines 121-127 (and 133-139 with `j = limbs - 1`): add the column `j` of the
product, `Σ_{i = 0}^{j} lhs[i] * rhs[j - i]`, to the running carry. -/
def Mul.lowColumn (lhs rhs : uint3072) (j : Nat) (s : Nat × Nat × Nat) :
    Nat × Nat × Nat :=
  forLoop 0 (j + 1) (fun i s => Mul.acc (idx lhs i) (idx rhs (j - i)) s) s

/-- The body of the first loop of `Mul` (lines 99-129); the state is the running
carry and `tmp`. Line 128 stores the lowest carry limb and shifts the carry. -/
def Mul.outer (lhs rhs : uint3072) (j : Nat) (s : (Nat × Nat × Nat) × uint3072) :
    (Nat × Nat × Nat) × uint3072 :=
  let c := Mul.lowColumn lhs rhs j (Mul.fold (Mul.highColumn lhs rhs j) s.1)
  ((c.2.1, c.2.2, 0), setLimb s.2 j c.1)

/-- The body of the loop of the second reduction (lines 147-158); the state is
`(carryLow, carryHigh, lhs)`. -/
def Mul.reduce2 (tmp : uint3072) (j : Nat) (s : Nat × Nat × uint3072) :
    Nat × Nat × uint3072 :=
  let carryLow := (bitsAdd s.1 (idx tmp j) 0).1
  let tmpCarry := (bitsAdd s.1 (idx tmp j) 0).2
  let carryHigh := (bitsAdd s.2.1 0 tmpCarry).1
  let tmpCarry2 := (bitsAdd s.2.1 0 tmpCarry).2
  let carryHigh' := (bitsAdd carryHigh 0 tmpCarry2).1
  let tmpCarry3 := (bitsAdd carryHigh 0 tmpCarry2).2
  (carryHigh', tmpCarry3, setLimb s.2.2 j carryLow)

/-- The first loop of `Mul` (lines 96-129); the result is the running carry
`(carryLow, carryHigh, carryHighest)` and `tmp`. -/
def Mul.firstPass (lhs rhs : uint3072) : (Nat × Nat × Nat) × uint3072 :=
  forLoop 0 (limbs - 1) (Mul.outer lhs rhs) ((0, 0, 0), fun _ => 0)

/-- Lines 133-140 of `Mul`: limb `limbs - 1` of the product goes to `tmp` and the
carry is shifted. -/
def Mul.lastColumn (lhs rhs : uint3072) (s : (Nat × Nat × Nat) × uint3072) :
    (Nat × Nat × Nat) × uint3072 :=
  let c := Mul.lowColumn lhs rhs (limbs - 1) s.1
  ((c.2.1, c.2.2, 0), setLimb s.2 (limbs - 1) c.1)

/-- Lines 143-158 of `Mul`, the second reduction: the two-word carry is multiplied by
`primeDiff` and added to `tmp`, the sum being written to `lhs`. The result is
`(carryLow, carryHigh, lhs)`. -/
def Mul.secondReduction (lhs : uint3072) (s : (Nat × Nat × Nat) × uint3072) :
    Nat × Nat × uint3072 :=
  let tmpHigh := (bitsMul s.1.1 primeDiff).1
  let carryLow := (bitsMul s.1.1 primeDiff).2
  let tmpLow := (bitsMul s.1.2.1 primeDiff).2
  let carryHigh := (tmpHigh + tmpLow) % 2 ^ 64
  forLoop 0 limbs (Mul.reduce2 s.2) (carryLow, carryHigh, lhs)

/-- Lines 166-171 of `Mul`: up to two more reductions. -/
def Mul.finish (carryLow : Nat) (lhs : uint3072) : uint3072 :=
  let r := if IsOverflow lhs then FullReduce lhs else lhs
  if carryLow > 0 then FullReduce r else r

/-- The method `Mul`, with `lhs` returned; `none` is a failed `assert`. -/
def Mul (lhs rhs : uint3072) : Option uint3072 :=
  let s1 := Mul.firstPass lhs rhs
  -- line 132: assert(carryHighest == 0)
  if s1.1.2.2 ≠ 0 then none else
  let s := Mul.lastColumn lhs rhs s1
  let s2 := Mul.secondReduction lhs s
  -- line 160: assert(carryHighest == 0)
  if s.1.2.2 ≠ 0 then none else
  -- line 161: assert(carryLow == 0 || carryLow == 1)
  if ¬ (s2.1 = 0 ∨ s2.1 = 1) then none else
  some (Mul.finish s2.1 s2.2.2)

/-- The method `SetToOne` and the function `one`: the array `uint3072{1}`. -/
def one : uint3072 := fun i => if i.val = 0 then 1 else 0

end uint3072

/-! ## `math/big` and `encoding/binary` -/

/-- The method `z.ModInverse(g, n)` of `math/big` for `g ≥ 0` and `n > 0`: when
`gcd(g, n) = 1` the receiver becomes the inverse of `g` in `[0, n)` (`some`); otherwise
the receiver is left unchanged and `nil` is returned (`none`). -/
def bigModInverse (g n : Nat) : Option Nat :=
  if Nat.gcd g n = 1 then some (Int.toNat (Nat.gcdA g n % (n : Int))) else none

/-- Byte array read `b[i]`. -/
def byteAt {n : Nat} (b : Fin n → UInt8) (i : Nat) : UInt8 :=
  if h : i < n then b ⟨i, h⟩ else 0

/-- Byte array write `b[i] = x`. -/
def setByte {n : Nat} (b : Fin n → UInt8) (i : Nat) (x : UInt8) : Fin n → UInt8 :=
  fun k => if k.val = i then x else b k

/-- The function `binary.LittleEndian.Uint64(b[off:])`. -/
def Uint64LE {n : Nat} (b : Fin n → UInt8) (off : Nat) : Nat :=
  (byteAt b off).toNat ||| ((byteAt b (off + 1)).toNat <<< 8)
    ||| ((byteAt b (off + 2)).toNat <<< 16) ||| ((byteAt b (off + 3)).toNat <<< 24)
    ||| ((byteAt b (off + 4)).toNat <<< 32) ||| ((byteAt b (off + 5)).toNat <<< 40)
    ||| ((byteAt b (off + 6)).toNat <<< 48) ||| ((byteAt b (off + 7)).toNat <<< 56)

/-- The function `binary.LittleEndian.PutUint64(b[off:], v)`; `UInt8.ofNat` is the
conversion `byte(_)`. -/
def PutUint64LE {n : Nat} (b : Fin n → UInt8) (off : Nat) (v : Nat) : Fin n → UInt8 :=
  let b0 := setByte b off (UInt8.ofNat v)
  let b1 := setByte b0 (off + 1) (UInt8.ofNat (v >>> 8))
  let b2 := setByte b1 (off + 2) (UInt8.ofNat (v >>> 16))
  let b3 := setByte b2 (off + 3) (UInt8.ofNat (v >>> 24))
  let b4 := setByte b3 (off + 4) (UInt8.ofNat (v >>> 32))
  let b5 := setByte b4 (off + 5) (UInt8.ofNat (v >>> 40))
  let b6 := setByte b5 (off + 6) (UInt8.ofNat (v >>> 48))
  setByte b6 (off + 7) (UInt8.ofNat (v >>> 56))

/-! ## `num3072.go` -/

namespace num3072

/-- Modelled from the spec: `C.Num3072_Multiply` of muhash.c, which is not among the
sources. The spec (4.1 Multiply, 9 "two parallel arithmetic backends") describes one
algorithm for both backends: the double-width product folded with
`2^3072 ≡ primeDiff`, a fixed number of folds, then up to two full reductions; the fuzz
harness requires the result to equal that of `uint3072.Mul` limb for limb. The model is
that limb algorithm, without the Go `assert`s. -/
def Num3072_Multiply (lhs rhs : num3072) : num3072 :=
  let s := uint3072.Mul.lastColumn lhs rhs (uint3072.Mul.firstPass lhs rhs)
  let s2 := uint3072.Mul.secondReduction lhs s
  uint3072.Mul.finish s2.1 s2.2.2

/-- Modelled from the spec: `C.Num3072_FullReduce` of muhash.c, which is not among the
sources. The spec (4.1 FullReduce): add `primeDiff` to the lowest word with carry
propagation across all words. -/
def Num3072_FullReduce (lhs : num3072) : num3072 :=
  uint3072.FullReduce lhs

/-- The function `oneNum3072`: `num3072{limbs: [LIMBS]word{1}}`. -/
def oneNum3072 : num3072 := fun i => if i.val = 0 then 1 else 0

/-- The method `SetToOne`. -/
def SetToOne (_lhs : num3072) : num3072 := fun i => if i.val = 0 then 1 else 0

/-- The method `Mul`. -/
def Mul (lhs rhs : num3072) : num3072 := Num3072_Multiply lhs rhs

/-- The method `IsOverflow`. -/
def IsOverflow (lhs : num3072) : Bool :=
  if idx lhs 0 ≤ maxLimb - primeDiff then false
  else (List.range' 1 (limbs - 1)).all (fun i => idx lhs i == maxLimb)

/-- The method `FullReduce`. -/
def FullReduce (lhs : num3072) : num3072 := Num3072_FullReduce lhs

/-- The method `GetInverse`; the result is `(lhs, inv)`: the receiver, which is reduced
in place when it is overflowed, and the returned value. `bigInt` shares the words of
`inv` (`SetBits`), so a successful `ModInverse` writes the inverse into `inv` and the
final loop clears the words above it, while a failed one leaves `inv` as it was. -/
def GetInverse (lhs : num3072) : num3072 × num3072 :=
  let lhs1 := if IsOverflow lhs then FullReduce lhs else lhs
  let inv := match bigModInverse (val lhs1) prime with
    | some z => ofNat z
    | none => lhs1
  (lhs1, inv)

/-- The method `Divide`; the result is `(lhs, rhs)`, since `GetInverse` may reduce
`rhs` in place. -/
def Divide (lhs rhs : num3072) : num3072 × num3072 :=
  let lhs1 := if IsOverflow lhs then FullReduce lhs else lhs
  let g := GetInverse rhs
  let lhs2 := Mul lhs1 g.2
  (if IsOverflow lhs2 then FullReduce lhs2 else lhs2, g.1)

end num3072

/-! ## `muhash.go` -/

/-- The type `Hash = [HashSize]byte`. -/
abbrev Hash : Type := Fin HashSize → UInt8

/-- The type `SerializedMuHash = [SerializedMuHashSize]byte`. -/
abbrev SerializedMuHash : Type := Fin elementByteSize → UInt8

/-- The errors of the package. -/
inductive MuHashError where
  | errOverflow
  deriving DecidableEq, Repr

/-- The primitives of `golang.org/x/crypto`, taken as parameters: `blake2b256 key msg`
is `blake2b.New256(key)` followed by `Write(msg)` and `Sum`, and `chacha20 key` is the
first `elementByteSize` bytes of the ChaCha20 key stream for `key` and a zero nonce. -/
structure Primitives where
  blake2b256 : String → List UInt8 → Hash
  chacha20 : Hash → SerializedMuHash

/-- The type `MuHash`. -/
structure MuHash where
  numerator : num3072
  denominator : num3072

/-- The function `bytesToWordsLE`. -/
def bytesToWordsLE (elementsBytes : SerializedMuHash) : num3072 :=
  forLoop 0 elementWordSize
    (fun i elementsWords => setLimb elementsWords i (Uint64LE elementsBytes (i * wordSizeInBytes)))
    (fun _ => 0)

/-- The function `dataToElement`. -/
def dataToElement (P : Primitives) (data : List UInt8) : num3072 :=
  bytesToWordsLE (P.chacha20 (P.blake2b256 "MuHashElement" data))

/-- The function `NewMuHash`. -/
def NewMuHash : MuHash :=
  { numerator := num3072.oneNum3072, denominator := num3072.oneNum3072 }

namespace MuHash

/-- The method `Reset`. -/
def Reset (mu : MuHash) : MuHash :=
  { numerator := num3072.SetToOne mu.numerator,
    denominator := num3072.SetToOne mu.denominator }

/-- The method `Clone` (value receiver: a copy). -/
def Clone (mu : MuHash) : MuHash := mu

/-- The method `addElement`. -/
def addElement (mu : MuHash) (element : num3072) : MuHash :=
  { mu with numerator := num3072.Mul mu.numerator element }

/-- The method `removeElement`. -/
def removeElement (mu : MuHash) (element : num3072) : MuHash :=
  { mu with denominator := num3072.Mul mu.denominator element }

/-- The method `Add`. -/
def Add (P : Primitives) (mu : MuHash) (data : List UInt8) : MuHash :=
  mu.addElement (dataToElement P data)

/-- The method `Remove`. -/
def Remove (P : Primitives) (mu : MuHash) (data : List UInt8) : MuHash :=
  mu.removeElement (dataToElement P data)

/-- The method `Combine`, with `mu` returned (`other` is only read). -/
def Combine (mu other : MuHash) : MuHash :=
  { numerator := num3072.Mul mu.numerator other.numerator,
    denominator := num3072.Mul mu.denominator other.denominator }

/-- The method `normalize`. -/
def normalize (mu : MuHash) : MuHash :=
  let r := num3072.Divide mu.numerator mu.denominator
  { numerator := r.1, denominator := num3072.SetToOne r.2 }

/-- The method `serializeInner`; the result is the receiver, which is normalized in
place, and `out`. -/
def serializeInner (mu : MuHash) (out : SerializedMuHash) : MuHash × SerializedMuHash :=
  let mu1 := mu.normalize
  let b := mu1.numerator
  (mu1, forLoop 0 limbs (fun i out => PutUint64LE out (i * wordSizeInBytes) (idx b i)) out)

/-- The method `Serialize`; the result is the receiver and the returned array. -/
def Serialize (mu : MuHash) : MuHash × SerializedMuHash :=
  mu.serializeInner (fun _ => 0)

/-- The method `Finalize`; the result is the receiver and the returned hash. -/
def Finalize (P : Primitives) (mu : MuHash) : MuHash × Hash :=
  let r := mu.serializeInner (fun _ => 0)
  (r.1, P.blake2b256 "MuHashFinalize" (List.ofFn r.2))

end MuHash

/-- The function `DeserializeMuHash`. -/
def DeserializeMuHash (serialized : SerializedMuHash) : Except MuHashError MuHash :=
  let numerator := bytesToWordsLE serialized
  if num3072.IsOverflow numerator then Except.error MuHashError.errOverflow
  else Except.ok { numerator := numerator, denominator := num3072.oneNum3072 }

/-! ## Specification-level quantities used by the proofs -/

/-- The value of three words `(low, high, carry)`: `low + 2^64 high + 2^128 carry`. -/
def v3 (s : Nat × Nat × Nat) : Nat := s.1 + 2 ^ 64 * s.2.1 + 2 ^ 128 * s.2.2

/-- Column `j` (for `j < limbs`) of the schoolbook product of two 48-limb values. -/
def lowCol (a b : uint3072) (j : Nat) : Nat :=
  ∑ i in Finset.range (j + 1), idx a i * idx b (j - i)

/-- Column `limbs + j` of the schoolbook product of two 48-limb values. -/
def highCol (a b : uint3072) (j : Nat) : Nat :=
  ∑ i in Finset.Ico (j + 1) limbs, idx a i * idx b (limbs + j - i)

/-- The invariant of the first loop of `Mul` after `j` iterations. -/
def outerInv (a b : uint3072) (j : Nat) (s : (Nat × Nat × Nat) × uint3072) : Prop :=
  s.1.2.2 = 0 ∧ s.1.1 < 2 ^ 64 ∧ s.1.2.1 < 2 ^ 64 ∧ s.1.1 + 2 ^ 64 * s.1.2.1 < 2 ^ 92 ∧
    WF s.2 ∧
    limbsVal (idx s.2) j + 2 ^ (64 * j) * (s.1.1 + 2 ^ 64 * s.1.2.1)
      = limbsVal (fun k => lowCol a b k + primeDiff * highCol a b k) j

/-- The invariant of an add-and-extract loop (the second reduction of `Mul`, and
`FullReduce`) after `j` iterations: `src` is the array that is read, `orig` the initial
content of the array that is written and `c0` the initial two-word carry. -/
def extractInv (src orig : uint3072) (c0 : Nat) (j : Nat) (s : Nat × Nat × uint3072) :
    Prop :=
  s.1 < 2 ^ 64 ∧ s.2.1 < 2 ^ 64 ∧ s.1 + 2 ^ 64 * s.2.1 < 2 ^ 92 ∧
    (∀ k, k < j → idx s.2.2 k < 2 ^ 64) ∧ (∀ k, j ≤ k → idx s.2.2 k = idx orig k) ∧
    limbsVal (idx s.2.2) j + 2 ^ (64 * j) * (s.1 + 2 ^ 64 * s.2.1)
      = limbsVal (idx src) j + c0

/-- The value that `num3072.GetInverse` returns for an operand of value `v`: the
modular inverse of `v mod prime` when it exists, and `v mod prime` itself when `big.Int`
finds no inverse. -/
def invMod (v : Nat) : Nat :=
  match bigModInverse (v % prime) prime with
  | some z => z
  | none => v % prime

/-- The field value that an accumulator stands for and that `normalize` computes:
`numerator * denominator⁻¹ mod prime`. -/
def logical (mu : MuHash) : Nat :=
  (val mu.numerator * invMod (val mu.denominator)) % prime

/-- Both halves of an accumulator are arrays of 64-bit words. -/
def MuHash.WF (mu : MuHash) : Prop := muhash.WF mu.numerator ∧ muhash.WF mu.denominator

/-- The little-endian value of the first `n` entries of `f` in base `2 ^ 8`. -/
def bytesValAux (f : Nat → Nat) : Nat → Nat
  | 0 => 0
  | n + 1 => bytesValAux f n + f n * 2 ^ (8 * n)

/-- The 384 bytes read as a little-endian integer. -/
def bytesVal (b : SerializedMuHash) : Nat :=
  bytesValAux (fun i => (byteAt b i).toNat) elementByteSize

/-- The 384-byte little-endian encoding of a natural number: byte `k` holds the bits
`8k .. 8k+7`. -/
def bytesOfNat (v : Nat) : SerializedMuHash := fun k => UInt8.ofNat (v / 2 ^ (8 * k.val))

/-- An `Add` or a `Remove` call with its argument. -/
inductive Update where
  | add (data : List UInt8)
  | remove (data : List UInt8)

/-- An `Add`, `Remove` or `Combine` call with its argument. -/
inductive Call where
  | add (data : List UInt8)
  | remove (data : List UInt8)
  | combine (other : MuHash)

/-- The argument of a `Combine` call is an accumulator of 64-bit words. -/
def Call.WF : Call → Prop
  | Call.combine other => other.WF
  | _ => True

/-- One `Add` or `Remove` call. -/
def MuHash.update (P : Primitives) (mu : MuHash) : Update → MuHash
  | Update.add data => mu.Add P data
  | Update.remove data => mu.Remove P data

/-- A list of `Add`/`Remove` calls, applied from left to right. -/
def MuHash.replay (P : Primitives) (mu : MuHash) (ops : List Update) : MuHash :=
  ops.foldl (MuHash.update P) mu

/-- One `Add`, `Remove` or `Combine` call. -/
def MuHash.call (P : Primitives) (mu : MuHash) : Call → MuHash
  | Call.add data => mu.Add P data
  | Call.remove data => mu.Remove P data
  | Call.combine other => mu.Combine other

/-- A list of `Add`/`Remove`/`Combine` calls, applied from left to right. -/
def MuHash.run (P : Primitives) (mu : MuHash) (calls : List Call) : MuHash :=
  calls.foldl (MuHash.call P) mu

/-- Example primitives whose key stream is all zero: every element encodes to the
all-zero field element. -/
def zeroStream : Primitives :=
  { blake2b256 := fun _ _ _ => 0, chacha20 := fun _ _ => 0 }

/-- Example primitives whose key stream is the little-endian encoding of `2`: every
element encodes to the field element `2`. -/
def twoStream : Primitives :=
  { blake2b256 := fun _ _ _ => 0, chacha20 := fun _ => bytesOfNat 2 }

end muhash

namespace muhash

/-! ## `uint3072.go`: `Square`, `Divide`, `squareNmul` and `GetInverse` -/

namespace uint3072

/-- The function `extract3`, with `(low, high, carry)` as a triple: the result is the
shifted triple and the extracted limb `n`. -/
def extract3 (s : Nat × Nat × Nat) : (Nat × Nat × Nat) × Nat :=
  ((s.2.1, s.2.2, 0), s.1)

/-- The function `mulnadd3`: `[c0, c1, c2] += n * [d0, d1, d2]`; `c2` is overwritten. -/
def mulnadd3 (c d : Nat × Nat × Nat) (n : Nat) : Nat × Nat × Nat :=
  let tmpHigh := (bitsMul d.1 n).1
  let tmpLow := (bitsMul d.1 n).2
  let c0 := (bitsAdd c.1 tmpLow 0).1
  let carry := (bitsAdd c.1 tmpLow 0).2
  let tmpHigh' := (tmpHigh + carry) % 2 ^ 64
  let tmpHigh2 := (bitsMul d.2.1 n).1
  let tmpLow2 := (bitsMul d.2.1 n).2
  let c1 := (bitsAdd tmpLow2 c.2.1 0).1
  let carry2 := (bitsAdd tmpLow2 c.2.1 0).2
  let tmpHigh2' := (tmpHigh2 + carry2) % 2 ^ 64
  let c1' := (bitsAdd c1 tmpHigh' 0).1
  let carry3 := (bitsAdd c1 tmpHigh' 0).2
  let tmpHigh2'' := (tmpHigh2' + carry3) % 2 ^ 64
  (c0, c1', (tmpHigh2'' + (d.2.2 * n) % 2 ^ 64) % 2 ^ 64)

/-- The function `muln2`: `[low, high] *= n`. -/
def muln2 (s : Nat × Nat) (n : Nat) : Nat × Nat :=
  let tmpHigh := (bitsMul s.1 n).1
  let low := (bitsMul s.1 n).2
  let tmpLow := (bitsMul s.2 n).2
  (low, (tmpHigh + tmpLow) % 2 ^ 64)

/-- The function `muladd3`: `[low, high, carry] += a * b`. -/
def muladd3 (s : Nat × Nat × Nat) (a b : Nat) : Nat × Nat × Nat :=
  let tmpHigh := (bitsMul a b).1
  let tmpLow := (bitsMul a b).2
  let low := (bitsAdd s.1 tmpLow 0).1
  let tmpCarry := (bitsAdd s.1 tmpLow 0).2
  let high := (bitsAdd s.2.1 tmpHigh tmpCarry).1
  let tmpCarry2 := (bitsAdd s.2.1 tmpHigh tmpCarry).2
  (low, high, (s.2.2 + tmpCarry2) % 2 ^ 64)

/-- The function `muldbladd3`: `[low, high, carry] += 2 * a * b`. -/
def muldbladd3 (s : Nat × Nat × Nat) (a b : Nat) : Nat × Nat × Nat :=
  let tmpHigh := (bitsMul a b).1
  let tmpLow := (bitsMul a b).2
  let low := (bitsAdd s.1 tmpLow 0).1
  let tmpCarry := (bitsAdd s.1 tmpLow 0).2
  let high := (bitsAdd s.2.1 tmpHigh tmpCarry).1
  let tmpCarry2 := (bitsAdd s.2.1 tmpHigh tmpCarry).2
  let carry := (s.2.2 + tmpCarry2) % 2 ^ 64
  let low' := (bitsAdd low tmpLow 0).1
  let tmpCarry3 := (bitsAdd low tmpLow 0).2
  let high' := (bitsAdd high tmpHigh tmpCarry3).1
  let tmpCarry4 := (bitsAdd high tmpHigh tmpCarry3).2
  (low', high', (carry + tmpCarry4) % 2 ^ 64)

/-- The function `addnextract2`; the result is `(low, high, n)`. -/
def addnextract2 (s : Nat × Nat) (a : Nat) : Nat × Nat × Nat :=
  let low := (bitsAdd s.1 a 0).1
  let carry := (bitsAdd s.1 a 0).2
  let high := (bitsAdd s.2 0 carry).1
  let carry2 := (bitsAdd s.2 0 carry).2
  let high' := (bitsAdd high 0 carry2).1
  let carry3 := (bitsAdd high 0 carry2).2
  (high', carry3, low)

/-- Lines 180-187 of `Square`: the column `limbs + j` of the square, accumulated from
zero in `(carryLow, carryHigh, carryHighest)`. -/
def Square.highColumn (lhs : uint3072) (j : Nat) : Nat × Nat × Nat :=
  let c := forLoop 0 ((limbs - 1 - j) / 2)
    (fun i c => muldbladd3 c (idx lhs (i + j + 1)) (idx lhs (limbs - 1 - i))) (0, 0, 0)
  if (j + 1) &&& 1 = 1 then
    muladd3 c (idx lhs ((limbs - 1 - j) / 2 + j + 1)) (idx lhs (limbs - 1 - (limbs - 1 - j) / 2))
  else c

/-- Lines 190-196 of `Square`: the column `j` of the square is added to
`(low, high, carry)`. -/
def Square.lowColumn (lhs : uint3072) (j : Nat) (s : Nat × Nat × Nat) : Nat × Nat × Nat :=
  let s1 := forLoop 0 ((j + 1) / 2) (fun i s => muldbladd3 s (idx lhs i) (idx lhs (j - i))) s
  if (j + 1) &&& 1 = 1 then muladd3 s1 (idx lhs ((j + 1) / 2)) (idx lhs (j - (j + 1) / 2))
  else s1

/-- The body of the first loop of `Square` (lines 179-198); the state is
`(low, high, carry)` and `tmp`. -/
def Square.outer (lhs : uint3072) (j : Nat) (s : (Nat × Nat × Nat) × uint3072) :
    (Nat × Nat × Nat) × uint3072 :=
  let c := Square.highColumn lhs j
  let s1 := mulnadd3 s.1 c primeDiff
  let s2 := Square.lowColumn lhs j s1
  ((extract3 s2).1, setLimb s.2 j (extract3 s2).2)

/-- The first loop of `Square`. -/
def Square.firstPass (lhs : uint3072) : (Nat × Nat × Nat) × uint3072 :=
  forLoop 0 (limbs - 1) (Square.outer lhs) ((0, 0, 0), fun _ => 0)

/-- Lines 201-204 of `Square`: limb `limbs - 1` of the square. -/
def Square.lastColumn (lhs : uint3072) (s : (Nat × Nat × Nat) × uint3072) :
    (Nat × Nat × Nat) × uint3072 :=
  let s1 := forLoop 0 (limbs / 2)
    (fun i s => muldbladd3 s (idx lhs i) (idx lhs (limbs - 1 - i))) s.1
  ((extract3 s1).1, setLimb s.2 (limbs - 1) (extract3 s1).2)

/-- Lines 206-210 of `Square`, the second reduction; the result is `(low, high, lhs)`. -/
def Square.secondReduction (lhs : uint3072) (s : (Nat × Nat × Nat) × uint3072) :
    Nat × Nat × uint3072 :=
  let m := muln2 (s.1.1, s.1.2.1) primeDiff
  forLoop 0 limbs
    (fun j st =>
      ((addnextract2 (st.1, st.2.1) (idx s.2 j)).1, (addnextract2 (st.1, st.2.1) (idx s.2 j)).2.1,
        setLimb st.2.2 j (addnextract2 (st.1, st.2.1) (idx s.2 j)).2.2))
    (m.1, m.2, lhs)

/-- The method `Square`, with `lhs` returned; `none` is a failed `assert`. -/
def Square (lhs : uint3072) : Option uint3072 :=
  let s1 := Square.firstPass lhs
  -- line 199: assert(carry == 0)
  if s1.1.2.2 ≠ 0 then none else
  let s := Square.lastColumn lhs s1
  let s2 := Square.secondReduction lhs s
  -- line 212: assert(high == 0)
  if s2.2.1 ≠ 0 then none else
  -- line 213: assert(low == 0 || low == 1)
  if ¬ (s2.1 = 0 ∨ s2.1 = 1) then none else
  let r := if IsOverflow s2.2.2 then FullReduce s2.2.2 else s2.2.2
  some (if s2.1 > 0 then FullReduce r else r)

/-- The method `Divide`; the result is `(lhs, rhs)`, since `rhs` is reduced in place
when it is overflowed, and `none` is a failed `assert` of `Mul`. `right` is the
`big.Int` whose words are those of `rhs`; a failed `ModInverse` leaves it unchanged, and
`inv` receives the words of `right`, the other words staying zero. -/
def Divide (lhs rhs : uint3072) : Option (uint3072 × uint3072) :=
  let lhs1 := if IsOverflow lhs then FullReduce lhs else lhs
  let rhs1 := if IsOverflow rhs then FullReduce rhs else rhs
  let right := val rhs1
  let right' := (bigModInverse right prime).getD right
  let inv := ofNat right'
  (Mul lhs1 inv).map (fun l => (if IsOverflow l then FullReduce l else l, rhs1))

/-- The method `squareNmul`: `lhs = lhs^(2^exp) * mul`. -/
def squareNmul (lhs : uint3072) (exp : Nat) (mul : uint3072) : Option uint3072 :=
  (forLoop 0 exp (fun _ s => s.bind Square) (some lhs)).bind (fun l => Mul l mul)

/-- Read `powers[i]` in an array of twelve values. -/
def getPower (powers : Fin 12 → uint3072) (i : Nat) : uint3072 :=
  if h : i < 12 then powers ⟨i, h⟩ else fun _ => 0

/-- Write `powers[i] = x`. -/
def setPower (powers : Fin 12 → uint3072) (i : Nat) (x : uint3072) : Fin 12 → uint3072 :=
  fun k => if k.val = i then x else powers k

/-- The body of the precomputation loop of `GetInverse` (lines 269-275):
`powers[i+1]` is `powers[i]` squared `1 << i` times and multiplied by `powers[i]`. -/
def GetInverse.step (i : Nat) (s : Option (Fin 12 → uint3072)) : Option (Fin 12 → uint3072) :=
  s.bind (fun powers =>
    ((forLoop 0 (1 <<< i) (fun _ t => t.bind Square) (some (getPower powers i))).bind
      (fun x => Mul x (getPower powers i))).map (fun x => setPower powers (i + 1) x))

/-- One line `res.squareNmul(n, &powers[k])` of `GetInverse`; a failed `assert` of an
earlier line is passed on. -/
def GetInverse.line (powers : Fin 12 → uint3072) (res : Option uint3072) (n k : Nat) :
    Option uint3072 :=
  res.bind (fun r => squareNmul r n (getPower powers k))

/-- The method `GetInverse`; `none` is a failed `assert`. The receiver is only read. -/
def GetInverse (lhs : uint3072) : Option uint3072 :=
  (forLoop 0 11 GetInverse.step (some (setPower (fun _ _ => 0) 0 lhs))).bind (fun powers =>
  let res := some (getPower powers 11)
  let res := GetInverse.line powers res 512 9
  let res := GetInverse.line powers res 256 8
  let res := GetInverse.line powers res 128 7
  let res := GetInverse.line powers res 64 6
  let res := GetInverse.line powers res 32 5
  let res := GetInverse.line powers res 8 3
  let res := GetInverse.line powers res 2 1
  let res := GetInverse.line powers res 1 0
  let res := GetInverse.line powers res 5 2
  let res := GetInverse.line powers res 3 0
  let res := GetInverse.line powers res 2 0
  let res := GetInverse.line powers res 4 0
  let res := GetInverse.line powers res 4 1
  GetInverse.line powers res 3 0)

end uint3072

/-! ## Specification-level quantities for `Square`, `GetInverse` and `Divide` -/

/-- The exponent of `powers[k]` in `GetInverse`: the repunit `2^(2^k) - 1`. -/
def repunit (k : Nat) : Nat := 2 ^ (2 ^ k) - 1

/-- The exponent after `squareNmul(n, &powers[k])` on a value of exponent `e`. -/
def expStep (e n k : Nat) : Nat := e * 2 ^ n + repunit k

/-- The exponent that the fourteen `squareNmul` steps of `GetInverse` compose. -/
def inverseExponent : Nat :=
  expStep (expStep (expStep (expStep (expStep (expStep (expStep (expStep (expStep (expStep
    (expStep (expStep (expStep (expStep (repunit 11) 512 9) 256 8) 128 7) 64 6) 32 5) 8 3)
    2 1) 1 0) 5 2) 3 0) 2 0) 4 0) 4 1) 3 0

/-- The limb pattern of `p - 1`: limb 0 is `maxUint - primeDiff`, the others `maxUint`. -/
def primeMinusOne : uint3072 := fun i => if i.val = 0 then maxUint - primeDiff else maxUint

/-- The single-word value `x`: limb 0 is `x` and the other limbs are zero (the values
that the test helper `uint3072equalToUint` accepts). -/
def singleWord (x : Nat) : uint3072 := fun i => if i.val = 0 then x else 0

/-- A list of `Mul` calls applied to `s` from left to right. -/
def mulAll (s : uint3072) (es : List uint3072) : Option uint3072 :=
  es.foldl (fun acc e => acc.bind (fun x => uint3072.Mul x e)) (some s)

/-- A list of `Divide` calls applied to `s` from left to right. -/
def divAll (s : uint3072) (es : List uint3072) : Option uint3072 :=
  es.foldl (fun acc e => acc.bind (fun x => (uint3072.Divide x e).map Prod.fst)) (some s)

end muhash

namespace muhash

/-! ## `Hash.SetBytes` and the empty-set constant (`muhash.go`) -/

/-- The builtin `copy(dst[:], src)` on a byte array: the first `min(len(dst), len(src))`
bytes of `dst` are overwritten by those of `src`. -/
def copyBytes {n : Nat} (dst : Fin n → UInt8) (src : List UInt8) : Fin n → UInt8 :=
  fun i => src.getD i.val (dst i)

/-- The method `Hash.SetBytes`; the result is the receiver and the returned error, where
`none` is `nil` and `some msg` is `errors.Errorf` with its formatted message. -/
def Hash.SetBytes (hash : Hash) (newHash : List UInt8) : Hash × Option String :=
  if newHash.length ≠ HashSize then
    (hash, some ("invalid hash length got " ++ toString newHash.length ++ ", expected "
      ++ toString HashSize))
  else (copyBytes hash newHash, none)

/-- The bytes of the variable `EmptyMuHashHash`. -/
def emptyMuHashBytes : List Nat :=
  [0x54, 0x4e, 0xb3, 0x14, 0x2c, 0x0, 0xf, 0xa, 0xd2, 0xc7, 0x6a, 0xc4, 0x1f, 0x42, 0x22,
   0xab, 0xba, 0xba, 0xbe, 0xd8, 0x30, 0xee, 0xaf, 0xee, 0x4b, 0x6d, 0xc5, 0x6b, 0x52, 0xd5,
   0xca, 0xc0]

/-- The variable `EmptyMuHashHash`. -/
def EmptyMuHashHash : Hash := fun i => UInt8.ofNat (emptyMuHashBytes.getD i.val 0)

/-! ## The keyed hash of `golang.org/x/crypto/blake2b` -/

namespace blake2b

/-- The initialization vector of BLAKE2b. -/
def iv : List Nat :=
  [0x6a09e667f3bcc908, 0xbb67ae8584caa73b, 0x3c6ef372fe94f82b, 0xa54ff53a5f1d36f1,
   0x510e527fade682d1, 0x9b05688c2b3e6c1f, 0x1f83d9abfb41bd6b, 0x5be0cd19137e2179]

/-- The message word schedule of BLAKE2b; rounds 10 and 11 use rows 0 and 1 again. -/
def sigma : List (List Nat) :=
  [[0, 1, 2, 3, 4, 5, 6, 7, 8, 9, 10, 11, 12, 13, 14, 15],
   [14, 10, 4, 8, 9, 15, 13, 6, 1, 12, 0, 2, 11, 7, 5, 3],
   [11, 8, 12, 0, 5, 2, 15, 13, 10, 14, 3, 6, 7, 1, 9, 4],
   [7, 9, 3, 1, 13, 12, 11, 14, 2, 6, 5, 10, 4, 0, 15, 8],
   [9, 0, 5, 7, 2, 4, 10, 15, 14, 1, 11, 12, 6, 8, 3, 13],
   [2, 12, 6, 10, 0, 11, 8, 3, 4, 13, 7, 5, 15, 14, 1, 9],
   [12, 5, 1, 15, 14, 13, 4, 10, 0, 7, 6, 3, 9, 2, 8, 11],
   [13, 11, 7, 14, 12, 1, 3, 9, 5, 0, 15, 4, 8, 6, 2, 10],
   [6, 15, 14, 9, 11, 3, 0, 8, 12, 2, 13, 7, 1, 4, 10, 5],
   [10, 2, 8, 4, 7, 6, 1, 5, 15, 11, 9, 14, 3, 12, 13, 0]]

/-- Rotation of a 64-bit word to the right by `n` bits. -/
def rotr (x n : Nat) : Nat := ((x >>> n) ||| (x <<< (64 - n))) % 2 ^ 64

/-- The mixing function `G` on the words `a`, `b`, `c`, `d` of the work vector `v`. -/
def G (v : List Nat) (a b c d x y : Nat) : List Nat :=
  let va := (v.getD a 0 + v.getD b 0 + x) % 2 ^ 64
  let vd := rotr (v.getD d 0 ^^^ va) 32
  let vc := (v.getD c 0 + vd) % 2 ^ 64
  let vb := rotr (v.getD b 0 ^^^ vc) 24
  let va := (va + vb + y) % 2 ^ 64
  let vd := rotr (vd ^^^ va) 16
  let vc := (vc + vd) % 2 ^ 64
  let vb := rotr (vb ^^^ vc) 63
  (((v.set a va).set b vb).set c vc).set d vd

/-- One round: four column steps and four diagonal steps, with the message words `m`
taken in the order `s`. -/
def round (m v s : List Nat) : List Nat :=
  let w := fun i : Nat => m.getD (s.getD i 0) 0
  let v := G v 0 4 8 12 (w 0) (w 1)
  let v := G v 1 5 9 13 (w 2) (w 3)
  let v := G v 2 6 10 14 (w 4) (w 5)
  let v := G v 3 7 11 15 (w 6) (w 7)
  let v := G v 0 5 10 15 (w 8) (w 9)
  let v := G v 1 6 11 12 (w 10) (w 11)
  let v := G v 2 7 8 13 (w 12) (w 13)
  G v 3 4 9 14 (w 14) (w 15)

/-- The little-endian 64-bit word `i` of a block of bytes (missing bytes are zero). -/
def word (b : List Nat) (i : Nat) : Nat :=
  (List.range 8).foldl (fun acc k => acc + b.getD (8 * i + k) 0 * 2 ^ (8 * k)) 0

/-- The compression function: chain value `h`, one block of at most 128 bytes, the byte
counter `t` and the last-block flag. -/
def compress (h block : List Nat) (t : Nat) (last : Bool) : List Nat :=
  let m := (List.range 16).map (word block)
  let v := h ++ iv
  let v := v.set 12 (v.getD 12 0 ^^^ (t % 2 ^ 64))
  let v := v.set 13 (v.getD 13 0 ^^^ (t / 2 ^ 64 % 2 ^ 64))
  let v := if last then v.set 14 (v.getD 14 0 ^^^ (2 ^ 64 - 1)) else v
  let v := (List.range 12).foldl (fun v r => round m v (sigma.getD (r % 10) [])) v
  (List.range 8).map (fun i => h.getD i 0 ^^^ v.getD i 0 ^^^ v.getD (i + 8) 0)

/-- The blocks of the input in turn; the last one (at most 128 bytes) is compressed
with the flag set. -/
def absorb : Nat → List Nat → List Nat → Nat → List Nat
  | 0, h, _, _ => h
  | fuel + 1, h, data, t =>
    if data.length ≤ 128 then compress h data (t + data.length) true
    else absorb fuel (compress h (data.take 128) (t + 128) false) (data.drop 128) (t + 128)

/-- Modelled from the spec: the keyed hash with a 32-byte output, which the spec (6,
"collaborator contract") takes as a primitive. The package
`golang.org/x/crypto/blake2b` is not among the sources; the model is BLAKE2b as
published (RFC 7693) with digest length 32: the parameter word is folded into the first
chain word, a nonempty key is absorbed as a first block padded with zeros, and the digest
is the little-endian bytes of the first four chain words. Bytes are natural numbers
below 256. -/
def sum256 (key msg : List Nat) : List Nat :=
  let h := iv.set 0 (iv.getD 0 0 ^^^ (0x01010000 ^^^ (key.length <<< 8) ^^^ 32))
  let data := (if key = [] then [] else key ++ List.replicate (128 - key.length) 0) ++ msg
  let h := absorb (data.length / 128 + 1) h data 0
  (List.range 32).map (fun i => h.getD (i / 8) 0 / 2 ^ (8 * (i % 8)) % 256)

/-- The calls `blake2b.New256(key)`, `Write(msg)` and `Sum` of the package, for a key
given as a Go string. -/
def New256 (key : String) (msg : List UInt8) : Hash :=
  fun i => UInt8.ofNat
    ((sum256 (key.toUTF8.data.toList.map UInt8.toNat) (msg.map UInt8.toNat)).getD i.val 0)

end blake2b

/-- The primitives with BLAKE2b as the keyed hash and a given key stream function. -/
def blakePrimitives (stream : Hash → SerializedMuHash) : Primitives :=
  { blake2b256 := blake2b.New256, chacha20 := stream }

/-! ## Accumulators behind pointers -/

/-- A heap of accumulators; a `*MuHash` is an index into it. -/
abbrev Store : Type := List MuHash

/-- A method call on a `*MuHash`; the argument of `Combine` is a pointer too. -/
inductive Method where
  | Add (data : List UInt8)
  | Remove (data : List UInt8)
  | Combine (other : Nat)
  | Reset
  | Serialize
  | Finalize

/-- The accumulator that a method with a pointer receiver leaves in its receiver. -/
def Method.run (P : Primitives) (s : Store) (mu : MuHash) : Method → Option MuHash
  | Method.Add data => some (mu.Add P data)
  | Method.Remove data => some (mu.Remove P data)
  | Method.Combine other => (s.get? other).map (fun o => mu.Combine o)
  | Method.Reset => some mu.Reset
  | Method.Serialize => some mu.Serialize.1
  | Method.Finalize => some (mu.Finalize P).1

/-- The call `p.method(...)` for a pointer `p`: the receiver is written back to the cell
`p`; `none` is a nil or dangling pointer. -/
def Store.invoke (P : Primitives) (s : Store) (p : Nat) (m : Method) : Option Store :=
  (s.get? p).bind (fun mu => (m.run P s mu).map (fun r => s.set p r))

/-- A list of method calls on the same pointer, from left to right. -/
def Store.invokeAll (P : Primitives) (s : Store) (p : Nat) (ms : List Method) :
    Option Store :=
  ms.foldl (fun acc m => acc.bind (fun t => Store.invoke P t p m)) (some s)

/-- The call `p.Clone()`: the value receiver is a copy of `*p`, and `&mu` is the address
of that copy, a new cell. The result is the new heap and the pointer returned. -/
def Store.Clone (s : Store) (p : Nat) : Option (Store × Nat) :=
  (s.get? p).map (fun mu => (s ++ [mu.Clone], s.length))

/-! ## Histories with `Serialize` and `Finalize` calls in between -/

/-- An `Add`, `Remove` or `Combine` call, or a `Serialize` or `Finalize` call whose
result is dropped. -/
inductive Step where
  | call (c : Call)
  | serialize
  | finalize

/-- One step on the receiver. -/
def MuHash.step (P : Primitives) (mu : MuHash) : Step → MuHash
  | Step.call c => mu.call P c
  | Step.serialize => mu.Serialize.1
  | Step.finalize => (mu.Finalize P).1

/-- A list of steps, applied from left to right. -/
def MuHash.steps (P : Primitives) (mu : MuHash) (l : List Step) : MuHash :=
  l.foldl (MuHash.step P) mu

/-- The `Add`, `Remove` and `Combine` calls of a list of steps, in order. -/
def Step.calls : List Step → List Call
  | [] => []
  | Step.call c :: l => c :: Step.calls l
  | Step.serialize :: l => Step.calls l
  | Step.finalize :: l => Step.calls l

/-- The value is invertible modulo `prime` or is zero modulo `prime` (every value, when
`prime` is a prime number). -/
def unitOrZero (v : Nat) : Prop := Nat.Coprime v prime ∨ v % prime = 0

/-- The factor that a call multiplies into the denominator is invertible or zero
modulo `prime`. -/
def Call.unitOrZero (P : Primitives) : Call → Prop
  | Call.add _ => True
  | Call.remove data => muhash.unitOrZero (val (dataToElement P data))
  | Call.combine other => muhash.unitOrZero (val other.denominator)

end muhash

namespace muhash

/-! ## Field elements behind pointers -/

/-- The call `lhs.Mul(rhs)` of uint3072.go for two pointers into a heap of `uint3072`
arrays: the method reads both arrays and assigns only to locals, to `tmp` and to
`lhs[j]`, so the result goes to the cell of `lhs`; `none` is a nil pointer or a failed
`assert`. -/
def uint3072.MulAt (h : List uint3072) (lhs rhs : Nat) : Option (List uint3072) :=
  (h.get? lhs).bind (fun a =>
    (h.get? rhs).bind (fun b => (uint3072.Mul a b).map (fun r => h.set lhs r)))

/-- The accumulator is in normal form: the denominator is the element one and the
numerator is not overflowed. -/
def MuHash.normalForm (mu : MuHash) : Prop :=
  mu.denominator = num3072.oneNum3072 ∧ val mu.numerator < prime ∧
    num3072.IsOverflow mu.numerator = false

end muhash

namespace muhash

/-! ## Small factors of the modulus -/

/-- The product of the eight numbers `30 k + r` that are coprime to 30. -/
def wheel (k : Nat) : Nat :=
  (30 * k + 1) * (30 * k + 7) * (30 * k + 11) * (30 * k + 13) * (30 * k + 17) * (30 * k + 19)
    * (30 * k + 23) * (30 * k + 29)

/-- The product of `wheel j` for the `2 ^ d` values `j = k, ..., k + 2 ^ d - 1`. -/
def wheelTree : Nat → Nat → Nat
  | 0, k => wheel k
  | d + 1, k => wheelTree d k * wheelTree d (k + 2 ^ d)

end muhash

namespace muhash

/-! ## Loops and arrays -/

theorem forLoop_empty {σ : Type} (lo hi : Nat) (body : Nat → σ → σ) (s : σ)
    (h : hi ≤ lo) : forLoop lo hi body s = s := by
  unfold forLoop
  rw [Nat.sub_eq_zero_of_le h]
  rfl

theorem forLoop_succ {σ : Type} (lo hi : Nat) (body : Nat → σ → σ) (s : σ)
    (h : lo ≤ hi) : forLoop lo (hi + 1) body s = body hi (forLoop lo hi body s) := by
  unfold forLoop
  have e : hi + 1 - lo = (hi - lo) + 1 := by omega
  rw [e, List.range'_concat, List.foldl_append]
  have e2 : lo + (hi - lo) = hi := by omega
  simp [e2]

/-- Loop invariant rule: an invariant that holds at entry and is preserved by every
iteration holds at exit. -/
theorem forLoop_inv {σ : Type} (P : Nat → σ → Prop) (lo hi : Nat) (body : Nat → σ → σ)
    (s : σ) (h : lo ≤ hi) (h0 : P lo s)
    (hstep : ∀ i t, lo ≤ i → i < hi → P i t → P (i + 1) (body i t)) :
    P hi (forLoop lo hi body s) := by
  induction hi with
  | zero =>
    have : lo = 0 := by omega
    subst this
    rw [forLoop_empty _ _ _ _ (le_refl _)]
    exact h0
  | succ n ih =>
    rcases Nat.eq_or_lt_of_le h with e | hlt
    · rw [← e, forLoop_empty _ _ _ _ (le_refl _)]
      exact h0
    · have hle : lo ≤ n := by omega
      rw [forLoop_succ _ _ _ _ hle]
      exact hstep n _ hle (by omega)
        (ih hle (fun i t h1 h2 hp => hstep i t h1 (by omega) hp))

theorem idx_lt {n : Nat} (a : Fin n → Nat) (i : Nat) (h : i < n) :
    idx a i = a ⟨i, h⟩ := by
  simp [idx, h]

theorem idx_ge {n : Nat} (a : Fin n → Nat) (i : Nat) (h : n ≤ i) : idx a i = 0 := by
  simp [idx, Nat.not_lt.mpr h]

theorem idx_lt_word {n : Nat} (a : Fin n → Nat) (h : WF a) (i : Nat) :
    idx a i < 2 ^ 64 := by
  unfold idx
  split
  · exact h _
  · exact Nat.pos_pow_of_pos _ (by decide)

theorem idx_setLimb {n : Nat} (a : Fin n → Nat) (j x i : Nat) :
    idx (setLimb a j x) i = if i = j ∧ i < n then x else idx a i := by
  unfold idx setLimb
  by_cases h : i < n
  · by_cases e : i = j
    · subst e; simp [h]
    · simp [h, e]
  · simp [h]

theorem idx_setLimb_ne {n : Nat} (a : Fin n → Nat) (j x i : Nat) (h : i ≠ j) :
    idx (setLimb a j x) i = idx a i := by
  rw [idx_setLimb]; simp [h]

theorem idx_setLimb_eq {n : Nat} (a : Fin n → Nat) (j x : Nat) (h : j < n) :
    idx (setLimb a j x) j = x := by
  rw [idx_setLimb]; simp [h]

theorem WF_setLimb {n : Nat} (a : Fin n → Nat) (j x : Nat) (h : WF a)
    (hx : x < 2 ^ 64) : WF (setLimb a j x) := by
  intro i
  unfold setLimb
  split
  · exact hx
  · exact h i

theorem ext_idx {n : Nat} (a b : Fin n → Nat) (h : ∀ i, i < n → idx a i = idx b i) :
    a = b := by
  funext k
  have := h k.val k.isLt
  rw [idx_lt a _ k.isLt, idx_lt b _ k.isLt] at this
  exact this

/-! ## Little-endian values -/

theorem limbsVal_congr (f g : Nat → Nat) (n : Nat) (h : ∀ i, i < n → f i = g i) :
    limbsVal f n = limbsVal g n := by
  induction n with
  | zero => rfl
  | succ n ih =>
    simp only [limbsVal]
    rw [ih (fun i hi => h i (by omega)), h n (by omega)]

theorem limbsVal_lt (f : Nat → Nat) (n : Nat) (h : ∀ i, i < n → f i < 2 ^ 64) :
    limbsVal f n < 2 ^ (64 * n) := by
  induction n with
  | zero => simp [limbsVal]
  | succ n ih =>
    simp only [limbsVal]
    have h1 := ih (fun i hi => h i (by omega))
    have h2 := h n (by omega)
    have e : 2 ^ (64 * (n + 1)) = 2 ^ 64 * 2 ^ (64 * n) := by
      rw [← pow_add]; congr 1; omega
    rw [e]
    have h3 : f n * 2 ^ (64 * n) ≤ (2 ^ 64 - 1) * 2 ^ (64 * n) :=
      Nat.mul_le_mul_right _ (by omega)
    have h4 : (2 ^ 64 - 1) * 2 ^ (64 * n) + 2 ^ (64 * n) = 2 ^ 64 * 2 ^ (64 * n) := by
      rw [Nat.sub_mul]
      have : 1 * 2 ^ (64 * n) ≤ 2 ^ 64 * 2 ^ (64 * n) :=
        Nat.mul_le_mul_right _ (by decide)
      omega
    omega

theorem limbsVal_eq_sum (f : Nat → Nat) (n : Nat) :
    limbsVal f n = ∑ i in Finset.range n, f i * 2 ^ (64 * i) := by
  induction n with
  | zero => simp [limbsVal]
  | succ n ih => rw [Finset.sum_range_succ, ← ih]; rfl

theorem val_lt (a : uint3072) (h : WF a) : val a < 2 ^ 3072 :=
  limbsVal_lt (idx a) limbs (fun i _ => idx_lt_word a h i)

/-- The words of `ofNat v` are 64-bit. -/
theorem WF_ofNat (v : Nat) : WF (ofNat v) := by
  intro i
  exact Nat.mod_lt _ (by decide)

theorem limbsVal_ofNat (v n : Nat) :
    limbsVal (fun i => (v / 2 ^ (64 * i)) % 2 ^ 64) n = v % 2 ^ (64 * n) := by
  induction n with
  | zero => simp [limbsVal, Nat.mod_one]
  | succ n ih =>
    simp only [limbsVal]
    rw [ih]
    have e : 2 ^ (64 * (n + 1)) = 2 ^ (64 * n) * 2 ^ 64 := by
      rw [← pow_add]; congr 1
    rw [e, Nat.mod_mul, Nat.mul_comm (2 ^ (64 * n))]

theorem val_ofNat (v : Nat) : val (ofNat v) = v % 2 ^ 3072 := by
  unfold val
  rw [limbsVal_congr (idx (ofNat v)) (fun i => (v / 2 ^ (64 * i)) % 2 ^ 64) limbs
    (fun i hi => by rw [idx_lt _ _ hi]; rfl)]
  rw [limbsVal_ofNat]
  rfl

/-- Two arrays of 64-bit words that agree on their first `n` digits' value agree
limb for limb. -/
theorem limbsVal_inj (f g : Nat → Nat) (n : Nat)
    (hf : ∀ i, i < n → f i < 2 ^ 64) (hg : ∀ i, i < n → g i < 2 ^ 64)
    (h : limbsVal f n = limbsVal g n) : ∀ i, i < n → f i = g i := by
  induction n with
  | zero => intro i hi; omega
  | succ n ih =>
    simp only [limbsVal] at h
    have hf1 := limbsVal_lt f n (fun i hi => hf i (by omega))
    have hg1 := limbsVal_lt g n (fun i hi => hg i (by omega))
    have e1 : (limbsVal f n + f n * 2 ^ (64 * n)) / 2 ^ (64 * n) = f n := by
      rw [Nat.add_mul_div_right _ _ (Nat.pos_pow_of_pos _ (by decide)),
        Nat.div_eq_of_lt hf1, Nat.zero_add]
    have e2 : (limbsVal g n + g n * 2 ^ (64 * n)) / 2 ^ (64 * n) = g n := by
      rw [Nat.add_mul_div_right _ _ (Nat.pos_pow_of_pos _ (by decide)),
        Nat.div_eq_of_lt hg1, Nat.zero_add]
    have hn : f n = g n := by rw [← e1, ← e2, h]
    rw [hn] at h
    have hrest : limbsVal f n = limbsVal g n := by omega
    intro i hi
    rcases Nat.lt_or_ge i n with h1 | h1
    · exact ih (fun i hi => hf i (by omega)) (fun i hi => hg i (by omega)) hrest i h1
    · have : i = n := by omega
      rw [this]; exact hn

theorem val_inj (a b : uint3072) (ha : WF a) (hb : WF b) (h : val a = val b) : a = b :=
  ext_idx a b (limbsVal_inj (idx a) (idx b) limbs (fun i _ => idx_lt_word a ha i)
    (fun i _ => idx_lt_word b hb i) h)

theorem ofNat_val (a : uint3072) (h : WF a) : ofNat (val a) = a := by
  apply val_inj _ _ (WF_ofNat _) h
  rw [val_ofNat, Nat.mod_eq_of_lt (val_lt a h)]

end muhash

namespace muhash

open uint3072

/-! ## Three-word accumulators -/

theorem mul_lt_word (x y : Nat) (hx : x < 2 ^ 64) (hy : y < 2 ^ 64) :
    x * y < 2 ^ 128 := by
  have : x * y < 2 ^ 64 * 2 ^ 64 := Nat.mul_lt_mul'' hx hy
  simpa using this

theorem acc_spec (a b : Nat) (s : Nat × Nat × Nat) (h1 : s.1 < 2 ^ 64)
    (h2 : s.2.1 < 2 ^ 64) (h3 : s.2.2 < 2 ^ 64) (hb : v3 s + a * b < 2 ^ 192) :
    v3 (Mul.acc a b s) = v3 s + a * b ∧ (Mul.acc a b s).1 < 2 ^ 64 ∧
      (Mul.acc a b s).2.1 < 2 ^ 64 ∧ (Mul.acc a b s).2.2 < 2 ^ 64 := by
  obtain ⟨l, h, c⟩ := s
  simp only [Mul.acc, v3, bitsMul, bitsAdd] at *
  generalize a * b = P at *
  omega

/-- A loop of accumulations adds the sum of the products. -/
theorem accLoop_spec (f g : Nat → Nat) (lo hi : Nat) (s0 : Nat × Nat × Nat)
    (hle : lo ≤ hi) (hf : ∀ i, f i < 2 ^ 64) (hg : ∀ i, g i < 2 ^ 64)
    (h1 : s0.1 < 2 ^ 64) (h2 : s0.2.1 < 2 ^ 64) (h3 : s0.2.2 < 2 ^ 64)
    (hb : v3 s0 + (hi - lo) * 2 ^ 128 < 2 ^ 192) :
    let r := forLoop lo hi (fun i s => Mul.acc (f i) (g i) s) s0
    v3 r = v3 s0 + ∑ i in Finset.Ico lo hi, f i * g i ∧
      ∑ i in Finset.Ico lo hi, f i * g i ≤ (hi - lo) * 2 ^ 128 ∧
      r.1 < 2 ^ 64 ∧ r.2.1 < 2 ^ 64 ∧ r.2.2 < 2 ^ 64 := by
  intro r
  have key := forLoop_inv
    (fun i s => v3 s = v3 s0 + ∑ k in Finset.Ico lo i, f k * g k ∧
      ∑ k in Finset.Ico lo i, f k * g k ≤ (i - lo) * 2 ^ 128 ∧
      s.1 < 2 ^ 64 ∧ s.2.1 < 2 ^ 64 ∧ s.2.2 < 2 ^ 64)
    lo hi (fun i s => Mul.acc (f i) (g i) s) s0 hle
    ⟨by simp, by simp, h1, h2, h3⟩
    (by
      intro i t hi1 hi2 ⟨e, hs, t1, t2, t3⟩
      have hp := mul_lt_word (f i) (g i) (hf i) (hg i)
      have hbound : v3 t + f i * g i < 2 ^ 192 := by
        rw [e]
        have : (i - lo) * 2 ^ 128 + 2 ^ 128 ≤ (hi - lo) * 2 ^ 128 := by
          have : i - lo + 1 ≤ hi - lo := by omega
          calc (i - lo) * 2 ^ 128 + 2 ^ 128 = (i - lo + 1) * 2 ^ 128 := by ring
            _ ≤ (hi - lo) * 2 ^ 128 := Nat.mul_le_mul_right _ this
        omega
      obtain ⟨q1, q2, q3, q4⟩ := acc_spec (f i) (g i) t t1 t2 t3 hbound
      refine ⟨?_, ?_, q2, q3, q4⟩
      · rw [q1, e, Finset.sum_Ico_succ_top hi1]; ring
      · rw [Finset.sum_Ico_succ_top hi1]
        have : (i + 1 - lo) * 2 ^ 128 = (i - lo) * 2 ^ 128 + 2 ^ 128 := by
          have : i + 1 - lo = (i - lo) + 1 := by omega
          rw [this]; ring
        omega)
  exact key

end muhash

namespace muhash

open uint3072

theorem highColumn_spec (a b : uint3072) (ha : WF a) (hb : WF b) (j : Nat)
    (hj : j + 1 < limbs) :
    v3 (Mul.highColumn a b j) = highCol a b j ∧ highCol a b j ≤ 47 * 2 ^ 128 ∧
      (Mul.highColumn a b j).1 < 2 ^ 64 ∧ (Mul.highColumn a b j).2.1 < 2 ^ 64 ∧
      (Mul.highColumn a b j).2.2 < 2 ^ 64 := by
  have hl : limbs = 48 := rfl
  have hx := idx_lt_word a ha (1 + j)
  have hy := idx_lt_word b hb (limbs + j - (1 + j))
  have hp := mul_lt_word _ _ hx hy
  have h := accLoop_spec (fun i => idx a i) (fun i => idx b (limbs + j - i)) (2 + j) limbs
    ((bitsMul (idx a (1 + j)) (idx b (limbs + j - (1 + j)))).2,
     (bitsMul (idx a (1 + j)) (idx b (limbs + j - (1 + j)))).1, 0)
    (by omega) (fun i => idx_lt_word a ha i) (fun i => idx_lt_word b hb _)
    (by simp only [bitsMul]; omega) (by simp only [bitsMul]; omega) (by simp)
    (by
      have : limbs - (2 + j) ≤ 46 := by omega
      have : (limbs - (2 + j)) * 2 ^ 128 ≤ 46 * 2 ^ 128 := Nat.mul_le_mul_right _ this
      simp only [v3, bitsMul] at *
      omega)
  obtain ⟨e, hs, r1, r2, r3⟩ := h
  beta_reduce at e hs
  have e0 : v3 ((bitsMul (idx a (1 + j)) (idx b (limbs + j - (1 + j)))).2,
      (bitsMul (idx a (1 + j)) (idx b (limbs + j - (1 + j)))).1, 0)
      = idx a (1 + j) * idx b (limbs + j - (1 + j)) := by
    simp only [v3, bitsMul]; omega
  have hsum : highCol a b j = idx a (1 + j) * idx b (limbs + j - (1 + j)) +
      ∑ i in Finset.Ico (2 + j) limbs, idx a i * idx b (limbs + j - i) := by
    unfold highCol
    rw [Finset.sum_eq_sum_Ico_succ_bot (by omega)]
    have e1 : j + 1 = 1 + j := by omega
    have e2 : j + 1 + 1 = 2 + j := by omega
    rw [e2, e1]
  have hbnd : (limbs - (2 + j)) * 2 ^ 128 ≤ 46 * 2 ^ 128 :=
    Nat.mul_le_mul_right _ (by omega)
  refine ⟨?_, ?_, r1, r2, r3⟩
  · unfold Mul.highColumn
    rw [e, e0, hsum]
  · rw [hsum]; omega

theorem fold_spec (c s : Nat × Nat × Nat) (c1 : c.1 < 2 ^ 64) (c2 : c.2.1 < 2 ^ 64)
    (c3 : v3 c ≤ 47 * 2 ^ 128) (s1 : s.1 < 2 ^ 64) (s2 : s.2.1 < 2 ^ 64) :
    v3 (Mul.fold c s) = s.1 + 2 ^ 64 * s.2.1 + primeDiff * v3 c ∧
      (Mul.fold c s).1 < 2 ^ 64 ∧ (Mul.fold c s).2.1 < 2 ^ 64 ∧
      (Mul.fold c s).2.2 < 2 ^ 64 := by
  obtain ⟨l, h, k⟩ := c
  obtain ⟨sl, sh, sk⟩ := s
  simp only [Mul.fold, v3, bitsMul, bitsAdd, primeDiff] at *
  have hk : k ≤ 47 := by omega
  have t1 : l * 1103717 / 2 ^ 64 < 1103717 := by omega
  have t2 : h * 1103717 / 2 ^ 64 < 1103717 := by omega
  have t3 : (sl + l * 1103717 % 2 ^ 64 + 0) / 2 ^ 64 ≤ 1 := by omega
  have t4 : (h * 1103717 % 2 ^ 64 + sh + 0) / 2 ^ 64 ≤ 1 := by omega
  have e1 : (l * 1103717 / 2 ^ 64 + (sl + l * 1103717 % 2 ^ 64 + 0) / 2 ^ 64) % 2 ^ 64
      = l * 1103717 / 2 ^ 64 + (sl + l * 1103717 % 2 ^ 64 + 0) / 2 ^ 64 := by omega
  have e2 : (h * 1103717 / 2 ^ 64 + (h * 1103717 % 2 ^ 64 + sh + 0) / 2 ^ 64) % 2 ^ 64
      = h * 1103717 / 2 ^ 64 + (h * 1103717 % 2 ^ 64 + sh + 0) / 2 ^ 64 := by omega
  have e3 : k * 1103717 % 2 ^ 64 = k * 1103717 := by omega
  rw [e1, e2, e3]
  have d1 := Nat.div_add_mod (l * 1103717) (2 ^ 64)
  have d2 := Nat.div_add_mod (h * 1103717) (2 ^ 64)
  have d3 := Nat.mod_lt (l * 1103717) (show 2 ^ 64 > 0 by decide)
  have d4 := Nat.mod_lt (h * 1103717) (show 2 ^ 64 > 0 by decide)
  generalize l * 1103717 / 2 ^ 64 = q1 at *
  generalize l * 1103717 % 2 ^ 64 = r1 at *
  generalize h * 1103717 / 2 ^ 64 = q2 at *
  generalize h * 1103717 % 2 ^ 64 = r2 at *
  omega

theorem lowColumn_spec (a b : uint3072) (ha : WF a) (hb : WF b) (j : Nat)
    (s : Nat × Nat × Nat) (h1 : s.1 < 2 ^ 64) (h2 : s.2.1 < 2 ^ 64)
    (h3 : s.2.2 < 2 ^ 64) (hbnd : v3 s + (j + 1) * 2 ^ 128 < 2 ^ 192) :
    v3 (Mul.lowColumn a b j s) = v3 s + lowCol a b j ∧
      lowCol a b j ≤ (j + 1) * 2 ^ 128 ∧
      (Mul.lowColumn a b j s).1 < 2 ^ 64 ∧ (Mul.lowColumn a b j s).2.1 < 2 ^ 64 ∧
      (Mul.lowColumn a b j s).2.2 < 2 ^ 64 := by
  have h := accLoop_spec (fun i => idx a i) (fun i => idx b (j - i)) 0 (j + 1) s
    (by omega) (fun i => idx_lt_word a ha i) (fun i => idx_lt_word b hb _) h1 h2 h3
    (by simpa using hbnd)
  simp only [Nat.sub_zero, ← Finset.range_eq_Ico] at h
  exact h

end muhash

namespace muhash

open uint3072

theorem limbsVal_setLimb (t : uint3072) (j x : Nat) :
    limbsVal (idx (setLimb t j x)) j = limbsVal (idx t) j :=
  limbsVal_congr _ _ j (fun i hi => idx_setLimb_ne t j x i (by omega))

theorem outer_step (a b : uint3072) (ha : WF a) (hb : WF b) (j : Nat)
    (hj : j + 1 < limbs) (s : (Nat × Nat × Nat) × uint3072) (h : outerInv a b j s) :
    outerInv a b (j + 1) (Mul.outer a b j s) := by
  have hl : limbs = 48 := rfl
  obtain ⟨k0, k1, k2, k3, k4, k5⟩ := h
  obtain ⟨hc1, hc2, hc3, hc4, hc5⟩ := highColumn_spec a b ha hb j hj
  have hv : v3 (Mul.highColumn a b j) ≤ 47 * 2 ^ 128 := by rw [hc1]; exact hc2
  obtain ⟨f1, f2, f3, f4⟩ := fold_spec (Mul.highColumn a b j) s.1 hc3 hc4 hv k1 k2
  rw [hc1] at f1
  have hjb : (j + 1) * 2 ^ 128 ≤ 47 * 2 ^ 128 := Nat.mul_le_mul_right _ (by omega)
  have hd : primeDiff * highCol a b j ≤ 1103717 * (47 * 2 ^ 128) := by
    unfold primeDiff; exact Nat.mul_le_mul_left _ hc2
  obtain ⟨l1, l2, l3, l4, l5⟩ := lowColumn_spec a b ha hb j
    (Mul.fold (Mul.highColumn a b j) s.1) f2 f3 f4 (by omega)
  rw [f1] at l1
  unfold Mul.outer
  generalize Mul.lowColumn a b j (Mul.fold (Mul.highColumn a b j) s.1) = c at *
  obtain ⟨c1, c2, c3⟩ := c
  simp only [v3] at l1
  simp only at l3 l4 l5
  refine ⟨rfl, l4, l5, ?_, WF_setLimb _ _ _ k4 l3, ?_⟩
  · show c2 + 2 ^ 64 * c3 < 2 ^ 92
    omega
  · show limbsVal (idx (setLimb s.2 j c1)) (j + 1) + 2 ^ (64 * (j + 1)) * (c2 + 2 ^ 64 * c3)
      = limbsVal (fun k => lowCol a b k + primeDiff * highCol a b k) (j + 1)
    simp only [limbsVal]
    rw [limbsVal_setLimb, idx_setLimb_eq _ _ _ (by omega), ← k5]
    have e : 2 ^ (64 * (j + 1)) = 2 ^ (64 * j) * 2 ^ 64 := by
      rw [← pow_add]; congr 1
    rw [e]
    have l1' : c1 + 2 ^ 64 * (c2 + 2 ^ 64 * c3)
        = s.1.1 + 2 ^ 64 * s.1.2.1 + (lowCol a b j + primeDiff * highCol a b j) := by
      omega
    calc limbsVal (idx s.2) j + c1 * 2 ^ (64 * j)
          + 2 ^ (64 * j) * 2 ^ 64 * (c2 + 2 ^ 64 * c3)
        = limbsVal (idx s.2) j + 2 ^ (64 * j) * (c1 + 2 ^ 64 * (c2 + 2 ^ 64 * c3)) := by
          ring
      _ = limbsVal (idx s.2) j + 2 ^ (64 * j) * (s.1.1 + 2 ^ 64 * s.1.2.1)
          + (lowCol a b j + primeDiff * highCol a b j) * 2 ^ (64 * j) := by
          rw [l1']; ring

theorem firstPass_spec (a b : uint3072) (ha : WF a) (hb : WF b) :
    outerInv a b (limbs - 1) (Mul.firstPass a b) := by
  unfold Mul.firstPass
  apply forLoop_inv (outerInv a b) 0 (limbs - 1) (Mul.outer a b)
  · omega
  · refine ⟨rfl, by simp, by simp, by simp, fun _ => by simp, ?_⟩
    simp [limbsVal]
  · intro i t _ hi hinv
    exact outer_step a b ha hb i (by have hl : limbs = 48 := rfl; omega) t hinv

end muhash

namespace muhash

open uint3072

/-! ## `IsOverflow` and `FullReduce` -/

/-- All limbs `1 ≤ i < n` are `2^64 - 1`. -/
theorem limbsVal_allMax (f : Nat → Nat) (n : Nat) (hn : 1 ≤ n)
    (h : ∀ i, 1 ≤ i → i < n → f i = 2 ^ 64 - 1) :
    limbsVal f n + 2 ^ 64 = f 0 + 2 ^ (64 * n) := by
  induction n with
  | zero => omega
  | succ n ih =>
    rcases Nat.eq_or_lt_of_le hn with e | hlt
    · have : n = 0 := by omega
      subst this
      simp [limbsVal]
    · have h1 := ih (by omega) (fun i hi1 hi2 => h i hi1 (by omega))
      simp only [limbsVal]
      rw [h n (by omega) (by omega)]
      have e : 2 ^ (64 * (n + 1)) = 2 ^ 64 * 2 ^ (64 * n) := by
        rw [← pow_add]; congr 1; omega
      rw [e, Nat.sub_mul]
      have : 1 * 2 ^ (64 * n) ≤ 2 ^ 64 * 2 ^ (64 * n) :=
        Nat.mul_le_mul_right _ (by decide)
      omega

/-- A limb `i ≥ 1` below `2^64 - 1` keeps the value at least `2^64` below the top. -/
theorem limbsVal_notMax (f : Nat → Nat) (n i : Nat) (hf : ∀ k, k < n → f k < 2 ^ 64)
    (hi1 : 1 ≤ i) (hi2 : i < n) (hne : f i ≠ 2 ^ 64 - 1) :
    limbsVal f n + 2 ^ 64 ≤ 2 ^ (64 * n) := by
  induction n with
  | zero => omega
  | succ n ih =>
    simp only [limbsVal]
    have e : 2 ^ (64 * (n + 1)) = 2 ^ 64 * 2 ^ (64 * n) := by
      rw [← pow_add]; congr 1; omega
    rw [e]
    have hpos : 2 ^ 64 ≤ 2 ^ (64 * n) := Nat.pow_le_pow_right (by decide) (by omega)
    rcases Nat.lt_or_ge i n with h1 | h1
    · have := ih (fun k hk => hf k (by omega)) h1
      have h2 := hf n (by omega)
      have h3 : f n * 2 ^ (64 * n) ≤ (2 ^ 64 - 1) * 2 ^ (64 * n) :=
        Nat.mul_le_mul_right _ (by omega)
      rw [Nat.sub_mul] at h3
      have : 1 * 2 ^ (64 * n) ≤ 2 ^ 64 * 2 ^ (64 * n) :=
        Nat.mul_le_mul_right _ (by decide)
      omega
    · have hin : i = n := by omega
      subst hin
      have h2 := hf i (by omega)
      have h3 : f i * 2 ^ (64 * i) ≤ (2 ^ 64 - 2) * 2 ^ (64 * i) :=
        Nat.mul_le_mul_right _ (by omega)
      rw [Nat.sub_mul] at h3
      have h4 := limbsVal_lt f i (fun k hk => hf k (by omega))
      have : 2 * 2 ^ (64 * i) ≤ 2 ^ 64 * 2 ^ (64 * i) :=
        Nat.mul_le_mul_right _ (by decide)
      omega

theorem IsOverflow_iff (a : uint3072) (ha : WF a) :
    IsOverflow a = true ↔ prime ≤ val a := by
  have hl : limbs = 48 := rfl
  have h0 := idx_lt_word a ha 0
  have hp : (2 : Nat) ^ (64 * limbs) = 2 ^ 3072 := rfl
  unfold IsOverflow
  by_cases hc : idx a 0 ≤ maxUint - primeDiff
  · simp only [hc, if_true]
    constructor
    · intro h; exact absurd h (by simp)
    · intro h
      exfalso
      by_cases hall : ∀ i, 1 ≤ i → i < limbs → idx a i = 2 ^ 64 - 1
      · have := limbsVal_allMax (idx a) limbs (by omega) hall
        unfold val prime at h
        rw [hp] at this
        unfold maxUint primeDiff at hc
        unfold primeDiff at h
        omega
      · push_neg at hall
        obtain ⟨i, hi1, hi2, hne⟩ := hall
        have := limbsVal_notMax (idx a) limbs i (fun k _ => idx_lt_word a ha k) hi1 hi2 hne
        unfold val prime primeDiff at h
        rw [hp] at this
        omega
  · simp only [hc, if_false]
    rw [List.all_eq_true]
    constructor
    · intro h
      have hall : ∀ i, 1 ≤ i → i < limbs → idx a i = 2 ^ 64 - 1 := by
        intro i hi1 hi2
        have := h i (by rw [List.mem_range']; exact ⟨i - 1, by omega, by omega⟩)
        simpa [maxUint] using this
      have := limbsVal_allMax (idx a) limbs (by omega) hall
      unfold val prime primeDiff
      rw [hp] at this
      unfold maxUint primeDiff at hc
      omega
    · intro h i hi
      rw [List.mem_range'] at hi
      obtain ⟨k, hk, rfl⟩ := hi
      by_contra hne
      have hne' : idx a (1 + 1 * k) ≠ 2 ^ 64 - 1 := by
        intro e; apply hne; unfold maxUint; rw [e]; exact beq_self_eq_true _
      have := limbsVal_notMax (idx a) limbs (1 + 1 * k) (fun k _ => idx_lt_word a ha k)
        (by omega) (by omega) hne'
      unfold val prime primeDiff at h
      rw [hp] at this
      omega

end muhash

namespace muhash

open uint3072

theorem reduce2_step (tmp : uint3072) (j : Nat) (s : Nat × Nat × uint3072)
    (h1 : s.1 < 2 ^ 64) (h2 : s.2.1 < 2 ^ 64) (hb : s.1 + 2 ^ 64 * s.2.1 < 2 ^ 92)
    (ht : idx tmp j < 2 ^ 64) :
    (Mul.reduce2 tmp j s).2.2 = setLimb s.2.2 j ((s.1 + idx tmp j) % 2 ^ 64) ∧
      (Mul.reduce2 tmp j s).1 < 2 ^ 64 ∧ (Mul.reduce2 tmp j s).2.1 < 2 ^ 64 ∧
      (Mul.reduce2 tmp j s).1 + 2 ^ 64 * (Mul.reduce2 tmp j s).2.1 < 2 ^ 92 ∧
      (s.1 + idx tmp j) % 2 ^ 64
          + 2 ^ 64 * ((Mul.reduce2 tmp j s).1 + 2 ^ 64 * (Mul.reduce2 tmp j s).2.1)
        = s.1 + 2 ^ 64 * s.2.1 + idx tmp j := by
  obtain ⟨cl, ch, out⟩ := s
  simp only [Mul.reduce2, bitsAdd, Nat.add_zero] at *
  generalize idx tmp j = t at *
  refine ⟨trivial, ?_, ?_, ?_, ?_⟩ <;> omega

/-- One iteration of an add-and-extract loop preserves `extractInv`, whether the word
that is read comes from another array or from the array being written. -/
theorem extract_step (src orig : uint3072) (c0 j : Nat) (s : Nat × Nat × uint3072)
    (hsrc : WF src) (hj : j < limbs) (h : extractInv src orig c0 j s) (t : uint3072)
    (ht : idx t j = idx src j) :
    extractInv src orig c0 (j + 1) (Mul.reduce2 t j s) := by
  obtain ⟨k1, k2, k3, k4, k5, k6⟩ := h
  have hw : idx t j < 2 ^ 64 := by rw [ht]; exact idx_lt_word src hsrc j
  obtain ⟨r0, r1, r2, r3, r4⟩ := reduce2_step t j s k1 k2 k3 hw
  refine ⟨r1, r2, r3, ?_, ?_, ?_⟩
  · intro k hk
    rw [r0, idx_setLimb]
    split
    · exact Nat.mod_lt _ (by decide)
    · rename_i hne
      exact k4 k (by
        rcases Nat.lt_or_ge k j with h | h
        · exact h
        · exfalso; apply hne; exact ⟨by omega, by omega⟩)
  · intro k hk
    rw [r0, idx_setLimb_ne _ _ _ _ (by omega)]
    exact k5 k (by omega)
  · simp only [limbsVal]
    rw [r0, limbsVal_setLimb, idx_setLimb_eq _ _ _ hj]
    have e : 2 ^ (64 * (j + 1)) = 2 ^ (64 * j) * 2 ^ 64 := by
      rw [← pow_add]; congr 1
    rw [e, ← ht]
    calc limbsVal (idx s.2.2) j + (s.1 + idx t j) % 2 ^ 64 * 2 ^ (64 * j)
          + 2 ^ (64 * j) * 2 ^ 64 * ((Mul.reduce2 t j s).1 + 2 ^ 64 * (Mul.reduce2 t j s).2.1)
        = limbsVal (idx s.2.2) j + 2 ^ (64 * j) * ((s.1 + idx t j) % 2 ^ 64
          + 2 ^ 64 * ((Mul.reduce2 t j s).1 + 2 ^ 64 * (Mul.reduce2 t j s).2.1)) := by ring
      _ = limbsVal (idx s.2.2) j + 2 ^ (64 * j) * (s.1 + 2 ^ 64 * s.2.1)
          + idx t j * 2 ^ (64 * j) := by rw [r4]; ring
      _ = limbsVal (idx src) j + idx t j * 2 ^ (64 * j) + c0 := by rw [k6]; ring

theorem extractInv_WF (src orig : uint3072) (c0 : Nat) (s : Nat × Nat × uint3072)
    (h : extractInv src orig c0 limbs s) : WF s.2.2 := by
  intro i
  have := h.2.2.2.1 i.val i.isLt
  rwa [idx_lt _ _ i.isLt] at this

/-- The second-reduction loop of `Mul` (lines 147-158). -/
theorem reduce2_loop (tmp lhs : uint3072) (cl ch : Nat) (htmp : WF tmp)
    (h1 : cl < 2 ^ 64) (h2 : ch < 2 ^ 64) (hb : cl + 2 ^ 64 * ch < 2 ^ 92) :
    extractInv tmp lhs (cl + 2 ^ 64 * ch) limbs
      (forLoop 0 limbs (Mul.reduce2 tmp) (cl, ch, lhs)) := by
  apply forLoop_inv (extractInv tmp lhs (cl + 2 ^ 64 * ch)) 0 limbs (Mul.reduce2 tmp)
  · omega
  · refine ⟨h1, h2, hb, fun k hk => by omega, fun k _ => rfl, ?_⟩
    simp [limbsVal]
  · intro i t _ hi hinv
    exact extract_step tmp lhs _ i t htmp hi hinv tmp rfl

/-- The loop of `FullReduce`. -/
theorem FullReduce_loop (lhs : uint3072) (h : WF lhs) :
    extractInv lhs lhs primeDiff limbs
      (forLoop 0 limbs FullReduce.body (primeDiff, 0, lhs)) := by
  apply forLoop_inv (extractInv lhs lhs primeDiff) 0 limbs FullReduce.body
  · omega
  · refine ⟨by simp [primeDiff], by simp, by simp [primeDiff], fun k hk => by omega,
      fun k _ => rfl, ?_⟩
    simp [limbsVal]
  · intro i t _ hi hinv
    have e : FullReduce.body i t = Mul.reduce2 t.2.2 i t := rfl
    rw [e]
    exact extract_step lhs lhs _ i t h hi hinv t.2.2 (hinv.2.2.2.2.1 i (le_refl _))

theorem FullReduce_WF (a : uint3072) (h : WF a) : WF (FullReduce a) :=
  extractInv_WF _ _ _ _ (FullReduce_loop a h)

theorem FullReduce_val (a : uint3072) (h : WF a) :
    val (FullReduce a) = (val a + primeDiff) % 2 ^ 3072 := by
  have hinv := FullReduce_loop a h
  have hw := val_lt _ (FullReduce_WF a h)
  have hv := val_lt a h
  obtain ⟨k1, k2, k3, k4, k5, k6⟩ := hinv
  unfold FullReduce val at *
  generalize forLoop 0 limbs FullReduce.body (primeDiff, 0, a) = s at *
  have hp : (2 : Nat) ^ (64 * limbs) = 2 ^ 3072 := rfl
  rw [hp] at k6
  generalize limbsVal (idx s.2.2) limbs = x at *
  generalize limbsVal (idx a) limbs = y at *
  generalize s.1 + 2 ^ 64 * s.2.1 = c at *
  unfold primeDiff at *
  rw [← k6]
  rw [Nat.add_mul_mod_self_left, Nat.mod_eq_of_lt hw]

end muhash

namespace muhash

open uint3072

/-! ## The schoolbook product by columns -/

theorem limbsVal_extend (a : uint3072) (m : Nat) :
    limbsVal (idx a) (limbs + m) = val a := by
  induction m with
  | zero => rfl
  | succ m ih =>
    show limbsVal (idx a) (limbs + m) + idx a (limbs + m) * 2 ^ (64 * (limbs + m)) = val a
    rw [ih, idx_ge a _ (by omega)]
    simp

theorem limbsVal_extend_le (a : uint3072) (m : Nat) (h : limbs ≤ m) :
    limbsVal (idx a) m = val a := by
  obtain ⟨k, rfl⟩ := Nat.exists_eq_add_of_le h
  exact limbsVal_extend a k

theorem limbsVal_add_mul (f g : Nat → Nat) (d n : Nat) :
    limbsVal (fun k => f k + d * g k) n = limbsVal f n + d * limbsVal g n := by
  induction n with
  | zero => simp [limbsVal]
  | succ n ih => simp only [limbsVal]; rw [ih]; ring

/-- The full convolution agrees with `highCol` on the upper half. -/
theorem conv_high (a b : uint3072) (j : Nat) :
    ∑ i in Finset.range (limbs + j + 1), idx a i * idx b (limbs + j - i) = highCol a b j := by
  unfold highCol
  symm
  apply Finset.sum_subset
  · intro x hx
    rw [Finset.mem_Ico] at hx
    rw [Finset.mem_range]
    omega
  · intro x hx hnx
    rw [Finset.mem_range] at hx
    rw [Finset.mem_Ico] at hnx
    rcases Nat.lt_or_ge x limbs with h | h
    · have : limbs ≤ limbs + j - x := by omega
      rw [idx_ge b _ this]; simp
    · rw [idx_ge a _ h]; simp

theorem highCol_last (a b : uint3072) : highCol a b (limbs - 1) = 0 := by
  unfold highCol
  have : Finset.Ico (limbs - 1 + 1) limbs = ∅ := by
    apply Finset.Ico_eq_empty; omega
  rw [this]; simp

/-- The product of two 48-limb values, column by column. -/
theorem val_mul_val (a b : uint3072) :
    val a * val b = limbsVal (lowCol a b) limbs
      + 2 ^ 3072 * limbsVal (highCol a b) (limbs - 1) := by
  have step1 : val a * val b = ∑ i in Finset.range (limbs + limbs),
      ∑ k in Finset.range (limbs + limbs - i),
        idx a i * idx b k * 2 ^ (64 * (i + k)) := by
    rw [← limbsVal_extend a limbs, limbsVal_eq_sum, Finset.sum_mul]
    apply Finset.sum_congr rfl
    intro i hi
    rw [Finset.mem_range] at hi
    rcases Nat.lt_or_ge i limbs with h | h
    · rw [← limbsVal_extend_le b (limbs + limbs - i) (by omega), limbsVal_eq_sum,
        Finset.mul_sum]
      apply Finset.sum_congr rfl
      intro k _
      rw [Nat.mul_add, pow_add]; ring
    · rw [idx_ge a _ h]; simp
  have step2 := Finset.sum_range_diag_flip (limbs + limbs)
    (fun i k => idx a i * idx b k * 2 ^ (64 * (i + k)))
  rw [step1, ← step2, Finset.sum_range_add]
  have hlow : ∑ x in Finset.range limbs, ∑ k in Finset.range (x + 1),
      idx a k * idx b (x - k) * 2 ^ (64 * (k + (x - k))) = limbsVal (lowCol a b) limbs := by
    rw [limbsVal_eq_sum]
    apply Finset.sum_congr rfl
    intro x _
    unfold lowCol
    rw [Finset.sum_mul]
    apply Finset.sum_congr rfl
    intro k hk
    rw [Finset.mem_range] at hk
    have : k + (x - k) = x := by omega
    rw [this]
  have hhigh : ∑ x in Finset.range limbs, ∑ k in Finset.range (limbs + x + 1),
      idx a k * idx b (limbs + x - k) * 2 ^ (64 * (k + (limbs + x - k)))
      = 2 ^ 3072 * limbsVal (highCol a b) limbs := by
    rw [limbsVal_eq_sum, Finset.mul_sum]
    apply Finset.sum_congr rfl
    intro x _
    rw [← conv_high, Finset.sum_mul, Finset.mul_sum]
    apply Finset.sum_congr rfl
    intro k hk
    rw [Finset.mem_range] at hk
    have : k + (limbs + x - k) = limbs + x := by omega
    rw [this, Nat.mul_add, pow_add]
    have hp : (2 : Nat) ^ (64 * limbs) = 2 ^ 3072 := rfl
    rw [hp]; ring
  have hlast : limbsVal (highCol a b) limbs = limbsVal (highCol a b) (limbs - 1) := by
    show limbsVal (highCol a b) (limbs - 1) + highCol a b (limbs - 1) * _ = _
    rw [highCol_last]; simp
  simp only at hlow hhigh ⊢
  rw [hlow, hhigh, hlast]

/-- What the first pass and the last column of `Mul` compute is congruent to the
product modulo `prime`. -/
theorem folded_mod (a b : uint3072) :
    (limbsVal (fun k => lowCol a b k + primeDiff * highCol a b k) (limbs - 1)
      + lowCol a b (limbs - 1) * 2 ^ (64 * (limbs - 1))) % prime
    = (val a * val b) % prime := by
  rw [limbsVal_add_mul, val_mul_val]
  have e1 : limbsVal (lowCol a b) limbs = limbsVal (lowCol a b) (limbs - 1)
      + lowCol a b (limbs - 1) * 2 ^ (64 * (limbs - 1)) := rfl
  have e2 : (2 : Nat) ^ 3072 = prime + primeDiff := by
    unfold prime primeDiff; norm_num
  rw [e1, e2]
  generalize limbsVal (lowCol a b) (limbs - 1) = L
  generalize lowCol a b (limbs - 1) * 2 ^ (64 * (limbs - 1)) = M
  generalize limbsVal (highCol a b) (limbs - 1) = H
  have : L + M + (prime + primeDiff) * H = (L + primeDiff * H + M) + prime * H := by ring
  rw [this, Nat.add_mul_mod_self_left]

end muhash

namespace muhash

open uint3072

/-! ## `Mul` -/

theorem val_setLimb_last (t : uint3072) (x : Nat) :
    val (setLimb t (limbs - 1) x)
      = limbsVal (idx t) (limbs - 1) + x * 2 ^ (64 * (limbs - 1)) := by
  have h : val (setLimb t (limbs - 1) x)
      = limbsVal (idx (setLimb t (limbs - 1) x)) (limbs - 1)
        + idx (setLimb t (limbs - 1) x) (limbs - 1) * 2 ^ (64 * (limbs - 1)) := rfl
  rw [h, limbsVal_setLimb, idx_setLimb_eq _ _ _ (by decide)]

/-- After the last column: `tmp` and the two-word carry hold the folded product. -/
theorem lastColumn_spec (a b : uint3072) (ha : WF a) (hb : WF b) :
    let s := Mul.lastColumn a b (Mul.firstPass a b)
    s.1.2.2 = 0 ∧ s.1.1 < 2 ^ 64 ∧ s.1.2.1 < 2 ^ 64 ∧ s.1.1 + 2 ^ 64 * s.1.2.1 < 2 ^ 71 ∧
      WF s.2 ∧
      (val s.2 + 2 ^ 3072 * (s.1.1 + 2 ^ 64 * s.1.2.1)) % prime = (val a * val b) % prime := by
  intro s
  have hl : limbs = 48 := rfl
  obtain ⟨k0, k1, k2, k3, k4, k5⟩ := firstPass_spec a b ha hb
  have hv : v3 (Mul.firstPass a b).1
      = (Mul.firstPass a b).1.1 + 2 ^ 64 * (Mul.firstPass a b).1.2.1 := by
    simp only [v3, k0]; omega
  obtain ⟨l1, l2, l3, l4, l5⟩ := lowColumn_spec a b ha hb (limbs - 1) (Mul.firstPass a b).1
    k1 k2 (by rw [k0]; simp) (by rw [hv]; simp only [hl]; omega)
  rw [hv] at l1
  have hs : s = (((Mul.lowColumn a b (limbs - 1) (Mul.firstPass a b).1).2.1,
      (Mul.lowColumn a b (limbs - 1) (Mul.firstPass a b).1).2.2, 0),
      setLimb (Mul.firstPass a b).2 (limbs - 1)
        (Mul.lowColumn a b (limbs - 1) (Mul.firstPass a b).1).1) := rfl
  generalize Mul.lowColumn a b (limbs - 1) (Mul.firstPass a b).1 = c at *
  obtain ⟨c1, c2, c3⟩ := c
  simp only [v3] at l1
  simp only at l3 l4 l5
  have l2' : lowCol a b (limbs - 1) ≤ 48 * 2 ^ 128 := l2
  rw [hs]
  refine ⟨rfl, l4, l5, ?_, WF_setLimb _ _ _ k4 l3, ?_⟩
  · show c2 + 2 ^ 64 * c3 < 2 ^ 71
    omega
  · show (val (setLimb (Mul.firstPass a b).2 (limbs - 1) c1)
      + 2 ^ 3072 * (c2 + 2 ^ 64 * c3)) % prime = _
    have e1 := val_setLimb_last (Mul.firstPass a b).2 c1
    have e2 : (2 : Nat) ^ 3072 = 2 ^ (64 * (limbs - 1)) * 2 ^ 64 := by
      have h : 64 * (limbs - 1) + 64 = 3072 := rfl
      rw [← pow_add, h]
    have l1' : c1 + 2 ^ 64 * (c2 + 2 ^ 64 * c3) = (Mul.firstPass a b).1.1
        + 2 ^ 64 * (Mul.firstPass a b).1.2.1 + lowCol a b (limbs - 1) := by omega
    have key : val (setLimb (Mul.firstPass a b).2 (limbs - 1) c1)
        + 2 ^ 3072 * (c2 + 2 ^ 64 * c3)
        = limbsVal (fun k => lowCol a b k + primeDiff * highCol a b k) (limbs - 1)
          + lowCol a b (limbs - 1) * 2 ^ (64 * (limbs - 1)) := by
      rw [e1, e2, ← k5]
      calc limbsVal (idx (Mul.firstPass a b).2) (limbs - 1) + c1 * 2 ^ (64 * (limbs - 1))
            + 2 ^ (64 * (limbs - 1)) * 2 ^ 64 * (c2 + 2 ^ 64 * c3)
          = limbsVal (idx (Mul.firstPass a b).2) (limbs - 1)
            + 2 ^ (64 * (limbs - 1)) * (c1 + 2 ^ 64 * (c2 + 2 ^ 64 * c3)) := by ring
        _ = _ := by rw [l1']; ring
    rw [key, folded_mod]

end muhash

namespace muhash

open uint3072

theorem secondReduction_spec (lhs : uint3072) (s : (Nat × Nat × Nat) × uint3072)
    (h1 : s.1.1 < 2 ^ 64) (h2 : s.1.2.1 < 2 ^ 64)
    (hb : s.1.1 + 2 ^ 64 * s.1.2.1 < 2 ^ 71) (ht : WF s.2) :
    let r := Mul.secondReduction lhs s
    WF r.2.2 ∧ (r.1 = 0 ∨ r.1 = 1) ∧
      val r.2.2 + 2 ^ 3072 * r.1 = val s.2 + primeDiff * (s.1.1 + 2 ^ 64 * s.1.2.1) := by
  intro r
  obtain ⟨⟨c1, c2, c3⟩, tmp⟩ := s
  simp only at h1 h2 hb ht
  have hc2 : c2 < 2 ^ 7 := by omega
  have q1 : (bitsMul c1 primeDiff).2 < 2 ^ 64 := by
    simp only [bitsMul]; omega
  have q2 : ((bitsMul c1 primeDiff).1 + (bitsMul c2 primeDiff).2) % 2 ^ 64 < 2 ^ 64 :=
    Nat.mod_lt _ (by decide)
  have q3 : (bitsMul c1 primeDiff).2
      + 2 ^ 64 * (((bitsMul c1 primeDiff).1 + (bitsMul c2 primeDiff).2) % 2 ^ 64)
      = primeDiff * (c1 + 2 ^ 64 * c2) := by
    simp only [bitsMul, primeDiff]; omega
  have q4 : (bitsMul c1 primeDiff).2
      + 2 ^ 64 * (((bitsMul c1 primeDiff).1 + (bitsMul c2 primeDiff).2) % 2 ^ 64)
      < 2 ^ 92 := by
    rw [q3]; unfold primeDiff; omega
  have hinv := reduce2_loop tmp lhs _ _ ht q1 q2 q4
  have hr : r = forLoop 0 limbs (Mul.reduce2 tmp) ((bitsMul c1 primeDiff).2,
      ((bitsMul c1 primeDiff).1 + (bitsMul c2 primeDiff).2) % 2 ^ 64, lhs) := rfl
  rw [← hr, q3] at hinv
  have hwf := extractInv_WF _ _ _ _ hinv
  obtain ⟨k1, k2, k3, k4, k5, k6⟩ := hinv
  have hp : (2 : Nat) ^ (64 * limbs) = 2 ^ 3072 := rfl
  rw [hp] at k6
  have hv := val_lt _ ht
  have hvr := val_lt _ hwf
  have k6' : val r.2.2 + 2 ^ 3072 * (r.1 + 2 ^ 64 * r.2.1)
      = val tmp + primeDiff * (c1 + 2 ^ 64 * c2) := k6
  have hd : primeDiff * (c1 + 2 ^ 64 * c2) < 2 ^ 92 := by unfold primeDiff; omega
  generalize r.1 = x at *
  generalize r.2.1 = y at *
  generalize val r.2.2 = v at *
  generalize val tmp = t at *
  generalize primeDiff * (c1 + 2 ^ 64 * c2) = e at *
  have hy : y = 0 := by omega
  subst hy
  refine ⟨hwf, by omega, ?_⟩
  show v + 2 ^ 3072 * x = t + e
  omega

theorem finish_spec (lhs : uint3072) (c : Nat) (hw : WF lhs) (hc : c = 0 ∨ c = 1)
    (hb : val lhs + 2 ^ 3072 * c < 2 ^ 3072 + 2 ^ 92) :
    WF (Mul.finish c lhs) ∧
      val (Mul.finish c lhs) = (val lhs + 2 ^ 3072 * c) % prime := by
  have hv := val_lt lhs hw
  have hfr := FullReduce_val lhs hw
  have hfw := FullReduce_WF lhs hw
  have hov := IsOverflow_iff lhs hw
  unfold Mul.finish
  rcases hc with rfl | rfl
  · simp only [gt_iff_lt, Nat.lt_irrefl, if_false]
    by_cases ho : IsOverflow lhs = true
    · rw [if_pos ho]
      refine ⟨hfw, ?_⟩
      have := hov.mp ho
      rw [hfr]
      unfold prime primeDiff at *
      omega
    · rw [if_neg ho]
      refine ⟨hw, ?_⟩
      have : ¬ prime ≤ val lhs := fun h => ho (hov.mpr h)
      unfold prime primeDiff at *
      omega
  · have hno : ¬ IsOverflow lhs = true := by
      intro ho
      have := hov.mp ho
      unfold prime primeDiff at *
      omega
    rw [if_neg hno, if_pos (by decide)]
    refine ⟨hfw, ?_⟩
    rw [hfr]
    unfold prime primeDiff at *
    omega

/-- The value-level behaviour of the limb computation of `Mul`. -/
theorem mulLimbs_spec (a b : uint3072) (ha : WF a) (hb : WF b) :
    (Mul.firstPass a b).1.2.2 = 0 ∧
      (Mul.lastColumn a b (Mul.firstPass a b)).1.2.2 = 0 ∧
      ((Mul.secondReduction a (Mul.lastColumn a b (Mul.firstPass a b))).1 = 0 ∨
        (Mul.secondReduction a (Mul.lastColumn a b (Mul.firstPass a b))).1 = 1) ∧
      WF (Mul.finish (Mul.secondReduction a (Mul.lastColumn a b (Mul.firstPass a b))).1
        (Mul.secondReduction a (Mul.lastColumn a b (Mul.firstPass a b))).2.2) ∧
      val (Mul.finish (Mul.secondReduction a (Mul.lastColumn a b (Mul.firstPass a b))).1
        (Mul.secondReduction a (Mul.lastColumn a b (Mul.firstPass a b))).2.2)
        = (val a * val b) % prime := by
  have h0 := (firstPass_spec a b ha hb).1
  obtain ⟨l0, l1, l2, l3, l4, l5⟩ := lastColumn_spec a b ha hb
  generalize Mul.lastColumn a b (Mul.firstPass a b) = s at *
  obtain ⟨r1, r2, r3⟩ := secondReduction_spec a s l1 l2 l3 l4
  generalize Mul.secondReduction a s = s2 at *
  have hv := val_lt _ l4
  have hd : primeDiff * (s.1.1 + 2 ^ 64 * s.1.2.1) < 2 ^ 92 := by
    unfold primeDiff; omega
  obtain ⟨f1, f2⟩ := finish_spec s2.2.2 s2.1 r1 r2 (by omega)
  refine ⟨h0, l0, r2, f1, ?_⟩
  rw [f2, r3, ← l5]
  have e2 : (2 : Nat) ^ 3072 = prime + primeDiff := by
    unfold prime primeDiff; norm_num
  rw [e2, Nat.add_mul, ← Nat.add_assoc, Nat.add_right_comm, Nat.add_mul_mod_self_left]

/-- `Mul` never panics on 64-bit limbs and leaves the canonical product. -/
theorem Mul_spec (a b : uint3072) (ha : WF a) (hb : WF b) :
    ∃ r, uint3072.Mul a b = some r ∧ WF r ∧ val r = (val a * val b) % prime := by
  obtain ⟨h1, h2, h3, h4, h5⟩ := mulLimbs_spec a b ha hb
  refine ⟨_, ?_, h4, h5⟩
  unfold uint3072.Mul
  simp only [ne_eq, h1, not_true_eq_false, if_false, h2, h3, not_true]

end muhash

namespace muhash

/-! ## `num3072`: the field engine used by the accumulator -/

theorem prime_gt_one : 1 < prime := by
  unfold prime primeDiff; norm_num

theorem prime_lt : prime < 2 ^ 3072 := by
  unfold prime primeDiff; norm_num

theorem num_IsOverflow_eq (a : num3072) :
    num3072.IsOverflow a = uint3072.IsOverflow a := rfl

theorem num_IsOverflow_iff (a : num3072) (ha : WF a) :
    num3072.IsOverflow a = true ↔ prime ≤ val a := by
  rw [num_IsOverflow_eq]; exact IsOverflow_iff a ha

theorem num_Mul_WF (a b : num3072) (ha : WF a) (hb : WF b) :
    WF (num3072.Mul a b) :=
  (mulLimbs_spec a b ha hb).2.2.2.1

theorem num_Mul_val (a b : num3072) (ha : WF a) (hb : WF b) :
    val (num3072.Mul a b) = (val a * val b) % prime :=
  (mulLimbs_spec a b ha hb).2.2.2.2

theorem num_Mul_lt (a b : num3072) (ha : WF a) (hb : WF b) :
    val (num3072.Mul a b) < prime := by
  rw [num_Mul_val a b ha hb]
  exact Nat.mod_lt _ (by have := prime_gt_one; omega)

/-- The conditional reduction `if x.IsOverflow() { x.FullReduce() }`. -/
theorem reduce_spec (a : num3072) (ha : WF a) :
    WF (if num3072.IsOverflow a then num3072.FullReduce a else a) ∧
      val (if num3072.IsOverflow a then num3072.FullReduce a else a) = val a % prime := by
  have hv := val_lt a ha
  have hov := num_IsOverflow_iff a ha
  by_cases ho : num3072.IsOverflow a = true
  · rw [if_pos ho]
    have h := hov.mp ho
    refine ⟨FullReduce_WF a ha, ?_⟩
    show val (uint3072.FullReduce a) = _
    rw [FullReduce_val a ha]
    unfold prime primeDiff at *
    omega
  · rw [if_neg ho]
    have h : ¬ prime ≤ val a := fun h => ho (hov.mpr h)
    refine ⟨ha, ?_⟩
    rw [Nat.mod_eq_of_lt (by omega)]

theorem one_WF : WF num3072.oneNum3072 := by
  intro i
  unfold num3072.oneNum3072
  split <;> simp

theorem limbsVal_one (n : Nat) (hn : 1 ≤ n) :
    limbsVal (idx num3072.oneNum3072) n = 1 := by
  induction n with
  | zero => omega
  | succ n ih =>
    simp only [limbsVal]
    rcases Nat.eq_zero_or_pos n with h | h
    · subst h
      simp [limbsVal, idx, num3072.oneNum3072]
    · rw [ih h]
      have : idx num3072.oneNum3072 n = 0 := by
        unfold idx num3072.oneNum3072
        split
        · simp; omega
        · rfl
      rw [this]; simp

theorem val_one : val num3072.oneNum3072 = 1 := limbsVal_one limbs (by decide)

theorem SetToOne_eq (a : num3072) : num3072.SetToOne a = num3072.oneNum3072 := rfl

/-! ### `big.Int.ModInverse` -/

theorem bigModInverse_some (g n : Nat) (hn : 1 < n) (hg : Nat.gcd g n = 1) :
    ∃ z, bigModInverse g n = some z ∧ z < n ∧ (g * z) % n = 1 := by
  refine ⟨Int.toNat (Nat.gcdA g n % (n : Int)), ?_, ?_, ?_⟩
  · unfold bigModInverse; rw [if_pos hg]
  · have h1 : Nat.gcdA g n % (n : Int) < n := Int.emod_lt_of_pos _ (by omega)
    have h0 : 0 ≤ Nat.gcdA g n % (n : Int) := Int.emod_nonneg _ (by omega)
    omega
  · have h0 : 0 ≤ Nat.gcdA g n % (n : Int) := Int.emod_nonneg _ (by omega)
    have hb := Nat.gcd_eq_gcd_ab g n
    rw [hg] at hb
    have key : ((g : Int) * (Nat.gcdA g n % (n : Int))) % n = 1 % (n : Int) := by
      rw [Int.mul_emod, Int.emod_emod, ← Int.mul_emod]
      have : (g : Int) * Nat.gcdA g n = 1 - n * Nat.gcdB g n := by
        have : ((1 : Nat) : Int) = 1 := rfl
        omega
      have e : (1 : Int) - n * Nat.gcdB g n = 1 + n * (-Nat.gcdB g n) := by ring
      rw [this, e, Int.add_mul_emod_self_left]
    have hz : ((Int.toNat (Nat.gcdA g n % (n : Int)) : Nat) : Int)
        = Nat.gcdA g n % (n : Int) := Int.toNat_of_nonneg h0
    have : (((g * Int.toNat (Nat.gcdA g n % (n : Int))) % n : Nat) : Int) = ((1 % n : Nat) : Int) := by
      push_cast
      rw [hz, key]
    have h2 := Int.ofNat_inj.mp this
    rw [h2, Nat.mod_eq_of_lt hn]

theorem bigModInverse_none (g n : Nat) (hg : Nat.gcd g n ≠ 1) :
    bigModInverse g n = none := by
  unfold bigModInverse; rw [if_neg hg]

end muhash

namespace muhash

theorem bigModInverse_lt (g n z : Nat) (hn : 0 < n) (h : bigModInverse g n = some z) :
    z < n := by
  unfold bigModInverse at h
  split at h
  · have e := Option.some.inj h
    have h1 : Nat.gcdA g n % (n : Int) < n := Int.emod_lt_of_pos _ (by omega)
    have h0 : 0 ≤ Nat.gcdA g n % (n : Int) := Int.emod_nonneg _ (by omega)
    omega
  · exact absurd h (by simp)

theorem gcd_mod_prime (v : Nat) : Nat.gcd (v % prime) prime = Nat.gcd v prime := by
  rw [← Nat.gcd_rec, Nat.gcd_comm]

theorem invMod_lt (v : Nat) : invMod v < prime := by
  have hp := prime_gt_one
  unfold invMod
  split
  · rename_i z hz
    exact bigModInverse_lt _ _ _ (by omega) hz
  · exact Nat.mod_lt _ (by omega)

theorem invMod_congr (a b : Nat) (h : a % prime = b % prime) : invMod a = invMod b := by
  unfold invMod; rw [h]

theorem invMod_mod (v : Nat) : invMod (v % prime) = invMod v :=
  invMod_congr _ _ (Nat.mod_mod _ _)

/-- For an operand that is invertible modulo `prime` the returned value is its
inverse. -/
theorem invMod_coprime (v : Nat) (h : Nat.Coprime v prime) :
    (v * invMod v) % prime = 1 := by
  have hg : Nat.gcd (v % prime) prime = 1 := by rw [gcd_mod_prime]; exact h
  obtain ⟨z, hz, _, hz2⟩ := bigModInverse_some (v % prime) prime prime_gt_one hg
  unfold invMod
  rw [hz]
  show (v * z) % prime = 1
  rw [Nat.mul_mod, Nat.mod_mod, ← Nat.mul_mod] at hz2
  exact hz2

/-- For an operand that is not invertible modulo `prime` the returned value is the
reduced operand. -/
theorem invMod_not_coprime (v : Nat) (h : ¬ Nat.Coprime v prime) :
    invMod v = v % prime := by
  have hg : Nat.gcd (v % prime) prime ≠ 1 := by rw [gcd_mod_prime]; exact h
  unfold invMod
  rw [bigModInverse_none _ _ hg]

theorem not_coprime_of_mod_zero (n v : Nat) (hn : 1 < n) (h : v % n = 0) :
    ¬ Nat.Coprime v n := by
  intro hc
  have hd : n ∣ v := Nat.dvd_of_mod_eq_zero h
  have : n ∣ Nat.gcd v n := Nat.dvd_gcd hd (dvd_refl n)
  rw [hc] at this
  have := Nat.le_of_dvd (by decide) this
  omega

theorem invMod_zero (v : Nat) (h : v % prime = 0) : invMod v = 0 := by
  rw [invMod_not_coprime v (not_coprime_of_mod_zero prime v prime_gt_one h), h]

theorem coprime_of_prime (hp : Nat.Prime prime) (v : Nat) (h : v % prime ≠ 0) :
    Nat.Coprime v prime := by
  apply Nat.Coprime.symm
  rw [Nat.Prime.coprime_iff_not_dvd hp]
  intro hd
  exact h (Nat.mod_eq_zero_of_dvd hd)

theorem GetInverse_spec (a : num3072) (ha : WF a) :
    WF (num3072.GetInverse a).1 ∧ val (num3072.GetInverse a).1 = val a % prime ∧
      WF (num3072.GetInverse a).2 ∧ val (num3072.GetInverse a).2 = invMod (val a) := by
  obtain ⟨r1, r2⟩ := reduce_spec a ha
  unfold num3072.GetInverse
  simp only
  generalize (if num3072.IsOverflow a = true then num3072.FullReduce a else a) = l at *
  refine ⟨r1, r2, ?_, ?_⟩
  · split
    · exact WF_ofNat _
    · exact r1
  · unfold invMod
    rw [r2]
    split
    · rename_i z hz
      rw [val_ofNat]
      have := bigModInverse_lt _ _ _ (by have := prime_gt_one; omega) hz
      have := prime_lt
      rw [Nat.mod_eq_of_lt (by omega)]
    · exact r2

theorem Divide_spec (a b : num3072) (ha : WF a) (hb : WF b) :
    WF (num3072.Divide a b).1 ∧
      val (num3072.Divide a b).1 = (val a * invMod (val b)) % prime ∧
      (num3072.Divide a b).2 = (num3072.GetInverse b).1 := by
  obtain ⟨r1, r2⟩ := reduce_spec a ha
  obtain ⟨g1, g2, g3, g4⟩ := GetInverse_spec b hb
  unfold num3072.Divide
  simp only
  generalize (if num3072.IsOverflow a = true then num3072.FullReduce a else a) = l at *
  have m1 := num_Mul_WF l _ r1 g3
  have m2 := num_Mul_val l _ r1 g3
  obtain ⟨q1, q2⟩ := reduce_spec _ m1
  refine ⟨q1, ?_, trivial⟩
  rw [q2, m2, r2, g4, Nat.mod_mod, Nat.mod_mul_mod]

theorem Divide_lt (a b : num3072) (ha : WF a) (hb : WF b) :
    val (num3072.Divide a b).1 < prime := by
  rw [(Divide_spec a b ha hb).2.1]
  exact Nat.mod_lt _ (by have := prime_gt_one; omega)

theorem logical_lt (mu : MuHash) : logical mu < prime :=
  Nat.mod_lt _ (by have := prime_gt_one; omega)

/-- `normalize` leaves the canonical words of the logical value over the element
one. -/
theorem normalize_eq (mu : MuHash) (h : mu.WF) :
    mu.normalize = { numerator := ofNat (logical mu), denominator := num3072.oneNum3072 } := by
  obtain ⟨d1, d2, _⟩ := Divide_spec mu.numerator mu.denominator h.1 h.2
  have hl := logical_lt mu
  have hv : val (ofNat (logical mu)) = logical mu := by
    rw [val_ofNat, Nat.mod_eq_of_lt (by have := prime_lt; omega)]
  have hn : (num3072.Divide mu.numerator mu.denominator).1 = ofNat (logical mu) := by
    apply val_inj _ _ d1 (WF_ofNat _)
    rw [hv, d2]; rfl
  unfold MuHash.normalize
  simp only [hn, SetToOne_eq]

end muhash

namespace muhash

/-! ## Bytes and words -/

theorem byteAt_lt {n : Nat} (b : Fin n → UInt8) (i : Nat) (h : i < n) :
    byteAt b i = b ⟨i, h⟩ := by
  simp [byteAt, h]

theorem byteAt_setByte {n : Nat} (b : Fin n → UInt8) (j i : Nat) (x : UInt8) :
    byteAt (setByte b j x) i = if i = j ∧ i < n then x else byteAt b i := by
  unfold byteAt setByte
  by_cases h : i < n
  · by_cases e : i = j
    · subst e; simp [h]
    · simp [h, e]
  · simp [h]

theorem byteAt_toNat_lt {n : Nat} (b : Fin n → UInt8) (i : Nat) :
    (byteAt b i).toNat < 2 ^ 8 := UInt8.toNat_lt _

theorem toNat_ofNat8 (v : Nat) : (UInt8.ofNat v).toNat = v % 256 := rfl

theorem or_shift (x y i : Nat) (hx : x < 2 ^ i) : x ||| (y <<< i) = x + y * 2 ^ i := by
  rw [Nat.shiftLeft_eq, Nat.lor_comm, Nat.mul_comm, ← Nat.mul_add_lt_is_or hx, Nat.add_comm]

/-- `binary.LittleEndian.Uint64` as a sum. -/
theorem Uint64LE_eq {n : Nat} (b : Fin n → UInt8) (off : Nat) :
    Uint64LE b off = (byteAt b off).toNat + (byteAt b (off + 1)).toNat * 2 ^ 8
      + (byteAt b (off + 2)).toNat * 2 ^ 16 + (byteAt b (off + 3)).toNat * 2 ^ 24
      + (byteAt b (off + 4)).toNat * 2 ^ 32 + (byteAt b (off + 5)).toNat * 2 ^ 40
      + (byteAt b (off + 6)).toNat * 2 ^ 48 + (byteAt b (off + 7)).toNat * 2 ^ 56 := by
  have h0 := byteAt_toNat_lt b off
  have h1 := byteAt_toNat_lt b (off + 1)
  have h2 := byteAt_toNat_lt b (off + 2)
  have h3 := byteAt_toNat_lt b (off + 3)
  have h4 := byteAt_toNat_lt b (off + 4)
  have h5 := byteAt_toNat_lt b (off + 5)
  have h6 := byteAt_toNat_lt b (off + 6)
  unfold Uint64LE
  generalize (byteAt b off).toNat = x0 at *
  generalize (byteAt b (off + 1)).toNat = x1 at *
  generalize (byteAt b (off + 2)).toNat = x2 at *
  generalize (byteAt b (off + 3)).toNat = x3 at *
  generalize (byteAt b (off + 4)).toNat = x4 at *
  generalize (byteAt b (off + 5)).toNat = x5 at *
  generalize (byteAt b (off + 6)).toNat = x6 at *
  generalize (byteAt b (off + 7)).toNat = x7 at *
  rw [or_shift x0 x1 8 (by omega), or_shift _ x2 16 (by omega), or_shift _ x3 24 (by omega),
    or_shift _ x4 32 (by omega), or_shift _ x5 40 (by omega), or_shift _ x6 48 (by omega),
    or_shift _ x7 56 (by omega)]

theorem Uint64LE_lt {n : Nat} (b : Fin n → UInt8) (off : Nat) : Uint64LE b off < 2 ^ 64 := by
  rw [Uint64LE_eq]
  have h0 := byteAt_toNat_lt b off
  have h1 := byteAt_toNat_lt b (off + 1)
  have h2 := byteAt_toNat_lt b (off + 2)
  have h3 := byteAt_toNat_lt b (off + 3)
  have h4 := byteAt_toNat_lt b (off + 4)
  have h5 := byteAt_toNat_lt b (off + 5)
  have h6 := byteAt_toNat_lt b (off + 6)
  have h7 := byteAt_toNat_lt b (off + 7)
  omega

/-- A loop that writes `f i` to limb `i`. -/
theorem idx_fillLoop (f : Nat → Nat) (w0 : uint3072) (m j : Nat) (hm : m ≤ limbs)
    (hj : j < m) :
    idx (forLoop 0 m (fun i w => setLimb w i (f i)) w0) j = f j := by
  have key := forLoop_inv (fun i (w : uint3072) => ∀ k, k < i → idx w k = f k) 0 m
    (fun i w => setLimb w i (f i)) w0 (by omega) (fun k hk => by omega)
    (by
      intro i t _ hi hinv k hk
      rw [idx_setLimb]
      split
      · rename_i h; rw [h.1]
      · rename_i h
        exact hinv k (by
          rcases Nat.lt_or_ge k i with h1 | h1
          · exact h1
          · exfalso; apply h; exact ⟨by omega, by omega⟩))
  exact key j hj

theorem idx_bytesToWordsLE (b : SerializedMuHash) (i : Nat) (hi : i < limbs) :
    idx (bytesToWordsLE b) i = Uint64LE b (i * wordSizeInBytes) :=
  idx_fillLoop (fun i => Uint64LE b (i * wordSizeInBytes)) _ limbs i (le_refl _) hi

theorem bytesToWordsLE_WF (b : SerializedMuHash) : WF (bytesToWordsLE b) := by
  intro i
  have := idx_bytesToWordsLE b i.val i.isLt
  rw [idx_lt _ _ i.isLt] at this
  rw [this]
  exact Uint64LE_lt _ _

end muhash

namespace muhash

theorem byteAt_PutUint64LE {n : Nat} (b : Fin n → UInt8) (off v j : Nat)
    (hoff : off + 8 ≤ n) :
    byteAt (PutUint64LE b off v) j =
      if off ≤ j ∧ j < off + 8 then UInt8.ofNat (v >>> (8 * (j - off))) else byteAt b j := by
  unfold PutUint64LE
  simp only [byteAt_setByte]
  by_cases h7 : j = off + 7
  · subst h7
    rw [if_pos ⟨rfl, by omega⟩, if_pos ⟨by omega, by omega⟩]
    congr 2; omega
  rw [if_neg (fun h => h7 h.1)]
  by_cases h6 : j = off + 6
  · subst h6
    rw [if_pos ⟨rfl, by omega⟩, if_pos ⟨by omega, by omega⟩]
    congr 2; omega
  rw [if_neg (fun h => h6 h.1)]
  by_cases h5 : j = off + 5
  · subst h5
    rw [if_pos ⟨rfl, by omega⟩, if_pos ⟨by omega, by omega⟩]
    congr 2; omega
  rw [if_neg (fun h => h5 h.1)]
  by_cases h4 : j = off + 4
  · subst h4
    rw [if_pos ⟨rfl, by omega⟩, if_pos ⟨by omega, by omega⟩]
    congr 2; omega
  rw [if_neg (fun h => h4 h.1)]
  by_cases h3 : j = off + 3
  · subst h3
    rw [if_pos ⟨rfl, by omega⟩, if_pos ⟨by omega, by omega⟩]
    congr 2; omega
  rw [if_neg (fun h => h3 h.1)]
  by_cases h2 : j = off + 2
  · subst h2
    rw [if_pos ⟨rfl, by omega⟩, if_pos ⟨by omega, by omega⟩]
    congr 2; omega
  rw [if_neg (fun h => h2 h.1)]
  by_cases h1 : j = off + 1
  · subst h1
    rw [if_pos ⟨rfl, by omega⟩, if_pos ⟨by omega, by omega⟩]
    congr 2; omega
  rw [if_neg (fun h => h1 h.1)]
  by_cases h0 : j = off
  · subst h0
    rw [if_pos ⟨rfl, by omega⟩, if_pos ⟨by omega, by omega⟩]
    simp
  rw [if_neg (fun h => h0 h.1), if_neg (by omega)]

/-- The loop of `serializeInner` writes byte `j` of word `j / 8`. -/
theorem byteAt_serializeLoop (b : num3072) (out0 : SerializedMuHash) (j : Nat)
    (hj : j < elementByteSize) :
    byteAt (forLoop 0 limbs (fun i out => PutUint64LE out (i * wordSizeInBytes) (idx b i))
      out0) j = UInt8.ofNat (idx b (j / 8) >>> (8 * (j % 8))) := by
  have key := forLoop_inv
    (fun i (out : SerializedMuHash) => ∀ k, k < 8 * i →
      byteAt out k = UInt8.ofNat (idx b (k / 8) >>> (8 * (k % 8)))) 0 limbs
    (fun i out => PutUint64LE out (i * wordSizeInBytes) (idx b i)) out0 (by omega)
    (fun k hk => by omega)
    (by
      intro i t _ hi hinv k hk
      have hl : limbs = 48 := rfl
      have hn : i * wordSizeInBytes + 8 ≤ elementByteSize := by
        show i * 8 + 8 ≤ 384
        omega
      rw [byteAt_PutUint64LE _ _ _ _ hn]
      have hw : i * wordSizeInBytes = i * 8 := rfl
      rw [hw]
      split
      · rename_i h
        have e1 : k / 8 = i := by omega
        have e2 : k - i * 8 = k % 8 := by omega
        rw [e1, e2]
      · rename_i h
        exact hinv k (by omega))
  exact key j (by show j < 8 * 48; have : elementByteSize = 384 := rfl; omega)

theorem div_pow_split (v q r : Nat) :
    v / 2 ^ (64 * q) / 2 ^ (8 * r) = v / 2 ^ (8 * (8 * q + r)) := by
  rw [Nat.div_div_eq_div_mul, ← pow_add]
  congr 2; omega

theorem byte_of_word (x r : Nat) (hr : r < 8) :
    ((x % 2 ^ 64) / 2 ^ (8 * r)) % 256 = (x / 2 ^ (8 * r)) % 256 := by
  interval_cases r <;> omega

/-- The bytes written by `serializeInner` for the words of `v` are the little-endian
bytes of `v`. -/
theorem serializeLoop_ofNat (v : Nat) (out0 : SerializedMuHash) :
    forLoop 0 limbs (fun i out => PutUint64LE out (i * wordSizeInBytes) (idx (ofNat v) i))
      out0 = bytesOfNat v := by
  funext k
  have h := byteAt_serializeLoop (ofNat v) out0 k.val k.isLt
  rw [byteAt_lt _ _ k.isLt] at h
  rw [h]
  have hk : k.val < 384 := k.isLt
  have hq : k.val / 8 < limbs := by show k.val / 8 < 48; omega
  rw [idx_lt _ _ hq]
  apply UInt8.ext_iff.mpr
  show (UInt8.ofNat _).toNat = (UInt8.ofNat _).toNat
  rw [toNat_ofNat8, toNat_ofNat8, Nat.shiftRight_eq_div_pow]
  show ((v / 2 ^ (64 * (k.val / 8))) % 2 ^ 64) / 2 ^ (8 * (k.val % 8)) % 256 = _
  rw [byte_of_word _ _ (Nat.mod_lt _ (by decide)), div_pow_split]
  congr 3; omega

theorem word_of_bytes (x : Nat) :
    (x / 2 ^ (8 * 0)) % 256 + (x / 2 ^ (8 * 1)) % 256 * 2 ^ 8
      + (x / 2 ^ (8 * 2)) % 256 * 2 ^ 16 + (x / 2 ^ (8 * 3)) % 256 * 2 ^ 24
      + (x / 2 ^ (8 * 4)) % 256 * 2 ^ 32 + (x / 2 ^ (8 * 5)) % 256 * 2 ^ 40
      + (x / 2 ^ (8 * 6)) % 256 * 2 ^ 48 + (x / 2 ^ (8 * 7)) % 256 * 2 ^ 56
      = x % 2 ^ 64 := by
  omega

theorem byteAt_bytesOfNat (v q r : Nat) (hq : q < limbs) (hr : r < 8) :
    (byteAt (bytesOfNat v) (q * wordSizeInBytes + r)).toNat
      = (v / 2 ^ (64 * q) / 2 ^ (8 * r)) % 256 := by
  have hlt : q * wordSizeInBytes + r < elementByteSize := by
    show q * 8 + r < 384
    have : q < 48 := hq
    omega
  rw [byteAt_lt _ _ hlt, div_pow_split]
  show (UInt8.ofNat _).toNat = _
  rw [toNat_ofNat8]
  congr 3
  show 8 * (q * 8 + r) = 8 * (8 * q + r)
  omega

/-- Reading back the little-endian bytes of `v` gives the words of `v`. -/
theorem bytesToWordsLE_bytesOfNat (v : Nat) : bytesToWordsLE (bytesOfNat v) = ofNat v := by
  apply ext_idx
  intro i hi
  rw [idx_bytesToWordsLE _ _ hi, Uint64LE_eq, idx_lt _ _ hi]
  have h0 := byteAt_bytesOfNat v i 0 hi (by decide)
  rw [Nat.add_zero] at h0
  rw [h0, byteAt_bytesOfNat v i 1 hi (by decide), byteAt_bytesOfNat v i 2 hi (by decide),
    byteAt_bytesOfNat v i 3 hi (by decide), byteAt_bytesOfNat v i 4 hi (by decide),
    byteAt_bytesOfNat v i 5 hi (by decide), byteAt_bytesOfNat v i 6 hi (by decide),
    byteAt_bytesOfNat v i 7 hi (by decide)]
  exact word_of_bytes _

end muhash

namespace muhash

theorem bytesValAux_eight (f : Nat → Nat) (m : Nat) :
    bytesValAux f (m + 8) = bytesValAux f m
      + (f m + f (m + 1) * 2 ^ 8 + f (m + 2) * 2 ^ 16 + f (m + 3) * 2 ^ 24
        + f (m + 4) * 2 ^ 32 + f (m + 5) * 2 ^ 40 + f (m + 6) * 2 ^ 48
        + f (m + 7) * 2 ^ 56) * 2 ^ (8 * m) := by
  show bytesValAux f (m + 7 + 1) = _
  simp only [bytesValAux]
  ring

theorem limbsVal_bytesToWordsLE (b : SerializedMuHash) (n : Nat) (hn : n ≤ limbs) :
    limbsVal (idx (bytesToWordsLE b)) n
      = bytesValAux (fun i => (byteAt b i).toNat) (8 * n) := by
  induction n with
  | zero => rfl
  | succ n ih =>
    have e : 8 * (n + 1) = 8 * n + 8 := by omega
    rw [e, bytesValAux_eight]
    simp only [limbsVal]
    rw [ih (by omega), idx_bytesToWordsLE _ _ (by omega), Uint64LE_eq]
    have hw : n * wordSizeInBytes = 8 * n := by show n * 8 = 8 * n; omega
    have hp : (2 : Nat) ^ (64 * n) = 2 ^ (8 * (8 * n)) := by congr 1; omega
    rw [hw, hp]

/-- The words read by `bytesToWordsLE` represent the little-endian value of the
bytes. -/
theorem val_bytesToWordsLE (b : SerializedMuHash) : val (bytesToWordsLE b) = bytesVal b :=
  limbsVal_bytesToWordsLE b limbs (le_refl _)

theorem bytesVal_lt (b : SerializedMuHash) : bytesVal b < 2 ^ 3072 := by
  rw [← val_bytesToWordsLE]
  exact val_lt _ (bytesToWordsLE_WF b)

theorem bytesToWordsLE_eq (b : SerializedMuHash) :
    bytesToWordsLE b = ofNat (bytesVal b) := by
  rw [← val_bytesToWordsLE, ofNat_val _ (bytesToWordsLE_WF b)]

theorem bytesVal_bytesOfNat (v : Nat) : bytesVal (bytesOfNat v) = v % 2 ^ 3072 := by
  rw [← val_bytesToWordsLE, bytesToWordsLE_bytesOfNat, val_ofNat]

/-! ## `Serialize`, `Finalize` and `DeserializeMuHash` -/

theorem serializeInner_eq (mu : MuHash) (h : mu.WF) (out : SerializedMuHash) :
    mu.serializeInner out
      = ({ numerator := ofNat (logical mu), denominator := num3072.oneNum3072 },
         bytesOfNat (logical mu)) := by
  unfold MuHash.serializeInner
  simp only [normalize_eq mu h, serializeLoop_ofNat]

theorem Serialize_eq (mu : MuHash) (h : mu.WF) :
    mu.Serialize
      = ({ numerator := ofNat (logical mu), denominator := num3072.oneNum3072 },
         bytesOfNat (logical mu)) :=
  serializeInner_eq mu h _

theorem Finalize_eq (P : Primitives) (mu : MuHash) (h : mu.WF) :
    mu.Finalize P
      = ({ numerator := ofNat (logical mu), denominator := num3072.oneNum3072 },
         P.blake2b256 "MuHashFinalize" (List.ofFn (bytesOfNat (logical mu)))) := by
  unfold MuHash.Finalize
  simp only [serializeInner_eq mu h]

/-- Equal logical values give equal serializations and digests. -/
theorem Serialize_congr (P : Primitives) (m1 m2 : MuHash) (h1 : m1.WF) (h2 : m2.WF)
    (h : logical m1 = logical m2) :
    m1.Serialize.2 = m2.Serialize.2 ∧ (m1.Finalize P).2 = (m2.Finalize P).2 := by
  rw [Serialize_eq m1 h1, Serialize_eq m2 h2, Finalize_eq P m1 h1, Finalize_eq P m2 h2, h]
  exact ⟨rfl, rfl⟩

theorem DeserializeMuHash_eq (b : SerializedMuHash) :
    DeserializeMuHash b = if prime ≤ bytesVal b then Except.error MuHashError.errOverflow
      else Except.ok { numerator := ofNat (bytesVal b), denominator := num3072.oneNum3072 } := by
  unfold DeserializeMuHash
  simp only
  have hiff := num_IsOverflow_iff (bytesToWordsLE b) (bytesToWordsLE_WF b)
  rw [val_bytesToWordsLE] at hiff
  by_cases hp : prime ≤ bytesVal b
  · rw [if_pos (hiff.mpr hp), if_pos hp]
  · rw [if_neg (fun h => hp (hiff.mp h)), if_neg hp, bytesToWordsLE_eq]

theorem NewMuHash_WF : NewMuHash.WF := ⟨one_WF, one_WF⟩

theorem invMod_one : invMod 1 = 1 := by
  have h := invMod_coprime 1 (Nat.coprime_one_left _)
  rw [Nat.one_mul] at h
  rw [Nat.mod_eq_of_lt (invMod_lt 1)] at h
  exact h

theorem logical_over_one (n : num3072) :
    logical { numerator := n, denominator := num3072.oneNum3072 } = val n % prime := by
  unfold logical
  simp only [val_one, invMod_one, Nat.mul_one]

end muhash

namespace muhash

/-! ## Algebra of `num3072.Mul` -/

theorem num_Mul_comm (a b : num3072) (ha : WF a) (hb : WF b) :
    num3072.Mul a b = num3072.Mul b a := by
  apply val_inj _ _ (num_Mul_WF a b ha hb) (num_Mul_WF b a hb ha)
  rw [num_Mul_val a b ha hb, num_Mul_val b a hb ha, Nat.mul_comm]

theorem num_Mul_assoc (a b c : num3072) (ha : WF a) (hb : WF b) (hc : WF c) :
    num3072.Mul (num3072.Mul a b) c = num3072.Mul a (num3072.Mul b c) := by
  have hab := num_Mul_WF a b ha hb
  have hbc := num_Mul_WF b c hb hc
  apply val_inj _ _ (num_Mul_WF _ c hab hc) (num_Mul_WF a _ ha hbc)
  rw [num_Mul_val _ c hab hc, num_Mul_val a _ ha hbc, num_Mul_val a b ha hb,
    num_Mul_val b c hb hc, Nat.mod_mul_mod, Nat.mul_mod_mod, Nat.mul_assoc]

theorem num_Mul_right_comm (n a b : num3072) (hn : WF n) (ha : WF a) (hb : WF b) :
    num3072.Mul (num3072.Mul n a) b = num3072.Mul (num3072.Mul n b) a := by
  rw [num_Mul_assoc n a b hn ha hb, num_Mul_assoc n b a hn hb ha, num_Mul_comm a b ha hb]

/-! ## Calls preserve well-formedness -/

theorem dataToElement_WF (P : Primitives) (data : List UInt8) : WF (dataToElement P data) :=
  bytesToWordsLE_WF _

theorem addElement_WF (mu : MuHash) (e : num3072) (h : mu.WF) (he : WF e) :
    (mu.addElement e).WF :=
  ⟨num_Mul_WF _ _ h.1 he, h.2⟩

theorem removeElement_WF (mu : MuHash) (e : num3072) (h : mu.WF) (he : WF e) :
    (mu.removeElement e).WF :=
  ⟨h.1, num_Mul_WF _ _ h.2 he⟩

theorem Combine_WF (mu other : MuHash) (h : mu.WF) (ho : other.WF) :
    (mu.Combine other).WF :=
  ⟨num_Mul_WF _ _ h.1 ho.1, num_Mul_WF _ _ h.2 ho.2⟩

theorem update_WF (P : Primitives) (mu : MuHash) (u : Update) (h : mu.WF) :
    (mu.update P u).WF := by
  cases u with
  | add data => exact addElement_WF mu _ h (dataToElement_WF P data)
  | remove data => exact removeElement_WF mu _ h (dataToElement_WF P data)

theorem call_WF (P : Primitives) (mu : MuHash) (c : Call) (h : mu.WF) (hc : c.WF) :
    (mu.call P c).WF := by
  cases c with
  | add data => exact addElement_WF mu _ h (dataToElement_WF P data)
  | remove data => exact removeElement_WF mu _ h (dataToElement_WF P data)
  | combine other => exact Combine_WF mu other h hc

theorem replay_WF (P : Primitives) (ops : List Update) (mu : MuHash) (h : mu.WF) :
    (mu.replay P ops).WF := by
  induction ops generalizing mu with
  | nil => exact h
  | cons u rest ih => exact ih _ (update_WF P mu u h)

theorem run_WF (P : Primitives) (calls : List Call) (mu : MuHash) (h : mu.WF)
    (hc : ∀ c ∈ calls, c.WF) : (mu.run P calls).WF := by
  induction calls generalizing mu with
  | nil => exact h
  | cons c rest ih =>
    exact ih _ (call_WF P mu c h (hc c (List.mem_cons_self _ _)))
      (fun c' hc' => hc c' (List.mem_cons_of_mem _ hc'))

/-! ## Order of `Add` and `Remove` -/

theorem update_comm (P : Primitives) (mu : MuHash) (h : mu.WF) (x y : Update) :
    (mu.update P x).update P y = (mu.update P y).update P x := by
  have hw := dataToElement_WF P
  cases x with
  | add dx =>
    cases y with
    | add dy =>
      simp only [MuHash.update, MuHash.Add, MuHash.addElement]
      rw [num_Mul_right_comm _ _ _ h.1 (hw dx) (hw dy)]
    | remove dy =>
      simp only [MuHash.update, MuHash.Add, MuHash.Remove, MuHash.addElement,
        MuHash.removeElement]
  | remove dx =>
    cases y with
    | add dy =>
      simp only [MuHash.update, MuHash.Add, MuHash.Remove, MuHash.addElement,
        MuHash.removeElement]
    | remove dy =>
      simp only [MuHash.update, MuHash.Remove, MuHash.removeElement]
      rw [num_Mul_right_comm _ _ _ h.2 (hw dx) (hw dy)]

/-- Two lists of `Add`/`Remove` calls that are permutations of each other leave the
same numerator and denominator. -/
theorem replay_perm (P : Primitives) (l1 l2 : List Update) (hp : l1.Perm l2) :
    ∀ mu : MuHash, mu.WF → mu.replay P l1 = mu.replay P l2 := by
  induction hp with
  | nil => intro mu _; rfl
  | cons x _ ih => intro mu h; exact ih _ (update_WF P mu x h)
  | swap x y l =>
    intro mu h
    show MuHash.replay P ((mu.update P y).update P x) l
      = MuHash.replay P ((mu.update P x).update P y) l
    rw [update_comm P mu h y x]
  | trans _ _ ih1 ih2 => intro mu h; rw [ih1 mu h, ih2 mu h]

/-! ## `Combine` -/

theorem Combine_comm (a b : MuHash) (ha : a.WF) (hb : b.WF) :
    a.Combine b = b.Combine a := by
  unfold MuHash.Combine
  rw [num_Mul_comm _ _ ha.1 hb.1, num_Mul_comm _ _ ha.2 hb.2]

theorem Combine_assoc (a b c : MuHash) (ha : a.WF) (hb : b.WF) (hc : c.WF) :
    (a.Combine b).Combine c = a.Combine (b.Combine c) := by
  unfold MuHash.Combine
  simp only
  rw [num_Mul_assoc _ _ _ ha.1 hb.1 hc.1, num_Mul_assoc _ _ _ ha.2 hb.2 hc.2]

end muhash

namespace muhash

/-! ## The logical value of an accumulator -/

/-- The logical value depends only on the residues of the two halves. -/
theorem logical_congr (m1 m2 : MuHash)
    (hn : val m1.numerator % prime = val m2.numerator % prime)
    (hd : val m1.denominator % prime = val m2.denominator % prime) :
    logical m1 = logical m2 := by
  unfold logical
  rw [invMod_congr _ _ hd, Nat.mul_mod, hn, ← Nat.mul_mod]

/-- When the denominator is invertible the logical value times the denominator is the
numerator. -/
theorem logical_mul_den (mu : MuHash) (h : Nat.Coprime (val mu.denominator) prime) :
    (logical mu * val mu.denominator) % prime = val mu.numerator % prime := by
  unfold logical
  have h1 := invMod_coprime _ h
  rw [Nat.mod_mul_mod, Nat.mul_assoc, Nat.mul_comm (invMod _), Nat.mul_mod, h1, Nat.mul_one,
    Nat.mod_mod]

theorem logical_den_zero (mu : MuHash) (h : val mu.denominator % prime = 0) :
    logical mu = 0 := by
  unfold logical
  rw [invMod_zero _ h, Nat.mul_zero, Nat.zero_mod]

/-- Multiplying both halves by an invertible element keeps the logical value, when the
denominator is invertible. -/
theorem logical_cancel_coprime (n d e : num3072) (hn : WF n) (hd : WF d) (he : WF e)
    (hce : Nat.Coprime (val e) prime) (hcd : Nat.Coprime (val d) prime) :
    logical { numerator := num3072.Mul n e, denominator := num3072.Mul d e }
      = logical { numerator := n, denominator := d } := by
  unfold logical
  simp only
  rw [num_Mul_val n e hn he, num_Mul_val d e hd he, invMod_mod, Nat.mod_mul_mod]
  have hde : Nat.Coprime (val d * val e) prime := Nat.Coprime.mul hcd hce
  have h1 : (val d * val e * invMod (val d * val e)) ≡ 1 [MOD prime] := by
    show _ % prime = 1 % prime
    rw [invMod_coprime _ hde, Nat.mod_eq_of_lt prime_gt_one]
  have h2 : (val d * invMod (val d)) ≡ 1 [MOD prime] := by
    show _ % prime = 1 % prime
    rw [invMod_coprime _ hcd, Nat.mod_eq_of_lt prime_gt_one]
  show (val n * val e * invMod (val d * val e)) ≡ val n * invMod (val d) [MOD prime]
  calc val n * val e * invMod (val d * val e)
      = val n * val e * invMod (val d * val e) * 1 := by ring
    _ ≡ val n * val e * invMod (val d * val e) * (val d * invMod (val d)) [MOD prime] :=
        (h2.symm).mul_left _
    _ = val n * invMod (val d) * (val d * val e * invMod (val d * val e)) := by ring
    _ ≡ val n * invMod (val d) * 1 [MOD prime] := h1.mul_left _
    _ = val n * invMod (val d) := by ring

/-- Multiplying both halves by any element keeps the logical value zero when the
denominator is zero modulo `prime`. -/
theorem logical_cancel_zero (n d e : num3072) (_hn : WF n) (hd : WF d) (he : WF e)
    (hz : val d % prime = 0) :
    logical { numerator := num3072.Mul n e, denominator := num3072.Mul d e }
      = logical { numerator := n, denominator := d } := by
  rw [logical_den_zero { numerator := n, denominator := d } hz]
  apply logical_den_zero
  show val (num3072.Mul d e) % prime = 0
  rw [num_Mul_val d e hd he, Nat.mod_mod, Nat.mul_mod, hz, Nat.zero_mul, Nat.zero_mod]

/-- The inverse law on the logical value. -/
theorem logical_add_remove (P : Primitives) (mu : MuHash) (h : mu.WF) (x : List UInt8)
    (hx : (Nat.Coprime (val (dataToElement P x)) prime ∧
        Nat.Coprime (val mu.denominator) prime) ∨
      (Nat.Prime prime ∧ val (dataToElement P x) % prime ≠ 0)) :
    logical ((mu.Add P x).Remove P x) = logical mu := by
  have he := dataToElement_WF P x
  show logical (MuHash.mk (num3072.Mul mu.numerator (dataToElement P x))
    (num3072.Mul mu.denominator (dataToElement P x))) = logical mu
  rcases hx with ⟨hce, hcd⟩ | ⟨hp, hne⟩
  · exact logical_cancel_coprime _ _ _ h.1 h.2 he hce hcd
  · by_cases hz : val mu.denominator % prime = 0
    · exact logical_cancel_zero _ _ _ h.1 h.2 he hz
    · exact logical_cancel_coprime _ _ _ h.1 h.2 he (coprime_of_prime hp _ hne)
        (coprime_of_prime hp _ hz)

/-! ## `Add` commutes with every call -/

theorem call_add_comm (P : Primitives) (mu : MuHash) (h : mu.WF) (x : List UInt8)
    (c : Call) (hc : c.WF) :
    (mu.Add P x).call P c = (mu.call P c).Add P x := by
  have hw := dataToElement_WF P
  cases c with
  | add dy =>
    simp only [MuHash.call, MuHash.Add, MuHash.addElement]
    rw [num_Mul_right_comm _ _ _ h.1 (hw x) (hw dy)]
  | remove dy =>
    simp only [MuHash.call, MuHash.Add, MuHash.Remove, MuHash.addElement,
      MuHash.removeElement]
  | combine other =>
    simp only [MuHash.call, MuHash.Add, MuHash.addElement, MuHash.Combine]
    rw [num_Mul_right_comm _ _ _ h.1 (hw x) hc.1]

theorem run_add_comm (P : Primitives) (x : List UInt8) (calls : List Call)
    (hc : ∀ c ∈ calls, c.WF) :
    ∀ mu : MuHash, mu.WF → (mu.Add P x).run P calls = (mu.run P calls).Add P x := by
  induction calls with
  | nil => intro mu _; rfl
  | cons c rest ih =>
    intro mu h
    have hc0 := hc c (List.mem_cons_self _ _)
    show MuHash.run P ((mu.Add P x).call P c) rest = (MuHash.run P (mu.call P c) rest).Add P x
    rw [call_add_comm P mu h x c hc0]
    exact ih (fun c' hc' => hc c' (List.mem_cons_of_mem _ hc')) _ (call_WF P mu c h hc0)

/-! ## `Combine` with a replayed history -/

theorem replay_combine (P : Primitives) (A : MuHash) (ops : List Update) :
    ∀ X B : MuHash, X.WF → B.WF →
      val X.numerator % prime = (val A.numerator * val B.numerator) % prime →
      val X.denominator % prime = (val A.denominator * val B.denominator) % prime →
      val (X.replay P ops).numerator % prime
          = (val A.numerator * val (B.replay P ops).numerator) % prime ∧
        val (X.replay P ops).denominator % prime
          = (val A.denominator * val (B.replay P ops).denominator) % prime := by
  induction ops with
  | nil => intro X B _ _ h1 h2; exact ⟨h1, h2⟩
  | cons u rest ih =>
    intro X B hX hB h1 h2
    have hw := dataToElement_WF P
    have key : ∀ (x b a e : Nat), x % prime = (a * b) % prime →
        (x * e) % prime % prime = (a * ((b * e) % prime)) % prime := by
      intro x b a e hx
      rw [Nat.mod_mod]
      have hx' : x ≡ a * b [MOD prime] := hx
      show x * e ≡ a * ((b * e) % prime) [MOD prime]
      calc x * e ≡ a * b * e [MOD prime] := hx'.mul_right e
        _ = a * (b * e) := by ring
        _ ≡ a * ((b * e) % prime) [MOD prime] := ((Nat.mod_modEq _ _).symm).mul_left a
    apply ih _ _ (update_WF P X u hX) (update_WF P B u hB)
    · cases u with
      | add d =>
        show val (num3072.Mul X.numerator _) % prime
          = (val A.numerator * val (num3072.Mul B.numerator _)) % prime
        rw [num_Mul_val _ _ hX.1 (hw d), num_Mul_val _ _ hB.1 (hw d)]
        exact key _ _ _ _ h1
      | remove d => exact h1
    · cases u with
      | add d => exact h2
      | remove d =>
        show val (num3072.Mul X.denominator _) % prime
          = (val A.denominator * val (num3072.Mul B.denominator _)) % prime
        rw [num_Mul_val _ _ hX.2 (hw d), num_Mul_val _ _ hB.2 (hw d)]
        exact key _ _ _ _ h2

theorem logical_combine_replay (P : Primitives) (A : MuHash) (hA : A.WF)
    (ops : List Update) :
    logical (A.Combine (NewMuHash.replay P ops)) = logical (A.replay P ops) := by
  have hB := replay_WF P ops NewMuHash NewMuHash_WF
  obtain ⟨h1, h2⟩ := replay_combine P A ops A NewMuHash hA NewMuHash_WF
    (by show _ = (val A.numerator * val num3072.oneNum3072) % prime
        rw [val_one, Nat.mul_one])
    (by show _ = (val A.denominator * val num3072.oneNum3072) % prime
        rw [val_one, Nat.mul_one])
  apply logical_congr
  · show val (num3072.Mul A.numerator _) % prime = _
    rw [num_Mul_val _ _ hA.1 hB.1, Nat.mod_mod, h1]
  · show val (num3072.Mul A.denominator _) % prime = _
    rw [num_Mul_val _ _ hA.2 hB.2, Nat.mod_mod, h2]

/-! ## Concrete values -/

theorem bytesValAux_zero (n : Nat) : bytesValAux (fun _ => 0) n = 0 := by
  induction n with
  | zero => rfl
  | succ n ih => simp [bytesValAux, ih]

theorem bytesVal_zero : bytesVal (fun _ => 0) = 0 := by
  unfold bytesVal
  have : (fun i => (byteAt (fun _ : Fin elementByteSize => (0 : UInt8)) i).toNat)
      = fun _ => 0 := by
    funext i
    unfold byteAt
    split <;> rfl
  rw [this]
  exact bytesValAux_zero _

theorem val_zero : val (fun _ => 0) = 0 := by
  have h : (fun _ : Fin limbs => 0) = ofNat 0 := by
    funext i; simp [ofNat]
  rw [h, val_ofNat, Nat.zero_mod]

theorem val_ofNat_lt (v : Nat) (h : v < 2 ^ 3072) : val (ofNat v) = v := by
  rw [val_ofNat, Nat.mod_eq_of_lt h]

theorem prime_odd : prime % 2 = 1 := by
  unfold prime primeDiff; norm_num

theorem coprime_two_of_odd (n : Nat) (h : n % 2 = 1) : Nat.Coprime 2 n := by
  show Nat.gcd 2 n = 1
  rw [Nat.gcd_rec, h]
  exact Nat.gcd_one_left 2

theorem coprime_two_prime : Nat.Coprime 2 prime := coprime_two_of_odd prime prime_odd

theorem coprime_succ (n : Nat) : Nat.Coprime (n + 1) n := by
  show Nat.gcd (n + 1) n = 1
  rw [Nat.gcd_comm, Nat.gcd_rec, Nat.add_mod_left]
  rcases Nat.lt_or_ge 1 n with h | h
  · rw [Nat.mod_eq_of_lt h]; exact Nat.gcd_one_left _
  · interval_cases n <;> rfl

theorem coprime_succ_prime : Nat.Coprime (prime + 1) prime := coprime_succ prime

theorem dataToElement_twoStream (data : List UInt8) :
    val (dataToElement twoStream data) = 2 := by
  show val (bytesToWordsLE (bytesOfNat 2)) = 2
  rw [bytesToWordsLE_bytesOfNat, val_ofNat_lt 2 (by norm_num)]

theorem dataToElement_zeroStream (data : List UInt8) :
    val (dataToElement zeroStream data) = 0 := by
  show val (bytesToWordsLE (fun _ => 0)) = 0
  rw [val_bytesToWordsLE, bytesVal_zero]

end muhash

namespace muhash

open uint3072

/-! ## The helper functions of `Square` against the inline code of `Mul` -/

theorem v3_inj (s t : Nat × Nat × Nat) (s1 : s.1 < 2 ^ 64) (s2 : s.2.1 < 2 ^ 64)
    (t1 : t.1 < 2 ^ 64) (t2 : t.2.1 < 2 ^ 64) (h : v3 s = v3 t) : s = t := by
  obtain ⟨a, b, c⟩ := s
  obtain ⟨x, y, z⟩ := t
  simp only [v3] at *
  have e1 : a = x := by omega
  have e2 : b = y := by omega
  have e3 : c = z := by omega
  rw [e1, e2, e3]

theorem muladd3_eq (s : Nat × Nat × Nat) (a b : Nat) : muladd3 s a b = Mul.acc a b s := rfl

theorem muldbladd3_eq (s : Nat × Nat × Nat) (a b : Nat) :
    muldbladd3 s a b = Mul.acc a b (Mul.acc a b s) := rfl

theorem mulnadd3_eq (s c : Nat × Nat × Nat) : mulnadd3 s c primeDiff = Mul.fold c s := by
  obtain ⟨l, h, k⟩ := c
  obtain ⟨sl, sh, sk⟩ := s
  simp only [mulnadd3, Mul.fold, bitsAdd, bitsMul, Prod.mk.injEq, true_and]
  omega

theorem extract3_eq (s : Nat × Nat × Nat) : extract3 s = ((s.2.1, s.2.2, 0), s.1) := rfl

/-- Two accumulations of the same product add it twice. -/
theorem acc_twice (a b : Nat) (s : Nat × Nat × Nat) (ha : a < 2 ^ 64) (hb : b < 2 ^ 64)
    (h1 : s.1 < 2 ^ 64) (h2 : s.2.1 < 2 ^ 64) (h3 : s.2.2 < 2 ^ 64)
    (hbnd : v3 s + 2 * 2 ^ 128 < 2 ^ 192) :
    v3 (muldbladd3 s a b) = v3 s + 2 * (a * b) ∧ (muldbladd3 s a b).1 < 2 ^ 64 ∧
      (muldbladd3 s a b).2.1 < 2 ^ 64 ∧ (muldbladd3 s a b).2.2 < 2 ^ 64 := by
  have hp := mul_lt_word a b ha hb
  obtain ⟨q1, q2, q3, q4⟩ := acc_spec a b s h1 h2 h3 (by omega)
  obtain ⟨r1, r2, r3, r4⟩ := acc_spec a b (Mul.acc a b s) q2 q3 q4 (by omega)
  rw [muldbladd3_eq]
  refine ⟨by omega, r2, r3, r4⟩

/-- A loop of doubled accumulations adds twice the sum of the products. -/
theorem dblLoop_spec (f g : Nat → Nat) (n : Nat) (s0 : Nat × Nat × Nat)
    (hf : ∀ i, f i < 2 ^ 64) (hg : ∀ i, g i < 2 ^ 64)
    (h1 : s0.1 < 2 ^ 64) (h2 : s0.2.1 < 2 ^ 64) (h3 : s0.2.2 < 2 ^ 64)
    (hb : v3 s0 + 2 * n * 2 ^ 128 < 2 ^ 192) :
    v3 (forLoop 0 n (fun i s => muldbladd3 s (f i) (g i)) s0)
        = v3 s0 + 2 * ∑ i in Finset.range n, f i * g i ∧
      2 * ∑ i in Finset.range n, f i * g i ≤ 2 * n * 2 ^ 128 ∧
      (forLoop 0 n (fun i s => muldbladd3 s (f i) (g i)) s0).1 < 2 ^ 64 ∧
      (forLoop 0 n (fun i s => muldbladd3 s (f i) (g i)) s0).2.1 < 2 ^ 64 ∧
      (forLoop 0 n (fun i s => muldbladd3 s (f i) (g i)) s0).2.2 < 2 ^ 64 := by
  have key := forLoop_inv
    (fun i s => v3 s = v3 s0 + 2 * ∑ k in Finset.range i, f k * g k ∧
      2 * ∑ k in Finset.range i, f k * g k ≤ 2 * i * 2 ^ 128 ∧
      s.1 < 2 ^ 64 ∧ s.2.1 < 2 ^ 64 ∧ s.2.2 < 2 ^ 64)
    0 n (fun i s => muldbladd3 s (f i) (g i)) s0 (Nat.zero_le _)
    ⟨by simp, by simp, h1, h2, h3⟩
    (by
      intro i t _ hi2 ⟨e, hs, t1, t2, t3⟩
      have hp := mul_lt_word (f i) (g i) (hf i) (hg i)
      have hstep : 2 * (i + 1) * 2 ^ 128 ≤ 2 * n * 2 ^ 128 :=
        Nat.mul_le_mul_right _ (by omega)
      have hbound : v3 t + 2 * 2 ^ 128 < 2 ^ 192 := by omega
      obtain ⟨q1, q2, q3, q4⟩ := acc_twice (f i) (g i) t (hf i) (hg i) t1 t2 t3 hbound
      refine ⟨?_, ?_, q2, q3, q4⟩
      · rw [q1, e, Finset.sum_range_succ]; ring
      · rw [Finset.sum_range_succ]; omega)
  exact key

/-- A sum that is symmetric under `i ↦ n - 1 - i` is twice its first half, plus the
middle term when `n` is odd. -/
theorem sym_sum (n : Nat) : ∀ g : Nat → Nat, (∀ i, i < n → g (n - 1 - i) = g i) →
    ∑ i in Finset.range n, g i
      = 2 * ∑ i in Finset.range (n / 2), g i + (if n % 2 = 1 then g (n / 2) else 0) := by
  induction n using Nat.strong_induction_on with
  | _ n ih =>
    intro g hsym
    rcases Nat.lt_or_ge n 2 with h | h
    · interval_cases n
      · simp
      · simp
    · obtain ⟨m, rfl⟩ : ∃ m, n = m + 2 := ⟨n - 2, by omega⟩
      have hm := ih m (by omega) (fun i => g (i + 1)) (by
        intro i hi
        have := hsym (i + 1) (by omega)
        have e : m + 2 - 1 - (i + 1) = m - 1 - i + 1 := by omega
        rw [e] at this
        exact this)
      have h0 : g (m + 1) = g 0 := by
        have := hsym 0 (by omega)
        simpa using this
      have e2 : (m + 2) / 2 = m / 2 + 1 := by omega
      have e3 : (m + 2) % 2 = m % 2 := by omega
      rw [Finset.sum_range_succ, Finset.sum_range_succ', hm, h0, e2, e3,
        Finset.sum_range_succ' _ (m / 2)]
      ring

end muhash

namespace muhash

open uint3072

/-! ## The columns of `Square` -/

/-- The half loop of doubled products followed by the middle product, as `Square`
computes a symmetric column. -/
theorem symLoop_spec (f g : Nat → Nat) (n : Nat) (s0 : Nat × Nat × Nat)
    (hf : ∀ i, f i < 2 ^ 64) (hg : ∀ i, g i < 2 ^ 64)
    (hsym : ∀ i, i < n → f (n - 1 - i) * g (n - 1 - i) = f i * g i)
    (h1 : s0.1 < 2 ^ 64) (h2 : s0.2.1 < 2 ^ 64) (h3 : s0.2.2 < 2 ^ 64)
    (hb : v3 s0 + n * 2 ^ 128 < 2 ^ 192) (r : Nat × Nat × Nat)
    (hr : r = if n % 2 = 1 then
        muladd3 (forLoop 0 (n / 2) (fun i s => muldbladd3 s (f i) (g i)) s0)
          (f (n / 2)) (g (n / 2))
      else forLoop 0 (n / 2) (fun i s => muldbladd3 s (f i) (g i)) s0) :
    v3 r = v3 s0 + ∑ i in Finset.range n, f i * g i ∧
      ∑ i in Finset.range n, f i * g i ≤ n * 2 ^ 128 ∧
      r.1 < 2 ^ 64 ∧ r.2.1 < 2 ^ 64 ∧ r.2.2 < 2 ^ 64 := by
  have hhalf : 2 * (n / 2) * 2 ^ 128 ≤ n * 2 ^ 128 := Nat.mul_le_mul_right _ (by omega)
  obtain ⟨d1, d2, d3, d4, d5⟩ := dblLoop_spec f g (n / 2) s0 hf hg h1 h2 h3 (by omega)
  have hs := sym_sum n (fun i => f i * g i) hsym
  beta_reduce at hs
  generalize forLoop 0 (n / 2) (fun i s => muldbladd3 s (f i) (g i)) s0 = t at *
  by_cases hodd : n % 2 = 1
  · rw [if_pos hodd] at hr hs
    have hp := mul_lt_word (f (n / 2)) (g (n / 2)) (hf _) (hg _)
    have hn : 2 * (n / 2) * 2 ^ 128 + 2 ^ 128 = n * 2 ^ 128 := by
      have : n = 2 * (n / 2) + 1 := by omega
      calc 2 * (n / 2) * 2 ^ 128 + 2 ^ 128 = (2 * (n / 2) + 1) * 2 ^ 128 := by ring
        _ = n * 2 ^ 128 := by rw [← this]
    obtain ⟨q1, q2, q3, q4⟩ := acc_spec (f (n / 2)) (g (n / 2)) t d3 d4 d5 (by omega)
    rw [hr, muladd3_eq]
    refine ⟨by omega, by omega, q2, q3, q4⟩
  · rw [if_neg hodd] at hr hs
    rw [hr]
    refine ⟨by omega, by omega, d3, d4, d5⟩

theorem and_one_odd (x : Nat) : (x &&& 1 = 1) ↔ x % 2 = 1 := by
  rw [Nat.and_one_is_mod]

theorem sq_highColumn_spec (a : uint3072) (ha : WF a) (j : Nat) (hj : j + 1 < limbs) :
    v3 (Square.highColumn a j) = highCol a a j ∧
      (Square.highColumn a j).1 < 2 ^ 64 ∧ (Square.highColumn a j).2.1 < 2 ^ 64 ∧
      (Square.highColumn a j).2.2 < 2 ^ 64 := by
  have hl : limbs = 48 := rfl
  have hn : (limbs - 1 - j) * 2 ^ 128 ≤ 47 * 2 ^ 128 := Nat.mul_le_mul_right _ (by omega)
  have h := symLoop_spec (fun i => idx a (i + j + 1)) (fun i => idx a (limbs - 1 - i))
    (limbs - 1 - j) (0, 0, 0) (fun i => idx_lt_word a ha _) (fun i => idx_lt_word a ha _)
    (by
      intro i hi
      show idx a (limbs - 1 - j - 1 - i + j + 1) * idx a (limbs - 1 - (limbs - 1 - j - 1 - i))
        = idx a (i + j + 1) * idx a (limbs - 1 - i)
      have e1 : limbs - 1 - j - 1 - i + j + 1 = limbs - 1 - i := by omega
      have e2 : limbs - 1 - (limbs - 1 - j - 1 - i) = i + j + 1 := by omega
      rw [e1, e2, Nat.mul_comm])
    (by simp) (by simp) (by simp) (by simp only [v3]; omega)
    (Square.highColumn a j)
    (by
      unfold Square.highColumn
      by_cases hodd : (limbs - 1 - j) % 2 = 1
      · rw [if_pos hodd, if_pos ((and_one_odd _).mpr (by omega))]
      · rw [if_neg hodd, if_neg (fun hc => hodd (by have := (and_one_odd _).mp hc; omega))])
  obtain ⟨e, _, r1, r2, r3⟩ := h
  refine ⟨?_, r1, r2, r3⟩
  rw [e]
  unfold highCol
  rw [Finset.sum_Ico_eq_sum_range]
  have e0 : v3 (0, 0, 0) = 0 := by simp [v3]
  rw [e0, Nat.zero_add]
  have hlen : limbs - (j + 1) = limbs - 1 - j := by omega
  rw [hlen]
  apply Finset.sum_congr rfl
  intro i hi
  have hi2 := Finset.mem_range.mp hi
  have e1 : j + 1 + i = i + j + 1 := by omega
  have e2 : limbs + j - (j + 1 + i) = limbs - 1 - i := by omega
  rw [e2, e1]

theorem sq_highColumn_eq (a : uint3072) (ha : WF a) (j : Nat) (hj : j + 1 < limbs) :
    Square.highColumn a j = Mul.highColumn a a j := by
  obtain ⟨e, r1, r2, _⟩ := sq_highColumn_spec a ha j hj
  obtain ⟨e', _, q1, q2, _⟩ := highColumn_spec a a ha ha j hj
  exact v3_inj _ _ r1 r2 q1 q2 (by rw [e, e'])

theorem sq_lowColumn_spec (a : uint3072) (ha : WF a) (j : Nat) (s : Nat × Nat × Nat)
    (h1 : s.1 < 2 ^ 64) (h2 : s.2.1 < 2 ^ 64) (h3 : s.2.2 < 2 ^ 64)
    (hbnd : v3 s + (j + 1) * 2 ^ 128 < 2 ^ 192) :
    v3 (Square.lowColumn a j s) = v3 s + lowCol a a j ∧
      (Square.lowColumn a j s).1 < 2 ^ 64 ∧ (Square.lowColumn a j s).2.1 < 2 ^ 64 ∧
      (Square.lowColumn a j s).2.2 < 2 ^ 64 := by
  have h := symLoop_spec (fun i => idx a i) (fun i => idx a (j - i)) (j + 1) s
    (fun i => idx_lt_word a ha _) (fun i => idx_lt_word a ha _)
    (by
      intro i hi
      show idx a (j + 1 - 1 - i) * idx a (j - (j + 1 - 1 - i)) = idx a i * idx a (j - i)
      have e1 : j + 1 - 1 - i = j - i := by omega
      have e2 : j - (j - i) = i := by omega
      rw [e1, e2, Nat.mul_comm])
    h1 h2 h3 hbnd (Square.lowColumn a j s)
    (by
      unfold Square.lowColumn
      by_cases hodd : (j + 1) % 2 = 1
      · rw [if_pos hodd, if_pos ((and_one_odd _).mpr hodd)]
      · rw [if_neg hodd, if_neg (fun hc => hodd ((and_one_odd _).mp hc))])
  obtain ⟨e, _, r1, r2, r3⟩ := h
  exact ⟨e, r1, r2, r3⟩

theorem sq_lowColumn_eq (a : uint3072) (ha : WF a) (j : Nat) (s : Nat × Nat × Nat)
    (h1 : s.1 < 2 ^ 64) (h2 : s.2.1 < 2 ^ 64) (h3 : s.2.2 < 2 ^ 64)
    (hbnd : v3 s + (j + 1) * 2 ^ 128 < 2 ^ 192) :
    Square.lowColumn a j s = Mul.lowColumn a a j s := by
  obtain ⟨e, r1, r2, _⟩ := sq_lowColumn_spec a ha j s h1 h2 h3 hbnd
  obtain ⟨e', _, q1, q2, _⟩ := lowColumn_spec a a ha ha j s h1 h2 h3 hbnd
  exact v3_inj _ _ r1 r2 q1 q2 (by rw [e, e'])

end muhash

namespace muhash

open uint3072

/-! ## `Square` computes what `Mul` computes -/

/-- Two loops whose bodies agree on the states that satisfy an invariant are equal. -/
theorem forLoop_congr_inv {σ : Type} (P : Nat → σ → Prop) (lo hi : Nat)
    (body1 body2 : Nat → σ → σ) (s : σ) (h : lo ≤ hi) (h0 : P lo s)
    (hstep : ∀ i t, lo ≤ i → i < hi → P i t → P (i + 1) (body2 i t))
    (heq : ∀ i t, lo ≤ i → i < hi → P i t → body1 i t = body2 i t) :
    forLoop lo hi body1 s = forLoop lo hi body2 s := by
  have key := forLoop_inv (fun i t => t = forLoop lo i body2 s ∧ P i t) lo hi body1 s h
    ⟨(forLoop_empty lo lo body2 s (le_refl _)).symm, h0⟩
    (by
      intro i t hi1 hi2 ⟨e, hp⟩
      refine ⟨?_, ?_⟩
      · rw [heq i t hi1 hi2 hp, forLoop_succ lo i body2 s hi1, ← e]
      · rw [heq i t hi1 hi2 hp]; exact hstep i t hi1 hi2 hp)
  exact key.1

theorem sq_outer_eq (a : uint3072) (ha : WF a) (j : Nat) (hj : j + 1 < limbs)
    (s : (Nat × Nat × Nat) × uint3072) (h : outerInv a a j s) :
    Square.outer a j s = Mul.outer a a j s := by
  have hl : limbs = 48 := rfl
  obtain ⟨k0, k1, k2, k3, k4, k5⟩ := h
  obtain ⟨hc1, hc2, hc3, hc4, hc5⟩ := highColumn_spec a a ha ha j hj
  have hv : v3 (Mul.highColumn a a j) ≤ 47 * 2 ^ 128 := by rw [hc1]; exact hc2
  obtain ⟨f1, f2, f3, f4⟩ := fold_spec (Mul.highColumn a a j) s.1 hc3 hc4 hv k1 k2
  rw [hc1] at f1
  have hjb : (j + 1) * 2 ^ 128 ≤ 47 * 2 ^ 128 := Nat.mul_le_mul_right _ (by omega)
  have hd : primeDiff * highCol a a j ≤ 1103717 * (47 * 2 ^ 128) := by
    unfold primeDiff; exact Nat.mul_le_mul_left _ hc2
  have hlow := sq_lowColumn_eq a ha j (Mul.fold (Mul.highColumn a a j) s.1) f2 f3 f4
    (by omega)
  unfold Square.outer Mul.outer
  simp only [sq_highColumn_eq a ha j hj, mulnadd3_eq, hlow, extract3_eq]

theorem sq_firstPass_eq (a : uint3072) (ha : WF a) :
    Square.firstPass a = Mul.firstPass a a := by
  have hl : limbs = 48 := rfl
  unfold Square.firstPass Mul.firstPass
  apply forLoop_congr_inv (outerInv a a) 0 (limbs - 1) (Square.outer a) (Mul.outer a a)
  · omega
  · refine ⟨rfl, by simp, by simp, by simp, fun _ => by simp, ?_⟩
    simp [limbsVal]
  · intro i t _ hi hinv
    exact outer_step a a ha ha i (by omega) t hinv
  · intro i t _ hi hinv
    exact sq_outer_eq a ha i (by omega) t hinv

theorem sq_lastColumn_eq (a : uint3072) (ha : WF a) :
    Square.lastColumn a (Mul.firstPass a a) = Mul.lastColumn a a (Mul.firstPass a a) := by
  have hl : limbs = 48 := rfl
  obtain ⟨k0, k1, k2, k3, k4, k5⟩ := firstPass_spec a a ha ha
  have hv : v3 (Mul.firstPass a a).1
      = (Mul.firstPass a a).1.1 + 2 ^ 64 * (Mul.firstPass a a).1.2.1 := by
    simp only [v3, k0]; omega
  have hlow := sq_lowColumn_eq a ha (limbs - 1) (Mul.firstPass a a).1 k1 k2
    (by rw [k0]; simp) (by rw [hv]; simp only [hl]; omega)
  have e : Square.lastColumn a (Mul.firstPass a a)
      = ((extract3 (Square.lowColumn a (limbs - 1) (Mul.firstPass a a).1)).1,
        setLimb (Mul.firstPass a a).2 (limbs - 1)
          (extract3 (Square.lowColumn a (limbs - 1) (Mul.firstPass a a).1)).2) := rfl
  rw [e, hlow]
  rfl

theorem sq_secondReduction_eq (lhs : uint3072) (s : (Nat × Nat × Nat) × uint3072) :
    Square.secondReduction lhs s = Mul.secondReduction lhs s := rfl

/-- After the second reduction the high carry word is zero. -/
theorem secondReduction_high (lhs : uint3072) (s : (Nat × Nat × Nat) × uint3072)
    (h1 : s.1.1 < 2 ^ 64) (h2 : s.1.2.1 < 2 ^ 64)
    (hb : s.1.1 + 2 ^ 64 * s.1.2.1 < 2 ^ 71) (ht : WF s.2) :
    (Mul.secondReduction lhs s).2.1 = 0 := by
  obtain ⟨⟨c1, c2, c3⟩, tmp⟩ := s
  simp only at h1 h2 hb ht
  have hc2 : c2 < 2 ^ 7 := by omega
  have q1 : (bitsMul c1 primeDiff).2 < 2 ^ 64 := by
    simp only [bitsMul]; omega
  have q2 : ((bitsMul c1 primeDiff).1 + (bitsMul c2 primeDiff).2) % 2 ^ 64 < 2 ^ 64 :=
    Nat.mod_lt _ (by decide)
  have q3 : (bitsMul c1 primeDiff).2
      + 2 ^ 64 * (((bitsMul c1 primeDiff).1 + (bitsMul c2 primeDiff).2) % 2 ^ 64)
      = primeDiff * (c1 + 2 ^ 64 * c2) := by
    simp only [bitsMul, primeDiff]; omega
  have q4 : (bitsMul c1 primeDiff).2
      + 2 ^ 64 * (((bitsMul c1 primeDiff).1 + (bitsMul c2 primeDiff).2) % 2 ^ 64)
      < 2 ^ 92 := by
    rw [q3]; unfold primeDiff; omega
  have hinv := reduce2_loop tmp lhs _ _ ht q1 q2 q4
  have hr : Mul.secondReduction lhs ((c1, c2, c3), tmp)
      = forLoop 0 limbs (Mul.reduce2 tmp) ((bitsMul c1 primeDiff).2,
        ((bitsMul c1 primeDiff).1 + (bitsMul c2 primeDiff).2) % 2 ^ 64, lhs) := rfl
  rw [← hr, q3] at hinv
  have hwf := extractInv_WF _ _ _ _ hinv
  obtain ⟨k1, k2, k3, k4, k5, k6⟩ := hinv
  have hp : (2 : Nat) ^ (64 * limbs) = 2 ^ 3072 := rfl
  rw [hp] at k6
  have hv := val_lt _ ht
  have hvr := val_lt _ hwf
  have k6' : val (Mul.secondReduction lhs ((c1, c2, c3), tmp)).2.2
      + 2 ^ 3072 * ((Mul.secondReduction lhs ((c1, c2, c3), tmp)).1
        + 2 ^ 64 * (Mul.secondReduction lhs ((c1, c2, c3), tmp)).2.1)
      = val tmp + primeDiff * (c1 + 2 ^ 64 * c2) := k6
  have hd : primeDiff * (c1 + 2 ^ 64 * c2) < 2 ^ 92 := by unfold primeDiff; omega
  generalize (Mul.secondReduction lhs ((c1, c2, c3), tmp)).1 = x at *
  generalize (Mul.secondReduction lhs ((c1, c2, c3), tmp)).2.1 = y at *
  generalize val (Mul.secondReduction lhs ((c1, c2, c3), tmp)).2.2 = v at *
  generalize val tmp = t at *
  generalize primeDiff * (c1 + 2 ^ 64 * c2) = e at *
  omega

/-- `Square` leaves the limbs that `Mul` by a copy leaves. -/
theorem Square_eq_Mul (a : uint3072) (ha : WF a) : Square a = uint3072.Mul a a := by
  obtain ⟨h1, h2, h3, _, _⟩ := mulLimbs_spec a a ha ha
  obtain ⟨_, l1, l2, l3, l4, _⟩ := lastColumn_spec a a ha ha
  have hh := secondReduction_high a _ l1 l2 l3 l4
  have hm : uint3072.Mul a a
      = some (Mul.finish (Mul.secondReduction a (Mul.lastColumn a a (Mul.firstPass a a))).1
        (Mul.secondReduction a (Mul.lastColumn a a (Mul.firstPass a a))).2.2) := by
    unfold uint3072.Mul
    simp only [ne_eq, h1, not_true_eq_false, if_false, h2, h3, not_true]
  have hsq : Square a
      = if (Square.firstPass a).1.2.2 ≠ 0 then none else
        if (Square.secondReduction a (Square.lastColumn a (Square.firstPass a))).2.1 ≠ 0
        then none else
        if ¬ ((Square.secondReduction a (Square.lastColumn a (Square.firstPass a))).1 = 0 ∨
          (Square.secondReduction a (Square.lastColumn a (Square.firstPass a))).1 = 1)
        then none else
        some (Mul.finish (Square.secondReduction a (Square.lastColumn a (Square.firstPass a))).1
          (Square.secondReduction a (Square.lastColumn a (Square.firstPass a))).2.2) := rfl
  rw [hsq, hm, sq_firstPass_eq a ha, sq_lastColumn_eq a ha, sq_secondReduction_eq,
    if_neg (not_not.mpr h1), if_neg (not_not.mpr hh), if_neg (not_not.mpr h3)]

/-- `Square` never panics on 64-bit limbs and leaves the canonical square. -/
theorem Square_spec (a : uint3072) (ha : WF a) :
    ∃ r, Square a = some r ∧ WF r ∧ val r = (val a * val a) % prime := by
  rw [Square_eq_Mul a ha]
  exact Mul_spec a a ha ha

end muhash

namespace muhash

open uint3072

/-! ## `uint3072.Divide` -/

theorem prime_pos : 0 < prime := Nat.lt_trans Nat.zero_lt_one prime_gt_one

theorem uone_WF : WF uint3072.one := one_WF

theorem val_uone : val uint3072.one = 1 := val_one

/-- The conditional `FullReduce` at the head of `Divide` leaves the canonical
representative. -/
theorem ureduce_spec (a : uint3072) (ha : WF a) :
    WF (if IsOverflow a then FullReduce a else a) ∧
      val (if IsOverflow a then FullReduce a else a) = val a % prime :=
  reduce_spec a ha

theorem ureduce_canonical (a : uint3072) (ha : WF a) (h : val a < prime) :
    (if IsOverflow a then FullReduce a else a) = a := by
  have hov := IsOverflow_iff a ha
  rw [if_neg (fun ho => by have := hov.mp ho; omega)]

theorem uDivide_spec (a b : uint3072) (ha : WF a) (hb : WF b) :
    ∃ r, uint3072.Divide a b = some (r, if IsOverflow b then FullReduce b else b) ∧
      WF r ∧ val r = (val a * invMod (val b)) % prime := by
  obtain ⟨a1, a2⟩ := ureduce_spec a ha
  obtain ⟨b1, b2⟩ := ureduce_spec b hb
  have hinv : (bigModInverse (val (if IsOverflow b then FullReduce b else b)) prime).getD
      (val (if IsOverflow b then FullReduce b else b)) = invMod (val b) := by
    rw [b2]
    unfold invMod
    cases bigModInverse (val b % prime) prime <;> rfl
  have hiw : WF (ofNat (invMod (val b))) := WF_ofNat _
  have hiv : val (ofNat (invMod (val b))) = invMod (val b) :=
    val_ofNat_lt _ (Nat.lt_trans (invMod_lt _) prime_lt)
  obtain ⟨r, hr, hw, hv⟩ := Mul_spec _ _ a1 hiw
  rw [a2, hiv, Nat.mod_mul_mod] at hv
  refine ⟨r, ?_, hw, hv⟩
  have hlt : val r < prime := by rw [hv]; exact Nat.mod_lt _ prime_pos
  unfold uint3072.Divide
  simp only
  rw [hinv, hr, Option.map_some', ureduce_canonical r hw hlt]

/-! ## Repeated squaring -/

theorem squareLoop_spec (n : Nat) (x : uint3072) (hx : WF x) :
    ∃ y, forLoop 0 n (fun _ s => s.bind Square) (some x) = some y ∧ WF y ∧
      val y ≡ val x ^ 2 ^ n [MOD prime] := by
  induction n with
  | zero =>
    refine ⟨x, forLoop_empty _ _ _ _ (le_refl _), hx, ?_⟩
    simp [Nat.ModEq]
  | succ n ih =>
    obtain ⟨y, hy, hw, hv⟩ := ih
    obtain ⟨r, hr, hrw, hrv⟩ := Square_spec y hw
    refine ⟨r, ?_, hrw, ?_⟩
    · rw [forLoop_succ _ _ _ _ (Nat.zero_le _), hy]
      exact hr
    · have e : val x ^ 2 ^ (n + 1) = val x ^ 2 ^ n * val x ^ 2 ^ n := by
        rw [pow_succ, pow_mul, pow_two]
      rw [e]
      have h1 : val r ≡ val y * val y [MOD prime] := by
        rw [hrv]; exact Nat.mod_modEq _ _
      exact h1.trans (Nat.ModEq.mul hv hv)

theorem squareNmul_spec (x m : uint3072) (n : Nat) (hx : WF x) (hm : WF m) :
    ∃ r, squareNmul x n m = some r ∧ WF r ∧ val r < prime ∧
      val r ≡ val x ^ 2 ^ n * val m [MOD prime] := by
  obtain ⟨y, hy, hw, hv⟩ := squareLoop_spec n x hx
  obtain ⟨r, hr, hrw, hrv⟩ := Mul_spec y m hw hm
  refine ⟨r, ?_, hrw, ?_, ?_⟩
  · unfold squareNmul
    rw [hy]
    exact hr
  · rw [hrv]; exact Nat.mod_lt _ prime_pos
  · have h1 : val r ≡ val y * val m [MOD prime] := by
      rw [hrv]; exact Nat.mod_modEq _ _
    exact h1.trans (Nat.ModEq.mul_right _ hv)

/-- The exponent bookkeeping of `squareNmul`. -/
theorem squareNmul_pow (x m : uint3072) (n v e f : Nat) (hx : WF x) (hm : WF m)
    (hxe : val x ≡ v ^ e [MOD prime]) (hmf : val m ≡ v ^ f [MOD prime]) :
    ∃ r, squareNmul x n m = some r ∧ WF r ∧ val r < prime ∧
      val r ≡ v ^ (e * 2 ^ n + f) [MOD prime] := by
  obtain ⟨r, hr, hw, hlt, hv⟩ := squareNmul_spec x m n hx hm
  refine ⟨r, hr, hw, hlt, ?_⟩
  have e1 : v ^ (e * 2 ^ n + f) = (v ^ e) ^ 2 ^ n * v ^ f := by
    rw [pow_add, pow_mul]
  rw [e1]
  exact hv.trans (Nat.ModEq.mul (Nat.ModEq.pow _ hxe) hmf)

theorem repunit_succ (k : Nat) : repunit (k + 1) = repunit k * 2 ^ 2 ^ k + repunit k := by
  unfold repunit
  have h : 2 ^ 2 ^ (k + 1) = 2 ^ 2 ^ k * 2 ^ 2 ^ k := by
    rw [pow_succ, pow_mul, pow_two]
  have hpos : 1 ≤ 2 ^ 2 ^ k := Nat.one_le_two_pow
  rw [h]
  generalize 2 ^ 2 ^ k = q at *
  rw [Nat.sub_mul]
  have : q ≤ q * q := Nat.le_mul_of_pos_left q (by omega)
  omega

end muhash

namespace muhash

open uint3072

/-! ## `uint3072.GetInverse` -/

theorem getPower_setPower_eq (p : Fin 12 → uint3072) (i : Nat) (x : uint3072) (h : i < 12) :
    getPower (setPower p i x) i = x := by
  unfold getPower setPower
  rw [dif_pos h]
  simp

theorem getPower_setPower_ne (p : Fin 12 → uint3072) (i k : Nat) (x : uint3072)
    (h : k ≠ i) : getPower (setPower p i x) k = getPower p k := by
  unfold getPower setPower
  by_cases hk : k < 12
  · rw [dif_pos hk, dif_pos hk]
    simp [h]
  · rw [dif_neg hk, dif_neg hk]

theorem repunit_zero : repunit 0 = 1 := by
  unfold repunit; norm_num

/-- One iteration of the precomputation loop: `powers[i+1]` gets the exponent
`2^(2^(i+1)) - 1`. -/
theorem step_spec (v i : Nat) (hi : i < 11) (s : Option (Fin 12 → uint3072))
    (h : ∃ powers, s = some powers ∧ ∀ k, k ≤ i →
      WF (getPower powers k) ∧ val (getPower powers k) ≡ v ^ repunit k [MOD prime]) :
    ∃ powers, GetInverse.step i s = some powers ∧ ∀ k, k ≤ i + 1 →
      WF (getPower powers k) ∧ val (getPower powers k) ≡ v ^ repunit k [MOD prime] := by
  obtain ⟨powers, rfl, hP⟩ := h
  obtain ⟨hw, hv⟩ := hP i (le_refl _)
  obtain ⟨r, hr, hrw, _, hrv⟩ := squareNmul_pow (getPower powers i) (getPower powers i)
    (1 <<< i) v (repunit i) (repunit i) hw hw hv hv
  rw [Nat.one_shiftLeft, ← repunit_succ] at hrv
  have hstep : GetInverse.step i (some powers)
      = (squareNmul (getPower powers i) (1 <<< i) (getPower powers i)).map
        (fun x => setPower powers (i + 1) x) := rfl
  refine ⟨setPower powers (i + 1) r, ?_, ?_⟩
  · rw [hstep, hr]; rfl
  · intro k hk
    rcases Nat.eq_or_lt_of_le hk with e | hlt
    · rw [e, getPower_setPower_eq _ _ _ (by omega)]
      exact ⟨hrw, hrv⟩
    · rw [getPower_setPower_ne _ _ _ _ (by omega)]
      exact hP k (by omega)

theorem powers_spec (a : uint3072) (ha : WF a) :
    ∃ powers, forLoop 0 11 GetInverse.step (some (setPower (fun _ _ => 0) 0 a)) = some powers ∧
      ∀ k, k ≤ 11 →
        WF (getPower powers k) ∧ val (getPower powers k) ≡ val a ^ repunit k [MOD prime] := by
  apply forLoop_inv (fun i s => ∃ powers, s = some powers ∧ ∀ k, k ≤ i →
      WF (getPower powers k) ∧ val (getPower powers k) ≡ val a ^ repunit k [MOD prime])
    0 11 GetInverse.step
  · omega
  · refine ⟨_, rfl, ?_⟩
    intro k hk
    have : k = 0 := by omega
    subst this
    rw [getPower_setPower_eq _ _ _ (by omega), repunit_zero, pow_one]
    exact ⟨ha, Nat.ModEq.refl _⟩
  · intro i t _ hi h
    exact step_spec (val a) i hi t h

/-- One line `res.squareNmul(n, &powers[k])` of `GetInverse`. -/
theorem line_spec (powers : Fin 12 → uint3072) (v e n k : Nat) (res : Option uint3072)
    (hP : ∀ k, k ≤ 11 →
      WF (getPower powers k) ∧ val (getPower powers k) ≡ v ^ repunit k [MOD prime])
    (hk : k ≤ 11)
    (h : ∃ r, res = some r ∧ WF r ∧ val r ≡ v ^ e [MOD prime]) :
    ∃ r, GetInverse.line powers res n k = some r ∧ WF r ∧
      val r ≡ v ^ expStep e n k [MOD prime] := by
  obtain ⟨x, rfl, hw, hv⟩ := h
  obtain ⟨r, hr, hrw, _, hrv⟩ := squareNmul_pow x (getPower powers k) n v e (repunit k) hw
    (hP k hk).1 hv (hP k hk).2
  exact ⟨r, hr, hrw, hrv⟩

theorem line_lt (powers : Fin 12 → uint3072) (n k : Nat) (res : Option uint3072)
    (r : uint3072) (hP : ∀ k, k ≤ 11 → WF (getPower powers k)) (hk : k ≤ 11)
    (hres : ∃ x, res = some x ∧ WF x)
    (h : GetInverse.line powers res n k = some r) : val r < prime := by
  obtain ⟨x, rfl, hw⟩ := hres
  obtain ⟨r', hr, _, hlt, _⟩ := squareNmul_spec x (getPower powers k) n hw (hP k hk)
  have e : GetInverse.line powers (some x) n k = squareNmul x n (getPower powers k) := rfl
  rw [e, hr] at h
  rw [← Option.some.inj h]
  exact hlt

theorem inverseExponent_eq : inverseExponent = prime - 2 := by
  unfold inverseExponent expStep repunit prime primeDiff
  norm_num

end muhash

namespace muhash

open uint3072

/-- `uint3072.GetInverse` never panics on 64-bit limbs and returns the canonical
`val a ^ (p - 2) mod p`. -/
theorem uGetInverse_spec (a : uint3072) (ha : WF a) :
    ∃ r, uint3072.GetInverse a = some r ∧ WF r ∧ val r = val a ^ (prime - 2) % prime := by
  obtain ⟨powers, hloop, hP⟩ := powers_spec a ha
  have h0 : ∃ r, some (getPower powers 11) = some r ∧ WF r ∧
      val r ≡ val a ^ repunit 11 [MOD prime] :=
    ⟨_, rfl, (hP 11 (le_refl _)).1, (hP 11 (le_refl _)).2⟩
  have h1 := line_spec powers (val a) _ 512 9 _ hP (by omega) h0
  have h2 := line_spec powers (val a) _ 256 8 _ hP (by omega) h1
  have h3 := line_spec powers (val a) _ 128 7 _ hP (by omega) h2
  have h4 := line_spec powers (val a) _ 64 6 _ hP (by omega) h3
  have h5 := line_spec powers (val a) _ 32 5 _ hP (by omega) h4
  have h6 := line_spec powers (val a) _ 8 3 _ hP (by omega) h5
  have h7 := line_spec powers (val a) _ 2 1 _ hP (by omega) h6
  have h8 := line_spec powers (val a) _ 1 0 _ hP (by omega) h7
  have h9 := line_spec powers (val a) _ 5 2 _ hP (by omega) h8
  have h10 := line_spec powers (val a) _ 3 0 _ hP (by omega) h9
  have h11 := line_spec powers (val a) _ 2 0 _ hP (by omega) h10
  have h12 := line_spec powers (val a) _ 4 0 _ hP (by omega) h11
  have h13 := line_spec powers (val a) _ 4 1 _ hP (by omega) h12
  have h14 := line_spec powers (val a) _ 3 0 _ hP (by omega) h13
  obtain ⟨r, hr, hw, hv⟩ := h14
  have hlt := line_lt powers 3 0 _ r (fun k hk => (hP k hk).1) (by omega)
    (by obtain ⟨x, hx, hxw, _⟩ := h13; exact ⟨x, hx, hxw⟩) hr
  refine ⟨r, ?_, hw, ?_⟩
  · unfold uint3072.GetInverse
    rw [hloop, Option.some_bind]
    simp only
    exact hr
  · have hv' : val r ≡ val a ^ inverseExponent [MOD prime] := hv
    rw [inverseExponent_eq] at hv'
    have := hv'
    unfold Nat.ModEq at this
    rw [Nat.mod_eq_of_lt hlt] at this
    exact this

end muhash

namespace muhash

open uint3072

/-! ## `IsOverflow` limb by limb -/

theorem IsOverflow_limbs (a : uint3072) :
    IsOverflow a = true ↔
      (2 ^ 64 - primeDiff ≤ idx a 0 ∧ ∀ i, 1 ≤ i → i < limbs → idx a i = 2 ^ 64 - 1) := by
  have hl : limbs = 48 := rfl
  unfold IsOverflow
  by_cases hc : idx a 0 ≤ maxUint - primeDiff
  · simp only [hc, if_true]
    constructor
    · intro h; exact absurd h (by simp)
    · intro h
      unfold maxUint primeDiff at hc
      unfold primeDiff at h
      omega
  · simp only [hc, if_false]
    rw [List.all_eq_true]
    constructor
    · intro h
      refine ⟨?_, ?_⟩
      · unfold maxUint primeDiff at hc
        unfold primeDiff
        omega
      · intro i hi1 hi2
        have := h i (by rw [List.mem_range']; exact ⟨i - 1, by omega, by omega⟩)
        simpa [maxUint] using this
    · intro h i hi
      rw [List.mem_range'] at hi
      obtain ⟨k, hk, rfl⟩ := hi
      rw [h.2 (1 + 1 * k) (by omega) (by omega)]
      unfold maxUint
      exact beq_self_eq_true _

/-! ## Number theory -/

theorem fermat_nat (n v : Nat) (hn : Nat.Prime n) (h : v % n ≠ 0) : v ^ (n - 1) % n = 1 := by
  have hc : Nat.Coprime v n := by
    apply Nat.Coprime.symm
    rw [Nat.Prime.coprime_iff_not_dvd hn]
    intro hd
    exact h (Nat.mod_eq_zero_of_dvd hd)
  have := Nat.ModEq.pow_totient hc
  rw [Nat.totient_prime hn] at this
  unfold Nat.ModEq at this
  rw [this, Nat.mod_eq_of_lt hn.one_lt]

theorem pred_sq_mod (n : Nat) (hn : 2 ≤ n) : ((n - 1) * (n - 1)) % n = 1 := by
  obtain ⟨m, rfl⟩ : ∃ m, n = m + 2 := ⟨n - 2, by omega⟩
  have e : (m + 2 - 1) * (m + 2 - 1) = 1 + (m + 2) * m := by
    have : m + 2 - 1 = m + 1 := by omega
    rw [this]; ring
  rw [e, Nat.add_mul_mod_self_left, Nat.mod_eq_of_lt (by omega)]

/-- The exponent of a double Fermat inversion: `(n - 2)^2 = (n - 1) (n - 3) + 1`. -/
theorem double_exp (n : Nat) (hn : 3 ≤ n) : (n - 2) * (n - 2) = (n - 1) * (n - 3) + 1 := by
  obtain ⟨m, rfl⟩ : ∃ m, n = m + 3 := ⟨n - 3, by omega⟩
  have e1 : m + 3 - 2 = m + 1 := by omega
  have e2 : m + 3 - 1 = m + 2 := by omega
  have e3 : m + 3 - 3 = m := by omega
  rw [e1, e2, e3]; ring

theorem double_pow (n v : Nat) (hn : 3 ≤ n) (h : v ^ (n - 1) % n = 1) :
    (v ^ (n - 2) % n) ^ (n - 2) % n = v % n := by
  rw [← Nat.pow_mod, ← pow_mul, double_exp n hn, pow_succ, pow_mul, Nat.mul_mod, Nat.pow_mod, h,
    Nat.one_pow, Nat.mod_eq_of_lt (show 1 < n by omega), Nat.one_mul, Nat.mod_mod]

theorem coprime_of_pow (n v : Nat) (hn : 3 ≤ n) (h : v ^ (n - 1) % n = 1) :
    Nat.Coprime v n := by
  apply Nat.coprime_of_mul_modEq_one (v ^ (n - 2))
  have e : v * v ^ (n - 2) = v ^ (n - 1) := by
    have : n - 1 = (n - 2) + 1 := by omega
    rw [this, pow_succ, Nat.mul_comm]
  rw [e]
  unfold Nat.ModEq
  rw [h, Nat.mod_eq_of_lt (show 1 < n by omega)]

theorem prime_ge_three : 3 ≤ prime := by
  unfold prime primeDiff; norm_num

theorem invMod_coprime_self (v : Nat) (h : Nat.Coprime v prime) :
    Nat.Coprime (invMod v) prime := by
  apply Nat.coprime_of_mul_modEq_one v
  unfold Nat.ModEq
  rw [Nat.mul_comm, invMod_coprime v h, Nat.mod_eq_of_lt prime_gt_one]

/-- The inverse of the inverse is the canonical representative. -/
theorem invMod_invMod (v : Nat) (h : Nat.Coprime v prime) : invMod (invMod v) = v % prime := by
  have h1 : v * invMod v ≡ 1 [MOD prime] := by
    unfold Nat.ModEq
    rw [invMod_coprime v h, Nat.mod_eq_of_lt prime_gt_one]
  have h2 : invMod v * invMod (invMod v) ≡ 1 [MOD prime] := by
    unfold Nat.ModEq
    rw [invMod_coprime _ (invMod_coprime_self v h), Nat.mod_eq_of_lt prime_gt_one]
  have key : invMod (invMod v) ≡ v [MOD prime] := by
    calc invMod (invMod v) = invMod (invMod v) * 1 := by ring
      _ ≡ invMod (invMod v) * (v * invMod v) [MOD prime] := (h1.symm).mul_left _
      _ = v * (invMod v * invMod (invMod v)) := by ring
      _ ≡ v * 1 [MOD prime] := h2.mul_left _
      _ = v := by ring
  have := key
  unfold Nat.ModEq at this
  rw [Nat.mod_eq_of_lt (invMod_lt _)] at this
  exact this

/-- A canonical quotient times the divisor gives back the dividend. -/
theorem quotient_mul (x v : Nat) (h : Nat.Coprime v prime) :
    ((x * invMod v) % prime * v) % prime = x % prime := by
  rw [Nat.mod_mul_mod, Nat.mul_assoc, Nat.mul_comm (invMod v), Nat.mul_mod, invMod_coprime v h,
    Nat.mul_one, Nat.mod_mod]

end muhash

namespace muhash

open uint3072

/-! ## Particular values -/

theorem limbsVal_singleWord (x n : Nat) (hn : 1 ≤ n) :
    limbsVal (idx (singleWord x)) n = x := by
  induction n with
  | zero => omega
  | succ n ih =>
    simp only [limbsVal]
    rcases Nat.eq_zero_or_pos n with h | h
    · subst h
      simp [limbsVal, idx, singleWord]
    · rw [ih h]
      have : idx (singleWord x) n = 0 := by
        unfold idx singleWord
        split
        · simp; omega
        · rfl
      rw [this]; simp

theorem val_singleWord (x : Nat) : val (singleWord x) = x :=
  limbsVal_singleWord x limbs (by decide)

theorem singleWord_WF (x : Nat) (h : x < 2 ^ 64) : WF (singleWord x) := by
  intro i
  unfold singleWord
  split
  · exact h
  · exact Nat.pos_pow_of_pos _ (by decide)

theorem singleWord_one : singleWord 1 = uint3072.one := rfl

theorem eq_singleWord (r : uint3072) (x : Nat) (hr : WF r) (hx : x < 2 ^ 64)
    (h : val r = x) : r = singleWord x :=
  val_inj _ _ hr (singleWord_WF x hx) (by rw [h, val_singleWord])

theorem primeMinusOne_WF : WF primeMinusOne := by
  intro i
  unfold primeMinusOne maxUint primeDiff
  split <;> omega

theorem val_primeMinusOne : val primeMinusOne = prime - 1 := by
  have hp : (2 : Nat) ^ (64 * limbs) = 2 ^ 3072 := rfl
  have h := limbsVal_allMax (idx primeMinusOne) limbs (by decide) (by
    intro i hi1 hi2
    rw [idx_lt _ _ hi2]
    unfold primeMinusOne maxUint
    simp only
    rw [if_neg (by omega)])
  have h0 : idx primeMinusOne 0 = 2 ^ 64 - 1 - 1103717 := by
    rw [idx_lt _ _ (by decide)]
    rfl
  rw [hp, h0] at h
  unfold val prime primeDiff
  omega

/-! ## Lists of `Mul` and `Divide` calls -/

theorem mulAll_cons (s e r : uint3072) (es : List uint3072) (h : uint3072.Mul s e = some r) :
    mulAll s (e :: es) = mulAll r es := by
  unfold mulAll
  rw [List.foldl_cons, Option.some_bind, h]

theorem divAll_cons (s e r b : uint3072) (es : List uint3072)
    (h : uint3072.Divide s e = some (r, b)) : divAll s (e :: es) = divAll r es := by
  unfold divAll
  rw [List.foldl_cons, Option.some_bind, h]
  rfl

theorem mulAll_spec (es : List uint3072) (hes : ∀ e ∈ es, WF e) :
    ∀ s : uint3072, WF s → ∃ r, mulAll s es = some r ∧ WF r ∧
      val r ≡ val s * (es.map val).prod [MOD prime] := by
  induction es with
  | nil =>
    intro s hs
    refine ⟨s, rfl, hs, ?_⟩
    simp [Nat.ModEq]
  | cons e es ih =>
    intro s hs
    have he := hes e (List.mem_cons_self _ _)
    obtain ⟨r1, h1, w1, v1⟩ := Mul_spec s e hs he
    obtain ⟨r, h2, w2, v2⟩ := ih (fun e' he' => hes e' (List.mem_cons_of_mem _ he')) r1 w1
    refine ⟨r, ?_, w2, ?_⟩
    · rw [mulAll_cons s e r1 es h1]; exact h2
    · have hv1 : val r1 ≡ val s * val e [MOD prime] := by
        rw [v1]; exact Nat.mod_modEq _ _
      rw [List.map_cons, List.prod_cons, ← Nat.mul_assoc]
      exact v2.trans (Nat.ModEq.mul_right _ hv1)

theorem divAll_spec (es : List uint3072) (hes : ∀ e ∈ es, WF e) :
    ∀ s : uint3072, WF s → ∃ r, divAll s es = some r ∧ WF r ∧
      val r ≡ val s * (es.map (fun e => invMod (val e))).prod [MOD prime] ∧
      ((es ≠ [] ∨ val s < prime) → val r < prime) := by
  induction es with
  | nil =>
    intro s hs
    refine ⟨s, rfl, hs, ?_, ?_⟩
    · simp [Nat.ModEq]
    · intro h
      rcases h with h | h
      · exact absurd rfl h
      · exact h
  | cons e es ih =>
    intro s hs
    have he := hes e (List.mem_cons_self _ _)
    obtain ⟨r1, h1, w1, v1⟩ := uDivide_spec s e hs he
    have hlt1 : val r1 < prime := by rw [v1]; exact Nat.mod_lt _ prime_pos
    obtain ⟨r, h2, w2, v2, l2⟩ :=
      ih (fun e' he' => hes e' (List.mem_cons_of_mem _ he')) r1 w1
    refine ⟨r, ?_, w2, ?_, fun _ => l2 (Or.inr hlt1)⟩
    · rw [divAll_cons s e r1 _ es h1]; exact h2
    · have hv1 : val r1 ≡ val s * invMod (val e) [MOD prime] := by
        rw [v1]; exact Nat.mod_modEq _ _
      rw [List.map_cons, List.prod_cons, ← Nat.mul_assoc]
      exact v2.trans (Nat.ModEq.mul_right _ hv1)

theorem prod_inv (es : List uint3072) (hc : ∀ e ∈ es, Nat.Coprime (val e) prime) :
    (es.map val).prod * (es.map (fun e => invMod (val e))).prod ≡ 1 [MOD prime] := by
  induction es with
  | nil => simp [Nat.ModEq]
  | cons e es ih =>
    have h1 : val e * invMod (val e) ≡ 1 [MOD prime] := by
      unfold Nat.ModEq
      rw [invMod_coprime _ (hc e (List.mem_cons_self _ _)), Nat.mod_eq_of_lt prime_gt_one]
    have h2 := ih (fun e' he' => hc e' (List.mem_cons_of_mem _ he'))
    rw [List.map_cons, List.prod_cons, List.map_cons, List.prod_cons]
    have := Nat.ModEq.mul h1 h2
    rw [Nat.mul_one] at this
    calc val e * (es.map val).prod * (invMod (val e) * (es.map (fun e => invMod (val e))).prod)
        = val e * invMod (val e)
          * ((es.map val).prod * (es.map (fun e => invMod (val e))).prod) := by ring
      _ ≡ 1 [MOD prime] := this

/-- Multiplying by a list and dividing by the same list leaves the canonical
representative of the start value. -/
theorem mulDiv_spec (s : uint3072) (es : List uint3072) (hs : WF s) (hes : ∀ e ∈ es, WF e)
    (hc : ∀ e ∈ es, Nat.Coprime (val e) prime) (hne : es ≠ [] ∨ val s < prime) :
    (mulAll s es).bind (fun x => divAll x es) = some (ofNat (val s % prime)) := by
  obtain ⟨x, hx, wx, vx⟩ := mulAll_spec es hes s hs
  obtain ⟨r, hr, wr, vr, lr⟩ := divAll_spec es hes x wx
  rw [hx, Option.some_bind, hr]
  have hplt := prime_lt
  have hmod : val s % prime < prime := Nat.mod_lt _ prime_pos
  have key : val r ≡ val s [MOD prime] := by
    calc val r ≡ val x * (es.map (fun e => invMod (val e))).prod [MOD prime] := vr
      _ ≡ val s * (es.map val).prod * (es.map (fun e => invMod (val e))).prod [MOD prime] :=
        Nat.ModEq.mul_right _ vx
      _ = val s * ((es.map val).prod * (es.map (fun e => invMod (val e))).prod) := by ring
      _ ≡ val s * 1 [MOD prime] := (prod_inv es hc).mul_left _
      _ = val s := by ring
  have hlt : val r < prime := by
    rcases hne with h | h
    · exact lr (Or.inl h)
    · rcases es with _ | ⟨e, es⟩
      · have e1 : x = s := by
          have : mulAll s [] = some s := rfl
          rw [this] at hx
          exact (Option.some.inj hx).symm
        have e2 : r = x := by
          have : divAll x [] = some x := rfl
          rw [this] at hr
          exact (Option.some.inj hr).symm
        rw [e2, e1]; exact h
      · exact lr (Or.inl (by simp))
  have hv : val r = val s % prime := by
    have := key
    unfold Nat.ModEq at this
    rw [Nat.mod_eq_of_lt hlt] at this
    exact this
  have e : r = ofNat (val s % prime) := by
    apply val_inj _ _ wr (WF_ofNat _)
    rw [hv, val_ofNat_lt _ (by omega)]
  rw [e]

end muhash

namespace muhash

open uint3072

/-! ## `Mul` and `Divide` as functions of the values -/

theorem uMul_eq (a b : uint3072) (ha : WF a) (hb : WF b) :
    uint3072.Mul a b = some (ofNat ((val a * val b) % prime)) := by
  obtain ⟨r, hr, hw, hv⟩ := Mul_spec a b ha hb
  have hlt : (val a * val b) % prime < 2 ^ 3072 :=
    Nat.lt_trans (Nat.mod_lt _ prime_pos) prime_lt
  have e : r = ofNat ((val a * val b) % prime) :=
    val_inj _ _ hw (WF_ofNat _) (by rw [hv, val_ofNat_lt _ hlt])
  rw [hr, e]

theorem uDivide_eq (a b : uint3072) (ha : WF a) (hb : WF b) :
    uint3072.Divide a b = some (ofNat ((val a * invMod (val b)) % prime),
      if IsOverflow b then FullReduce b else b) := by
  obtain ⟨r, hr, hw, hv⟩ := uDivide_spec a b ha hb
  have hlt : (val a * invMod (val b)) % prime < 2 ^ 3072 :=
    Nat.lt_trans (Nat.mod_lt _ prime_pos) prime_lt
  have e : r = ofNat ((val a * invMod (val b)) % prime) :=
    val_inj _ _ hw (WF_ofNat _) (by rw [hv, val_ofNat_lt _ hlt])
  rw [hr, e]

theorem uDivide_one (a : uint3072) (ha : WF a) :
    uint3072.Divide a uint3072.one = some (ofNat (val a % prime), uint3072.one) := by
  rw [uDivide_eq a _ ha uone_WF, val_uone, invMod_one, Nat.mul_one,
    ureduce_canonical _ uone_WF (by rw [val_uone]; exact prime_gt_one)]

theorem ofNat_small (x : Nat) (hx : x < 2 ^ 64) : ofNat x = singleWord x :=
  eq_singleWord _ x (WF_ofNat _) hx
    (val_ofNat_lt _ (Nat.lt_trans hx (Nat.pow_lt_pow_right (by decide) (by decide))))

theorem ofNat_one : ofNat 1 = uint3072.one := ofNat_small 1 (by decide)

/-! ## Fermat's congruence for `p - 1` -/

theorem pred_pow_pred (n : Nat) (hn : 2 ≤ n) (hodd : n % 2 = 1) :
    (n - 1) ^ (n - 1) % n = 1 := by
  have e : n - 1 = 2 * ((n - 1) / 2) := by omega
  have h2 : (n - 1) ^ 2 % n = 1 := by
    rw [pow_two]; exact pred_sq_mod n hn
  rw [e, pow_mul]
  rw [← e, Nat.pow_mod, h2, Nat.one_pow, Nat.mod_eq_of_lt (by omega)]

theorem primeMinusOne_fermat : val primeMinusOne ^ (prime - 1) % prime = 1 := by
  rw [val_primeMinusOne]
  exact pred_pow_pred prime (by have := prime_ge_three; omega) prime_odd

/-- The value `2^3072 - i` with `1 ≤ i ≤ primeDiff` reduces to `primeDiff - i`. -/
theorem overflown_mod (i v : Nat) (h1 : 1 ≤ i) (h2 : i ≤ primeDiff) (hv : v = 2 ^ 3072 - i) :
    v % prime = primeDiff - i := by
  unfold prime primeDiff at *
  omega

theorem coprime_of_mod (v w : Nat) (h : v % prime = w) (hc : Nat.Coprime w prime) :
    Nat.Coprime v prime := by
  unfold Nat.Coprime
  rw [← gcd_mod_prime, h]
  exact hc

end muhash

namespace muhash

/-! ## The zero element -/

theorem bytesOfNat_zero : bytesOfNat 0 = fun _ => 0 := by
  funext k
  unfold bytesOfNat
  rw [Nat.zero_div]
  rfl

theorem zero_WF : WF (fun _ : Fin limbs => 0) := fun _ => Nat.pos_pow_of_pos _ (by decide)

theorem ofNat_zero : ofNat 0 = fun _ => 0 :=
  val_inj _ _ (WF_ofNat _) zero_WF (by rw [val_zero, val_ofNat_lt _ (by norm_num)])

theorem logical_num_zero (mu : MuHash) (h : val mu.numerator % prime = 0) :
    logical mu = 0 := by
  unfold logical
  rw [Nat.mul_mod, h, Nat.zero_mul, Nat.zero_mod]

theorem mul_mod_zero (a b n : Nat) (h : a % n = 0) : (a * b) % n % n = 0 := by
  rw [Nat.mod_mod, Nat.mul_mod, h, Nat.zero_mul, Nat.zero_mod]

theorem call_num_zero (P : Primitives) (mu : MuHash) (c : Call) (h : mu.WF) (hc : c.WF)
    (hz : val mu.numerator % prime = 0) : val (mu.call P c).numerator % prime = 0 := by
  cases c with
  | add data =>
    show val (num3072.Mul mu.numerator (dataToElement P data)) % prime = 0
    rw [num_Mul_val _ _ h.1 (dataToElement_WF P data)]
    exact mul_mod_zero _ _ _ hz
  | remove data => exact hz
  | combine other =>
    show val (num3072.Mul mu.numerator other.numerator) % prime = 0
    rw [num_Mul_val _ _ h.1 hc.1]
    exact mul_mod_zero _ _ _ hz

theorem run_num_zero (P : Primitives) (calls : List Call) (hc : ∀ c ∈ calls, c.WF) :
    ∀ mu : MuHash, mu.WF → val mu.numerator % prime = 0 →
      val (mu.run P calls).numerator % prime = 0 := by
  induction calls with
  | nil => intro mu _ hz; exact hz
  | cons c rest ih =>
    intro mu h hz
    have hc0 := hc c (List.mem_cons_self _ _)
    exact ih (fun c' hc' => hc c' (List.mem_cons_of_mem _ hc')) _ (call_WF P mu c h hc0)
      (call_num_zero P mu c h hc0 hz)

theorem addElement_zero_num (mu : MuHash) (h : mu.WF) :
    val (mu.addElement (fun _ => 0)).numerator % prime = 0 := by
  show val (num3072.Mul mu.numerator (fun _ => 0)) % prime = 0
  rw [num_Mul_val _ _ h.1 zero_WF, val_zero, Nat.mul_zero, Nat.zero_mod, Nat.zero_mod]

/-- An accumulator whose numerator is zero modulo `prime` serializes to zero bytes and
is left with the numerator zero. -/
theorem Serialize_num_zero (mu : MuHash) (h : mu.WF)
    (hz : val mu.numerator % prime = 0) :
    mu.Serialize = ({ numerator := fun _ => 0, denominator := num3072.oneNum3072 },
      fun _ => 0) := by
  rw [Serialize_eq mu h, logical_num_zero mu hz, ofNat_zero, bytesOfNat_zero]

theorem Deserialize_zero :
    DeserializeMuHash (fun _ => 0)
      = Except.ok { numerator := fun _ => 0, denominator := num3072.oneNum3072 } := by
  rw [DeserializeMuHash_eq, bytesVal_zero, if_neg (by have := prime_gt_one; omega), ofNat_zero]

/-! ## What `Serialize` and `Finalize` leave in the receiver -/

theorem logical_NewMuHash : logical NewMuHash = 1 := by
  rw [show NewMuHash = MuHash.mk num3072.oneNum3072 num3072.oneNum3072 from rfl,
    logical_over_one, val_one, Nat.mod_eq_of_lt prime_gt_one]

theorem val_ofNat_logical (mu : MuHash) : val (ofNat (logical mu)) = logical mu :=
  val_ofNat_lt _ (Nat.lt_trans (logical_lt mu) prime_lt)

theorem logical_normalized (mu : MuHash) :
    logical { numerator := ofNat (logical mu), denominator := num3072.oneNum3072 }
      = logical mu := by
  rw [logical_over_one, val_ofNat_logical, Nat.mod_eq_of_lt (logical_lt mu)]

theorem normalized_WF (mu : MuHash) :
    (MuHash.mk (ofNat (logical mu)) num3072.oneNum3072).WF := ⟨WF_ofNat _, one_WF⟩

/-- The receiver is left as it was exactly when it was normalized already. -/
theorem normalized_iff (mu : MuHash) (h : mu.WF) :
    MuHash.mk (ofNat (logical mu)) num3072.oneNum3072 = mu ↔
      (mu.denominator = num3072.oneNum3072 ∧ val mu.numerator < prime) := by
  constructor
  · intro e
    have e1 : ofNat (logical mu) = mu.numerator := congrArg MuHash.numerator e
    have e2 : num3072.oneNum3072 = mu.denominator := congrArg MuHash.denominator e
    refine ⟨e2.symm, ?_⟩
    rw [← e1, val_ofNat_logical]
    exact logical_lt mu
  · rintro ⟨hd, hlt⟩
    obtain ⟨n, d⟩ := mu
    simp only at hd hlt
    subst hd
    have hl : logical (MuHash.mk n num3072.oneNum3072) = val n := by
      rw [logical_over_one, Nat.mod_eq_of_lt hlt]
    rw [hl, ofNat_val n h.1]

end muhash

namespace muhash

/-! ## The inverse of a product -/

theorem unitOrZero_of_prime (hp : Nat.Prime prime) (v : Nat) : unitOrZero v := by
  by_cases h : v % prime = 0
  · exact Or.inr h
  · exact Or.inl (coprime_of_prime hp v h)

theorem unitOrZero_one : unitOrZero 1 := Or.inl (Nat.coprime_one_left _)

theorem unitOrZero_val_one : unitOrZero (val num3072.oneNum3072) := by
  rw [val_one]; exact unitOrZero_one

theorem unitOrZero_mul (a b : Nat) (ha : unitOrZero a) (hb : unitOrZero b) :
    unitOrZero ((a * b) % prime) := by
  rcases ha with ha | ha
  · rcases hb with hb | hb
    · left
      unfold Nat.Coprime
      rw [gcd_mod_prime]
      exact Nat.Coprime.mul ha hb
    · right
      rw [Nat.mul_comm]
      exact mul_mod_zero _ _ _ hb
  · right
    exact mul_mod_zero _ _ _ ha

/-- The value that `ModInverse` gives for a product is the product of the values for the
factors, when each factor is invertible or zero. -/
theorem invMod_mul (a b : Nat) (ha : unitOrZero a) (hb : unitOrZero b) :
    invMod (a * b) = (invMod a * invMod b) % prime := by
  rcases ha with ha | ha
  · rcases hb with hb | hb
    · have hab : Nat.Coprime (a * b) prime := Nat.Coprime.mul ha hb
      have h1 : a * b * invMod (a * b) ≡ 1 [MOD prime] := by
        show _ % prime = 1 % prime
        rw [invMod_coprime _ hab, Nat.mod_eq_of_lt prime_gt_one]
      have h2 : a * invMod a ≡ 1 [MOD prime] := by
        show _ % prime = 1 % prime
        rw [invMod_coprime _ ha, Nat.mod_eq_of_lt prime_gt_one]
      have h3 : b * invMod b ≡ 1 [MOD prime] := by
        show _ % prime = 1 % prime
        rw [invMod_coprime _ hb, Nat.mod_eq_of_lt prime_gt_one]
      have h4 : a * b * (invMod a * invMod b) ≡ 1 [MOD prime] := by
        calc a * b * (invMod a * invMod b)
            = (a * invMod a) * (b * invMod b) := by ring
          _ ≡ 1 * 1 [MOD prime] := Nat.ModEq.mul h2 h3
      have h5 : invMod (a * b) ≡ invMod a * invMod b [MOD prime] :=
        Nat.ModEq.cancel_left_of_coprime (Nat.Coprime.symm hab) (h1.trans h4.symm)
      have h6 := h5
      unfold Nat.ModEq at h6
      rw [Nat.mod_eq_of_lt (invMod_lt _)] at h6
      exact h6
    · rw [invMod_zero b hb, Nat.mul_zero, Nat.zero_mod]
      apply invMod_zero
      rw [Nat.mul_mod, hb, Nat.mul_zero, Nat.zero_mod]
  · rw [invMod_zero a ha, Nat.zero_mul, Nat.zero_mod]
    apply invMod_zero
    rw [Nat.mul_mod, ha, Nat.zero_mul, Nat.zero_mod]

/-! ## The logical value after each call -/

theorem logical_addElement (mu : MuHash) (e : num3072) (h : mu.WF) (he : WF e) :
    logical (mu.addElement e) = (logical mu * val e) % prime := by
  show logical (MuHash.mk (num3072.Mul mu.numerator e) mu.denominator) = _
  unfold logical
  simp only
  rw [num_Mul_val _ _ h.1 he, Nat.mod_mul_mod, Nat.mod_mul_mod, Nat.mul_right_comm]

theorem logical_removeElement (mu : MuHash) (e : num3072) (h : mu.WF) (he : WF e)
    (hd : unitOrZero (val mu.denominator)) (hu : unitOrZero (val e)) :
    logical (mu.removeElement e) = (logical mu * invMod (val e)) % prime := by
  show logical (MuHash.mk mu.numerator (num3072.Mul mu.denominator e)) = _
  unfold logical
  simp only
  rw [num_Mul_val _ _ h.2 he, invMod_mod, invMod_mul _ _ hd hu, Nat.mul_mod_mod,
    Nat.mod_mul_mod, Nat.mul_assoc]

theorem logical_Combine (a b : MuHash) (ha : a.WF) (hb : b.WF)
    (hda : unitOrZero (val a.denominator)) (hdb : unitOrZero (val b.denominator)) :
    logical (a.Combine b) = (logical a * logical b) % prime := by
  show logical (MuHash.mk (num3072.Mul a.numerator b.numerator)
    (num3072.Mul a.denominator b.denominator)) = _
  unfold logical
  simp only
  rw [num_Mul_val _ _ ha.1 hb.1, num_Mul_val _ _ ha.2 hb.2, invMod_mod,
    invMod_mul _ _ hda hdb, Nat.mod_mul_mod, Nat.mul_mod_mod, ← Nat.mul_mod,
    Nat.mul_mul_mul_comm]

theorem den_removeElement (mu : MuHash) (e : num3072) (h : mu.WF) (he : WF e)
    (hd : unitOrZero (val mu.denominator)) (hu : unitOrZero (val e)) :
    unitOrZero (val (mu.removeElement e).denominator) := by
  show unitOrZero (val (num3072.Mul mu.denominator e))
  rw [num_Mul_val _ _ h.2 he]
  exact unitOrZero_mul _ _ hd hu

theorem den_Combine (a b : MuHash) (ha : a.WF) (hb : b.WF)
    (hda : unitOrZero (val a.denominator)) (hdb : unitOrZero (val b.denominator)) :
    unitOrZero (val (a.Combine b).denominator) := by
  show unitOrZero (val (num3072.Mul a.denominator b.denominator))
  rw [num_Mul_val _ _ ha.2 hb.2]
  exact unitOrZero_mul _ _ hda hdb

end muhash

namespace muhash

/-! ## `Serialize` and `Finalize` between the calls -/

theorem call_logical (P : Primitives) (X Y : MuHash) (c : Call) (hX : X.WF) (hY : Y.WF)
    (hc : c.WF) (hu : c.unitOrZero P) (hdX : unitOrZero (val X.denominator))
    (hdY : unitOrZero (val Y.denominator)) (hl : logical X = logical Y) :
    logical (X.call P c) = logical (Y.call P c) ∧
      unitOrZero (val (X.call P c).denominator) ∧
      unitOrZero (val (Y.call P c).denominator) := by
  have hw := dataToElement_WF P
  cases c with
  | add data =>
    refine ⟨?_, hdX, hdY⟩
    show logical (X.addElement _) = logical (Y.addElement _)
    rw [logical_addElement X _ hX (hw data), logical_addElement Y _ hY (hw data), hl]
  | remove data =>
    refine ⟨?_, den_removeElement X _ hX (hw data) hdX hu,
      den_removeElement Y _ hY (hw data) hdY hu⟩
    show logical (X.removeElement _) = logical (Y.removeElement _)
    rw [logical_removeElement X _ hX (hw data) hdX hu,
      logical_removeElement Y _ hY (hw data) hdY hu, hl]
  | combine other =>
    refine ⟨?_, den_Combine X other hX hc hdX hu, den_Combine Y other hY hc hdY hu⟩
    show logical (X.Combine other) = logical (Y.Combine other)
    rw [logical_Combine X other hX hc hdX hu, logical_Combine Y other hY hc hdY hu, hl]

theorem Serialize_fst (mu : MuHash) (h : mu.WF) :
    mu.Serialize.1 = MuHash.mk (ofNat (logical mu)) num3072.oneNum3072 := by
  rw [Serialize_eq mu h]

theorem Finalize_fst (P : Primitives) (mu : MuHash) (h : mu.WF) :
    (mu.Finalize P).1 = MuHash.mk (ofNat (logical mu)) num3072.oneNum3072 := by
  rw [Finalize_eq P mu h]

theorem calls_call (c : Call) (l : List Step) :
    Step.calls (Step.call c :: l) = c :: Step.calls l := rfl

theorem calls_serialize (l : List Step) : Step.calls (Step.serialize :: l) = Step.calls l :=
  rfl

theorem calls_finalize (l : List Step) : Step.calls (Step.finalize :: l) = Step.calls l :=
  rfl

theorem steps_cons (P : Primitives) (mu : MuHash) (s : Step) (l : List Step) :
    mu.steps P (s :: l) = (mu.step P s).steps P l := rfl

theorem run_cons (P : Primitives) (mu : MuHash) (c : Call) (l : List Call) :
    mu.run P (c :: l) = (mu.call P c).run P l := rfl

/-- The invariant of a history with `Serialize`/`Finalize` calls (`X`) against the same
history without them (`Y`). -/
theorem steps_logical (P : Primitives) (l : List Step)
    (hc : ∀ c ∈ Step.calls l, c.WF) (hu : ∀ c ∈ Step.calls l, c.unitOrZero P) :
    ∀ X Y : MuHash, X.WF → Y.WF → unitOrZero (val X.denominator) →
      unitOrZero (val Y.denominator) → logical X = logical Y →
      (X.steps P l).WF ∧ (Y.run P (Step.calls l)).WF ∧
        logical (X.steps P l) = logical (Y.run P (Step.calls l)) := by
  induction l with
  | nil => intro X Y hX hY _ _ hl; exact ⟨hX, hY, hl⟩
  | cons s rest ih =>
    intro X Y hX hY hdX hdY hl
    cases s with
    | call c =>
      rw [calls_call] at hc hu
      have hc0 := hc c (List.mem_cons_self _ _)
      have hu0 := hu c (List.mem_cons_self _ _)
      obtain ⟨h1, h2, h3⟩ := call_logical P X Y c hX hY hc0 hu0 hdX hdY hl
      rw [steps_cons, calls_call, run_cons]
      exact ih (fun c' hc' => hc c' (List.mem_cons_of_mem _ hc'))
        (fun c' hc' => hu c' (List.mem_cons_of_mem _ hc')) (X.call P c) (Y.call P c)
        (call_WF P X c hX hc0) (call_WF P Y c hY hc0) h2 h3 h1
    | serialize =>
      rw [calls_serialize] at hc hu
      have e : X.step P Step.serialize = X.Serialize.1 := rfl
      rw [steps_cons, calls_serialize, e, Serialize_fst X hX]
      exact ih hc hu (MuHash.mk (ofNat (logical X)) num3072.oneNum3072) Y (normalized_WF X)
        hY unitOrZero_val_one hdY ((logical_normalized X).trans hl)
    | finalize =>
      rw [calls_finalize] at hc hu
      have e : X.step P Step.finalize = (X.Finalize P).1 := rfl
      rw [steps_cons, calls_finalize, e, Finalize_fst P X hX]
      exact ih hc hu (MuHash.mk (ofNat (logical X)) num3072.oneNum3072) Y (normalized_WF X)
        hY unitOrZero_val_one hdY ((logical_normalized X).trans hl)

/-! ## The heap of accumulators -/

theorem invoke_frame (P : Primitives) (s t : Store) (p : Nat) (m : Method)
    (h : Store.invoke P s p m = some t) :
    t.length = s.length ∧ ∀ r, r ≠ p → t.get? r = s.get? r := by
  unfold Store.invoke at h
  cases hp : s.get? p with
  | none => rw [hp] at h; exact absurd h (by simp)
  | some mu =>
    rw [hp, Option.some_bind] at h
    cases hr : m.run P s mu with
    | none => rw [hr] at h; exact absurd h (by simp)
    | some x =>
      rw [hr, Option.map_some'] at h
      have e : t = s.set p x := (Option.some.inj h).symm
      subst e
      refine ⟨List.length_set _ _ _, ?_⟩
      intro r hne
      simp only [List.get?_eq_getElem?]
      exact List.getElem?_set_ne (Ne.symm hne)

theorem invoke_some (P : Primitives) (s : Store) (p : Nat) (m : Method)
    (hp : p < s.length) (hm : ∀ q, m = Method.Combine q → q < s.length) :
    ∃ t, Store.invoke P s p m = some t := by
  unfold Store.invoke
  have h1 : s.get? p = some (s.get ⟨p, hp⟩) := List.get?_eq_get hp
  rw [h1, Option.some_bind]
  cases m with
  | Combine q =>
    have hq := hm q rfl
    have h2 : s.get? q = some (s.get ⟨q, hq⟩) := List.get?_eq_get hq
    simp only [Method.run, h2, Option.map_some']
    exact ⟨_, rfl⟩
  | Add data => exact ⟨_, rfl⟩
  | Remove data => exact ⟨_, rfl⟩
  | Reset => exact ⟨_, rfl⟩
  | Serialize => exact ⟨_, rfl⟩
  | Finalize => exact ⟨_, rfl⟩

theorem invokeAll_cons (P : Primitives) (s t : Store) (p : Nat) (m : Method)
    (ms : List Method) (h : Store.invoke P s p m = some t) :
    Store.invokeAll P s p (m :: ms) = Store.invokeAll P t p ms := by
  unfold Store.invokeAll
  rw [List.foldl_cons, Option.some_bind, h]

/-- Method calls on the pointer `p` return, and leave every other cell as it was. -/
theorem invokeAll_frame (P : Primitives) (p : Nat) (ms : List Method) :
    ∀ s : Store, p < s.length → (∀ q, Method.Combine q ∈ ms → q < s.length) →
      ∃ t, Store.invokeAll P s p ms = some t ∧ t.length = s.length ∧
        ∀ r, r ≠ p → t.get? r = s.get? r := by
  induction ms with
  | nil => intro s _ _; exact ⟨s, rfl, rfl, fun _ _ => rfl⟩
  | cons m rest ih =>
    intro s hp hm
    obtain ⟨t1, h1⟩ := invoke_some P s p m hp
      (fun q hq => hm q (by rw [hq]; exact List.mem_cons_self _ _))
    obtain ⟨hl1, hf1⟩ := invoke_frame P s t1 p m h1
    obtain ⟨t, h2, hl2, hf2⟩ := ih t1 (by rw [hl1]; exact hp)
      (fun q hq => by rw [hl1]; exact hm q (List.mem_cons_of_mem _ hq))
    refine ⟨t, ?_, hl2.trans hl1, fun r hr => (hf2 r hr).trans (hf1 r hr)⟩
    rw [invokeAll_cons P s t1 p m rest h1]
    exact h2

end muhash

namespace muhash

/-! ## The digest of the empty accumulator -/

theorem finalizeKey_bytes :
    "MuHashFinalize".toUTF8.data.toList.map UInt8.toNat
      = [77, 117, 72, 97, 115, 104, 70, 105, 110, 97, 108, 105, 122, 101] := by
  decide

theorem bytesOfNat_one_apply (k : Fin elementByteSize) :
    bytesOfNat 1 k = if k.val = 0 then 1 else 0 := by
  unfold bytesOfNat
  by_cases h : k.val = 0
  · rw [if_pos h, h]
    rfl
  · rw [if_neg h]
    have : 1 / 2 ^ (8 * k.val) = 0 :=
      Nat.div_eq_of_lt (Nat.one_lt_two_pow (by omega))
    rw [this]
    rfl

theorem one_bytes :
    (List.ofFn (bytesOfNat 1)).map UInt8.toNat = 1 :: List.replicate 383 0 := by
  apply List.ext_getElem
  · rw [List.length_map, List.length_ofFn, List.length_cons, List.length_replicate]
    rfl
  · intro i h1 h2
    simp only [List.getElem_map, List.getElem_ofFn, bytesOfNat_one_apply]
    rcases Nat.eq_zero_or_pos i with h | h
    · subst h
      rfl
    · rw [if_neg (by omega)]
      obtain ⟨j, rfl⟩ : ∃ j, i = j + 1 := ⟨i - 1, by omega⟩
      rw [List.getElem_cons_succ, List.getElem_replicate]
      rfl

/-- The digest of the little-endian encoding of 1 under the key `MuHashFinalize`. -/
theorem sum256_one :
    blake2b.sum256 [77, 117, 72, 97, 115, 104, 70, 105, 110, 97, 108, 105, 122, 101]
      (1 :: List.replicate 383 0) = emptyMuHashBytes := by
  decide!

theorem New256_one :
    blake2b.New256 "MuHashFinalize" (List.ofFn (bytesOfNat 1)) = EmptyMuHashHash := by
  unfold blake2b.New256 EmptyMuHashHash
  rw [finalizeKey_bytes, one_bytes, sum256_one]

theorem Finalize_NewMuHash (P : Primitives) :
    (NewMuHash.Finalize P).2 = P.blake2b256 "MuHashFinalize" (List.ofFn (bytesOfNat 1)) := by
  rw [Finalize_eq P NewMuHash NewMuHash_WF, logical_NewMuHash]

end muhash

namespace muhash

open uint3072

/-! ## `Hash.SetBytes` -/

theorem SetBytes_error (hash : Hash) (b : List UInt8) (h : b.length ≠ HashSize) :
    (Hash.SetBytes hash b).1 = hash ∧ (Hash.SetBytes hash b).2 ≠ none := by
  unfold Hash.SetBytes
  rw [if_pos h]
  exact ⟨rfl, by simp⟩

theorem ofFn_copyBytes (hash : Hash) (b : List UInt8) (h : b.length = HashSize) :
    List.ofFn (copyBytes hash b) = b := by
  apply List.ext_getElem
  · rw [List.length_ofFn, h]
  · intro i h1 h2
    rw [List.getElem_ofFn]
    unfold copyBytes
    simp only
    rw [List.getD_eq_getElem _ _ h2]

theorem SetBytes_ok (hash : Hash) (b : List UInt8) (h : b.length = HashSize) :
    (Hash.SetBytes hash b).2 = none ∧ List.ofFn (Hash.SetBytes hash b).1 = b ∧
      ∀ i : Fin HashSize, (Hash.SetBytes hash b).1 i = b.getD i.val 0 := by
  unfold Hash.SetBytes
  rw [if_neg (not_not.mpr h)]
  refine ⟨rfl, ofFn_copyBytes hash b h, ?_⟩
  intro i
  have hi : i.val < b.length := by rw [h]; exact i.isLt
  show b.getD i.val (hash i) = b.getD i.val 0
  rw [List.getD_eq_getElem _ _ hi, List.getD_eq_getElem _ _ hi]

/-! ## The two inverses as functions of the value -/

theorem uGetInverse_eq (a : uint3072) (ha : WF a) :
    uint3072.GetInverse a = some (ofNat (val a ^ (prime - 2) % prime)) := by
  obtain ⟨r, hr, hw, hv⟩ := uGetInverse_spec a ha
  have hlt : val a ^ (prime - 2) % prime < 2 ^ 3072 :=
    Nat.lt_trans (Nat.mod_lt _ prime_pos) prime_lt
  have e : r = ofNat (val a ^ (prime - 2) % prime) :=
    val_inj _ _ hw (WF_ofNat _) (by rw [hv, val_ofNat_lt _ hlt])
  rw [hr, e]

theorem uGetInverse_congr (a b : uint3072) (ha : WF a) (hb : WF b)
    (h : val a % prime = val b % prime) :
    uint3072.GetInverse a = uint3072.GetInverse b := by
  rw [uGetInverse_eq a ha, uGetInverse_eq b hb, Nat.pow_mod, h, ← Nat.pow_mod]

theorem nGetInverse_eq (a : num3072) (ha : WF a) :
    (num3072.GetInverse a).2 = ofNat (invMod (val a)) := by
  obtain ⟨_, _, hw, hv⟩ := GetInverse_spec a ha
  have hlt : invMod (val a) < 2 ^ 3072 := Nat.lt_trans (invMod_lt _) prime_lt
  exact val_inj _ _ hw (WF_ofNat _) (by rw [hv, val_ofNat_lt _ hlt])

theorem nGetInverse_congr (a b : num3072) (ha : WF a) (hb : WF b)
    (h : val a % prime = val b % prime) :
    (num3072.GetInverse a).2 = (num3072.GetInverse b).2 := by
  rw [nGetInverse_eq a ha, nGetInverse_eq b hb, invMod_congr _ _ h]

theorem not_overflow_of_lt (a : uint3072) (ha : WF a) (h : val a < prime) :
    uint3072.IsOverflow a = false := by
  cases ho : uint3072.IsOverflow a with
  | false => rfl
  | true =>
    have := (IsOverflow_iff a ha).mp ho
    omega

theorem pow_mod_zero (n v k : Nat) (hk : 1 ≤ k) (h : v % n = 0) : v ^ k % n = 0 := by
  obtain ⟨j, rfl⟩ : ∃ j, k = j + 1 := ⟨k - 1, by omega⟩
  rw [pow_succ, Nat.mul_mod, h, Nat.mul_zero, Nat.zero_mod]

/-- The power `v^(p-2)` is the value that `ModInverse` gives, when Fermat's congruence
holds for `v`, and when `v` is zero modulo `p`. -/
theorem pow_eq_invMod (v : Nat) (h : v ^ (prime - 1) % prime = 1 ∨ v % prime = 0) :
    v ^ (prime - 2) % prime = invMod v := by
  have hp3 := prime_ge_three
  rcases h with h | h
  · have hcop : Nat.Coprime v prime := coprime_of_pow prime v hp3 h
    have e : prime - 1 = (prime - 2) + 1 := by omega
    have h1 : v * v ^ (prime - 2) ≡ 1 [MOD prime] := by
      show _ % prime = 1 % prime
      rw [Nat.mod_eq_of_lt prime_gt_one, ← h, e, pow_succ, Nat.mul_comm]
    have h2 : v * invMod v ≡ 1 [MOD prime] := by
      show _ % prime = 1 % prime
      rw [invMod_coprime _ hcop, Nat.mod_eq_of_lt prime_gt_one]
    have h3 : v ^ (prime - 2) ≡ invMod v [MOD prime] :=
      Nat.ModEq.cancel_left_of_coprime (Nat.Coprime.symm hcop) (h1.trans h2.symm)
    have h4 := h3
    unfold Nat.ModEq at h4
    rw [Nat.mod_eq_of_lt (invMod_lt _)] at h4
    exact h4
  · rw [pow_mod_zero prime v (prime - 2) (by omega) h, invMod_zero v h]

end muhash

namespace muhash

open uint3072

/-! ## The helper functions modulo `2^192` -/

theorem mul_le_word (a b : Nat) (ha : a < 2 ^ 64) (hb : b < 2 ^ 64) :
    a * b ≤ (2 ^ 64 - 1) * (2 ^ 64 - 1) :=
  Nat.mul_le_mul (by omega) (by omega)

theorem muladd3_mod (s : Nat × Nat × Nat) (a b : Nat) (h1 : s.1 < 2 ^ 64)
    (h2 : s.2.1 < 2 ^ 64) (h3 : s.2.2 < 2 ^ 64) (ha : a < 2 ^ 64) (hb : b < 2 ^ 64) :
    v3 (muladd3 s a b) = (v3 s + a * b) % 2 ^ 192 ∧ (muladd3 s a b).1 < 2 ^ 64 ∧
      (muladd3 s a b).2.1 < 2 ^ 64 ∧ (muladd3 s a b).2.2 < 2 ^ 64 := by
  have hp := mul_le_word a b ha hb
  obtain ⟨l, h, c⟩ := s
  simp only [muladd3, v3, bitsMul, bitsAdd] at *
  generalize a * b = p at *
  omega

theorem muldbladd3_mod (s : Nat × Nat × Nat) (a b : Nat) (h1 : s.1 < 2 ^ 64)
    (h2 : s.2.1 < 2 ^ 64) (h3 : s.2.2 < 2 ^ 64) (ha : a < 2 ^ 64) (hb : b < 2 ^ 64) :
    v3 (muldbladd3 s a b) = (v3 s + 2 * (a * b)) % 2 ^ 192 ∧ (muldbladd3 s a b).1 < 2 ^ 64 ∧
      (muldbladd3 s a b).2.1 < 2 ^ 64 ∧ (muldbladd3 s a b).2.2 < 2 ^ 64 := by
  obtain ⟨q1, q2, q3, q4⟩ := muladd3_mod s a b h1 h2 h3 ha hb
  obtain ⟨r1, r2, r3, r4⟩ := muladd3_mod (muladd3 s a b) a b q2 q3 q4 ha hb
  have e : muldbladd3 s a b = muladd3 (muladd3 s a b) a b := rfl
  rw [e]
  refine ⟨?_, r2, r3, r4⟩
  rw [r1, q1]
  omega

theorem mulnadd3_mod (c d : Nat × Nat × Nat) (n : Nat) (c0 : c.1 < 2 ^ 64)
    (c1 : c.2.1 < 2 ^ 64) (d0 : d.1 < 2 ^ 64) (d1 : d.2.1 < 2 ^ 64) (d2 : d.2.2 < 2 ^ 64)
    (hn : n < 2 ^ 64) :
    v3 (mulnadd3 c d n) = (c.1 + 2 ^ 64 * c.2.1 + n * v3 d) % 2 ^ 192 ∧
      (mulnadd3 c d n).1 < 2 ^ 64 ∧ (mulnadd3 c d n).2.1 < 2 ^ 64 ∧
      (mulnadd3 c d n).2.2 < 2 ^ 64 := by
  have p0 := mul_le_word d.1 n d0 hn
  have p1 := mul_le_word d.2.1 n d1 hn
  have p2 := mul_le_word d.2.2 n d2 hn
  obtain ⟨x, y, z⟩ := c
  obtain ⟨u, v, w⟩ := d
  have e : n * v3 (u, v, w) = u * n + 2 ^ 64 * (v * n) + 2 ^ 128 * (w * n) := by
    simp only [v3]
    ring
  rw [e]
  simp only [mulnadd3, v3, bitsMul, bitsAdd] at *
  generalize u * n = a0 at *
  generalize v * n = a1 at *
  generalize w * n = a2 at *
  omega

end muhash

namespace muhash

open uint3072

/-! ## Equal serializations -/

theorem bytesOfNat_inj (a b : Nat) (ha : a < 2 ^ 3072) (hb : b < 2 ^ 3072)
    (h : bytesOfNat a = bytesOfNat b) : a = b := by
  have h2 := congrArg bytesVal h
  rw [bytesVal_bytesOfNat, bytesVal_bytesOfNat, Nat.mod_eq_of_lt ha, Nat.mod_eq_of_lt hb] at h2
  exact h2

theorem Serialize_eq_iff (m1 m2 : MuHash) (h1 : m1.WF) (h2 : m2.WF) :
    m1.Serialize.2 = m2.Serialize.2 ↔ logical m1 = logical m2 := by
  rw [Serialize_eq m1 h1, Serialize_eq m2 h2]
  constructor
  · exact bytesOfNat_inj _ _ (Nat.lt_trans (logical_lt m1) prime_lt)
      (Nat.lt_trans (logical_lt m2) prime_lt)
  · intro h
    show bytesOfNat (logical m1) = bytesOfNat (logical m2)
    rw [h]

/-- Two quotients are equal exactly when the cross products are congruent. -/
theorem logical_eq_iff (m1 m2 : MuHash) (c1 : Nat.Coprime (val m1.denominator) prime)
    (c2 : Nat.Coprime (val m2.denominator) prime) :
    logical m1 = logical m2 ↔
      (val m1.numerator * val m2.denominator) % prime
        = (val m2.numerator * val m1.denominator) % prime := by
  have k1 : logical m1 * val m1.denominator ≡ val m1.numerator [MOD prime] :=
    logical_mul_den m1 c1
  have k2 : logical m2 * val m2.denominator ≡ val m2.numerator [MOD prime] :=
    logical_mul_den m2 c2
  constructor
  · intro h
    show _ ≡ _ [MOD prime]
    calc val m1.numerator * val m2.denominator
        ≡ logical m1 * val m1.denominator * val m2.denominator [MOD prime] :=
          (k1.mul_right _).symm
      _ = logical m2 * val m2.denominator * val m1.denominator := by rw [h]; ring
      _ ≡ val m2.numerator * val m1.denominator [MOD prime] := k2.mul_right _
  · intro h
    have h' : val m1.numerator * val m2.denominator
        ≡ val m2.numerator * val m1.denominator [MOD prime] := h
    have h3 : val m1.denominator * val m2.denominator * logical m1
        ≡ val m1.denominator * val m2.denominator * logical m2 [MOD prime] := by
      calc val m1.denominator * val m2.denominator * logical m1
          = logical m1 * val m1.denominator * val m2.denominator := by ring
        _ ≡ val m1.numerator * val m2.denominator [MOD prime] := k1.mul_right _
        _ ≡ val m2.numerator * val m1.denominator [MOD prime] := h'
        _ ≡ logical m2 * val m2.denominator * val m1.denominator [MOD prime] :=
          (k2.mul_right _).symm
        _ = val m1.denominator * val m2.denominator * logical m2 := by ring
    have h4 : logical m1 ≡ logical m2 [MOD prime] :=
      Nat.ModEq.cancel_left_of_coprime (Nat.Coprime.symm (Nat.Coprime.mul c1 c2)) h3
    unfold Nat.ModEq at h4
    rw [Nat.mod_eq_of_lt (logical_lt m1), Nat.mod_eq_of_lt (logical_lt m2)] at h4
    exact h4

/-! ## Inverting zero -/

theorem eq_zero_of_val (r : uint3072) (hr : WF r) (h : val r = 0) : r = fun _ => 0 :=
  val_inj _ _ hr zero_WF (by rw [h, val_zero])

theorem uGetInverse_zero (b : uint3072) (hb : WF b) (hz : val b % prime = 0) :
    uint3072.GetInverse b = some (fun _ => 0) := by
  rw [uGetInverse_eq b hb, pow_mod_zero prime (val b) (prime - 2)
    (by have := prime_ge_three; omega) hz, ofNat_zero]

theorem nGetInverse_zero (b : num3072) (hb : WF b) (hz : val b % prime = 0) :
    (num3072.GetInverse b).2 = fun _ => 0 := by
  rw [nGetInverse_eq b hb, invMod_zero _ hz, ofNat_zero]

theorem uDivide_zero (a b : uint3072) (ha : WF a) (hb : WF b) (hz : val b % prime = 0) :
    uint3072.Divide a b
      = some (fun _ => 0, if IsOverflow b then FullReduce b else b) := by
  rw [uDivide_eq a b ha hb, invMod_zero _ hz, Nat.mul_zero, Nat.zero_mod, ofNat_zero]

theorem nDivide_zero (a b : num3072) (ha : WF a) (hb : WF b) (hz : val b % prime = 0) :
    (num3072.Divide a b).1 = fun _ => 0 := by
  obtain ⟨hw, hv, _⟩ := Divide_spec a b ha hb
  rw [invMod_zero _ hz, Nat.mul_zero, Nat.zero_mod] at hv
  exact eq_zero_of_val _ hw hv

theorem val_ofNat_prime : val (ofNat prime) = prime := val_ofNat_lt _ prime_lt

/-! ## Normal form -/

theorem normalized_normalForm (mu : MuHash) :
    (MuHash.mk (ofNat (logical mu)) num3072.oneNum3072).normalForm := by
  have hlt : val (ofNat (logical mu)) < prime := by
    rw [val_ofNat_logical]; exact logical_lt mu
  refine ⟨rfl, hlt, ?_⟩
  show num3072.IsOverflow (ofNat (logical mu)) = false
  rw [num_IsOverflow_eq]
  exact not_overflow_of_lt _ (WF_ofNat _) hlt

theorem NewMuHash_normalForm : NewMuHash.normalForm := by
  have hlt : val num3072.oneNum3072 < prime := by rw [val_one]; exact prime_gt_one
  refine ⟨rfl, hlt, ?_⟩
  show num3072.IsOverflow num3072.oneNum3072 = false
  rw [num_IsOverflow_eq]
  exact not_overflow_of_lt _ one_WF hlt

theorem Deserialize_normalForm (b : SerializedMuHash) (m : MuHash)
    (h : DeserializeMuHash b = Except.ok m) : m.normalForm := by
  rw [DeserializeMuHash_eq] at h
  by_cases hge : prime ≤ bytesVal b
  · rw [if_pos hge] at h
    exact absurd h (by simp)
  · rw [if_neg hge] at h
    have e : m = MuHash.mk (ofNat (bytesVal b)) num3072.oneNum3072 :=
      (Except.ok.inj h).symm
    have hlt : val (ofNat (bytesVal b)) < prime := by
      rw [val_ofNat_lt _ (bytesVal_lt b)]; omega
    rw [e]
    refine ⟨rfl, hlt, ?_⟩
    show num3072.IsOverflow (ofNat (bytesVal b)) = false
    rw [num_IsOverflow_eq]
    exact not_overflow_of_lt _ (WF_ofNat _) hlt

/-- An accumulator in normal form is a fixed point of `normalize`. -/
theorem normalForm_fixed (mu : MuHash) (h : mu.WF) (hn : mu.normalForm) :
    mu.normalize = mu := by
  rw [normalize_eq mu h]
  exact (normalized_iff mu h).mpr ⟨hn.1, hn.2.1⟩

/-! ## `Mul` through pointers -/

theorem MulAt_frame (h : List uint3072) (l r : Nat) (a b : uint3072)
    (hl : h.get? l = some a) (hr : h.get? r = some b) (ha : WF a) (hb : WF b) :
    ∃ x, uint3072.Mul a b = some x ∧ uint3072.MulAt h l r = some (h.set l x) ∧
      ∀ k, k ≠ l → (h.set l x).get? k = h.get? k := by
  obtain ⟨x, hx, _, _⟩ := Mul_spec a b ha hb
  refine ⟨x, hx, ?_, ?_⟩
  · unfold uint3072.MulAt
    rw [hl, Option.some_bind, hr, Option.some_bind, hx, Option.map_some']
  · intro k hk
    simp only [List.get?_eq_getElem?]
    exact List.getElem?_set_ne (Ne.symm hk)

theorem get_set_self {α : Type} (s : List α) (p : Nat) (x y : α) (h : s.get? p = some y) :
    (s.set p x).get? p = some x := by
  have hlt : p < s.length := by
    by_contra hge
    rw [List.get?_eq_none.mpr (by omega)] at h
    exact absurd h (by simp)
  simp only [List.get?_eq_getElem?]
  exact List.getElem?_set_self hlt

end muhash

namespace muhash

/-! ## The modulus has no prime factor below `1105920` -/

theorem wheel_dvd (k r : Nat)
    (hr : r = 1 ∨ r = 7 ∨ r = 11 ∨ r = 13 ∨ r = 17 ∨ r = 19 ∨ r = 23 ∨ r = 29) :
    (30 * k + r) ∣ wheel k := by
  unfold wheel
  rcases hr with h | h | h | h | h | h | h | h <;> subst h
  · exact Dvd.dvd.mul_right (Dvd.dvd.mul_right (Dvd.dvd.mul_right (Dvd.dvd.mul_right
      (Dvd.dvd.mul_right (Dvd.dvd.mul_right (Dvd.dvd.mul_right (dvd_refl _) _) _) _) _) _) _) _
  · exact Dvd.dvd.mul_right (Dvd.dvd.mul_right (Dvd.dvd.mul_right (Dvd.dvd.mul_right
      (Dvd.dvd.mul_right (Dvd.dvd.mul_right (Dvd.dvd.mul_left (dvd_refl _) _) _) _) _) _) _) _
  · exact Dvd.dvd.mul_right (Dvd.dvd.mul_right (Dvd.dvd.mul_right (Dvd.dvd.mul_right
      (Dvd.dvd.mul_right (Dvd.dvd.mul_left (dvd_refl _) _) _) _) _) _) _
  · exact Dvd.dvd.mul_right (Dvd.dvd.mul_right (Dvd.dvd.mul_right (Dvd.dvd.mul_right
      (Dvd.dvd.mul_left (dvd_refl _) _) _) _) _) _
  · exact Dvd.dvd.mul_right (Dvd.dvd.mul_right (Dvd.dvd.mul_right
      (Dvd.dvd.mul_left (dvd_refl _) _) _) _) _
  · exact Dvd.dvd.mul_right (Dvd.dvd.mul_right (Dvd.dvd.mul_left (dvd_refl _) _) _) _
  · exact Dvd.dvd.mul_right (Dvd.dvd.mul_left (dvd_refl _) _) _
  · exact Dvd.dvd.mul_left (dvd_refl _) _

theorem wheel_dvd_tree (d : Nat) :
    ∀ k j : Nat, k ≤ j → j < k + 2 ^ d → wheel j ∣ wheelTree d k := by
  induction d with
  | zero =>
    intro k j h1 h2
    have e : j = k := by
      rw [Nat.pow_zero] at h2
      omega
    rw [e]
    exact dvd_refl _
  | succ d ih =>
    intro k j h1 h2
    have e : 2 ^ (d + 1) = 2 ^ d + 2 ^ d := by rw [pow_succ]; omega
    have hu : wheelTree (d + 1) k = wheelTree d k * wheelTree d (k + 2 ^ d) := rfl
    rw [hu]
    by_cases hj : j < k + 2 ^ d
    · exact Dvd.dvd.mul_right (ih k j h1 hj) _
    · exact Dvd.dvd.mul_left (ih (k + 2 ^ d) j (by omega) (by omega)) _

/-- The product of all `wheel j` with `j < 32768` has no factor in common with the
modulus. -/
theorem wheels_coprime_low : Nat.gcd (wheelTree 15 0) prime = 1 := by
  decide!

/-- The product of all `wheel j` with `32768 ≤ j < 36864` has no factor in common with
the modulus. -/
theorem wheels_coprime_high : Nat.gcd (wheelTree 12 (2 ^ 15)) prime = 1 := by
  decide!

theorem prime_mod_three : prime % 3 = 2 := by
  unfold prime primeDiff; norm_num

theorem prime_mod_five : prime % 5 = 4 := by
  unfold prime primeDiff; norm_num

/-- No prime number below `1105920` divides the modulus. -/
theorem no_small_factor (q : Nat) (hq : Nat.Prime q) (hlt : q < 1105920) : ¬ q ∣ prime := by
  intro hd
  have h2 : q ≠ 2 := by
    intro h
    rw [h] at hd
    have := Nat.mod_eq_zero_of_dvd hd
    have := prime_odd
    omega
  have h3 : q ≠ 3 := by
    intro h
    rw [h] at hd
    have := Nat.mod_eq_zero_of_dvd hd
    have := prime_mod_three
    omega
  have h5 : q ≠ 5 := by
    intro h
    rw [h] at hd
    have := Nat.mod_eq_zero_of_dvd hd
    have := prime_mod_five
    omega
  have n2 : q % 2 ≠ 0 := by
    intro h
    exact h2 ((Nat.prime_dvd_prime_iff_eq Nat.prime_two hq).mp (Nat.dvd_of_mod_eq_zero h)).symm
  have n3 : q % 3 ≠ 0 := by
    intro h
    exact h3 ((Nat.prime_dvd_prime_iff_eq Nat.prime_three hq).mp (Nat.dvd_of_mod_eq_zero h)).symm
  have n5 : q % 5 ≠ 0 := by
    intro h
    exact h5 ((Nat.prime_dvd_prime_iff_eq Nat.prime_five hq).mp (Nat.dvd_of_mod_eq_zero h)).symm
  have key : ∀ r : Nat, r < 30 → r % 2 ≠ 0 → r % 3 ≠ 0 → r % 5 ≠ 0 →
      (r = 1 ∨ r = 7 ∨ r = 11 ∨ r = 13 ∨ r = 17 ∨ r = 19 ∨ r = 23 ∨ r = 29) := by
    intro r hr a b c
    interval_cases r <;> omega
  have hr : q % 30 = 1 ∨ q % 30 = 7 ∨ q % 30 = 11 ∨ q % 30 = 13 ∨ q % 30 = 17 ∨ q % 30 = 19
      ∨ q % 30 = 23 ∨ q % 30 = 29 :=
    key (q % 30) (Nat.mod_lt _ (by decide))
      (by rw [Nat.mod_mod_of_dvd q (by decide : 2 ∣ 30)]; exact n2)
      (by rw [Nat.mod_mod_of_dvd q (by decide : 3 ∣ 30)]; exact n3)
      (by rw [Nat.mod_mod_of_dvd q (by decide : 5 ∣ 30)]; exact n5)
  have hqe : q = 30 * (q / 30) + q % 30 := (Nat.div_add_mod q 30).symm
  have hw : q ∣ wheel (q / 30) := by
    have := wheel_dvd (q / 30) (q % 30) hr
    rw [← hqe] at this
    exact this
  have h1 : q ∣ 1 := by
    by_cases hj : q / 30 < 2 ^ 15
    · have ht : q ∣ wheelTree 15 0 :=
        Nat.dvd_trans hw (wheel_dvd_tree 15 0 (q / 30) (Nat.zero_le _) (by omega))
      have hg : q ∣ Nat.gcd (wheelTree 15 0) prime := Nat.dvd_gcd ht hd
      rw [wheels_coprime_low] at hg
      exact hg
    · have ht : q ∣ wheelTree 12 (2 ^ 15) :=
        Nat.dvd_trans hw (wheel_dvd_tree 12 (2 ^ 15) (q / 30) (by omega) (by omega))
      have hg : q ∣ Nat.gcd (wheelTree 12 (2 ^ 15)) prime := Nat.dvd_gcd ht hd
      rw [wheels_coprime_high] at hg
      exact hg
  have := Nat.Prime.one_lt hq
  have := Nat.le_of_dvd (by decide) h1
  omega

/-- Every positive number below `1105920` is invertible modulo the modulus. -/
theorem coprime_small (w : Nat) (h0 : 0 < w) (hw : w < 1105920) : Nat.Coprime w prime := by
  apply Nat.coprime_of_dvd
  intro k hk hkw
  exact no_small_factor k hk (Nat.lt_of_le_of_lt (Nat.le_of_dvd h0 hkw) hw)

end muhash

namespace muhash

/-! ## The claims -/

/-- C1: for every pair of 48-limb values `a` and `b` (arbitrary 64-bit limbs, overflowed
representations included) `a.Mul(&b)` on `uint3072` passes every `assert` and leaves in
`a` the limbs `r` with `val r = (val a * val b) mod p`, `p = 2^3072 - 1103717`: the
result of the `big.Int` reference `Mul` then `Mod prime` of the fuzz harness. -/
theorem C1_Mul_is_product_mod_prime (a b : uint3072) (ha : WF a) (hb : WF b) :
    ∃ r, uint3072.Mul a b = some r ∧ WF r ∧ val r = (val a * val b) % prime :=
  Mul_spec a b ha hb

/-- Witness for C1 at an overflowed operand `2^3072 - 1` and the bit pattern of `p`. -/
theorem C1_Mul_is_product_mod_prime_witness :
    WF (ofNat (2 ^ 3072 - 1)) ∧ WF (ofNat prime) ∧
      ∃ r, uint3072.Mul (ofNat (2 ^ 3072 - 1)) (ofNat prime) = some r ∧ WF r ∧
        val r = (val (ofNat (2 ^ 3072 - 1)) * val (ofNat prime)) % prime :=
  ⟨WF_ofNat _, WF_ofNat _,
    C1_Mul_is_product_mod_prime (ofNat (2 ^ 3072 - 1)) (ofNat prime) (WF_ofNat _) (WF_ofNat _)⟩

/-- C2: order independence. For every accumulator `m` and every two lists of
`Add(x)`/`Remove(x)` calls that are permutations of each other, applying either list to
a clone of `m` gives the same numerator and denominator, hence the same `Serialize`
bytes and the same `Finalize` digest, whatever the hash and stream primitives are. -/
theorem C2_order_independence (P : Primitives) (m : MuHash) (hm : m.WF)
    (l1 l2 : List Update) (hp : l1.Perm l2) :
    (m.Clone.replay P l1).Serialize.2 = (m.Clone.replay P l2).Serialize.2 ∧
      ((m.Clone.replay P l1).Finalize P).2 = ((m.Clone.replay P l2).Finalize P).2 := by
  have h : m.Clone.replay P l1 = m.Clone.replay P l2 := replay_perm P l1 l2 hp m hm
  rw [h]
  exact ⟨rfl, rfl⟩

/-- Witness for C2: `Add`, `Remove` and `Remove`, `Add` on the empty accumulator. -/
theorem C2_order_independence_witness :
    NewMuHash.WF ∧
      [Update.add [1], Update.remove [2]].Perm [Update.remove [2], Update.add [1]] ∧
      (NewMuHash.Clone.replay twoStream [Update.add [1], Update.remove [2]]).Serialize.2
        = (NewMuHash.Clone.replay twoStream [Update.remove [2], Update.add [1]]).Serialize.2 ∧
      ((NewMuHash.Clone.replay twoStream [Update.add [1], Update.remove [2]]).Finalize
          twoStream).2
        = ((NewMuHash.Clone.replay twoStream [Update.remove [2], Update.add [1]]).Finalize
          twoStream).2 :=
  ⟨NewMuHash_WF, List.Perm.swap _ _ _,
    C2_order_independence twoStream NewMuHash NewMuHash_WF _ _ (List.Perm.swap _ _ _)⟩

/-- The inverse law for an invertible encoding. For every accumulator state `m` and
every element `x` whose encoding and the denominator reached are invertible modulo `p`
(as every encoding that is nonzero modulo `p` is, if `p` is prime), the `Serialize` bytes
and the `Finalize` digest after `m.Add(x)`, any list of further `Add`/`Remove`/`Combine`
calls, and `m.Remove(x)` equal those of `m` after the interleaved calls alone. -/
theorem inverse_law_of_invertible (P : Primitives) (m : MuHash) (hm : m.WF) (x : List UInt8)
    (mid : List Call) (hmid : ∀ c ∈ mid, c.WF)
    (hx : (Nat.Coprime (val (dataToElement P x)) prime ∧
        Nat.Coprime (val (m.run P mid).denominator) prime) ∨
      (Nat.Prime prime ∧ val (dataToElement P x) % prime ≠ 0)) :
    (((m.Add P x).run P mid).Remove P x).Serialize.2 = (m.run P mid).Serialize.2 ∧
      ((((m.Add P x).run P mid).Remove P x).Finalize P).2 = ((m.run P mid).Finalize P).2 := by
  have hw := run_WF P mid m hm hmid
  rw [run_add_comm P x mid hmid m hm]
  have hw2 : (((m.run P mid).Add P x).Remove P x).WF :=
    removeElement_WF _ _ (addElement_WF _ _ hw (dataToElement_WF P x)) (dataToElement_WF P x)
  exact Serialize_congr P _ _ hw2 hw (logical_add_remove P _ hw x hx)

/-- C4: `Combine` is a homomorphism of histories. For every accumulator `A` and every
list `ops` of `Add`/`Remove` calls, if `B` is `NewMuHash()` after `ops`, then
`A.Combine(B)` has the same `Serialize` bytes and `Finalize` digest as a clone of `A` to
which `ops` were applied directly. -/
theorem C4_Combine_replays_history (P : Primitives) (A : MuHash) (hA : A.WF)
    (ops : List Update) :
    (A.Clone.Combine (NewMuHash.replay P ops)).Serialize.2
        = (A.Clone.replay P ops).Serialize.2 ∧
      ((A.Clone.Combine (NewMuHash.replay P ops)).Finalize P).2
        = ((A.Clone.replay P ops).Finalize P).2 :=
  Serialize_congr P _ _ (Combine_WF A _ hA (replay_WF P ops NewMuHash NewMuHash_WF))
    (replay_WF P ops A hA) (logical_combine_replay P A hA ops)

/-- Witness for C4: an accumulator with overflowed halves and a history of one `Add`
and one `Remove`. -/
theorem C4_Combine_replays_history_witness :
    (MuHash.mk (ofNat (2 ^ 3072 - 1)) (ofNat prime)).WF ∧
      ((MuHash.mk (ofNat (2 ^ 3072 - 1)) (ofNat prime)).Clone.Combine
          (NewMuHash.replay twoStream [Update.add [1], Update.remove [2]])).Serialize.2
        = ((MuHash.mk (ofNat (2 ^ 3072 - 1)) (ofNat prime)).Clone.replay twoStream
          [Update.add [1], Update.remove [2]]).Serialize.2 ∧
      (((MuHash.mk (ofNat (2 ^ 3072 - 1)) (ofNat prime)).Clone.Combine
          (NewMuHash.replay twoStream [Update.add [1], Update.remove [2]])).Finalize
          twoStream).2
        = (((MuHash.mk (ofNat (2 ^ 3072 - 1)) (ofNat prime)).Clone.replay twoStream
          [Update.add [1], Update.remove [2]]).Finalize twoStream).2 :=
  ⟨⟨WF_ofNat _, WF_ofNat _⟩,
    C4_Combine_replays_history twoStream _ ⟨WF_ofNat _, WF_ofNat _⟩ _⟩

/-- C5: `Combine` is commutative. For all accumulators `A` and `B`, `A.Combine(B)` and
`B.Combine(A)`, each on clones of the originals, have identical `Serialize` bytes and
`Finalize` digests. -/
theorem C5_Combine_commutative (P : Primitives) (A B : MuHash) (hA : A.WF) (hB : B.WF) :
    (A.Clone.Combine B).Serialize.2 = (B.Clone.Combine A).Serialize.2 ∧
      ((A.Clone.Combine B).Finalize P).2 = ((B.Clone.Combine A).Finalize P).2 := by
  have h : A.Clone.Combine B = B.Clone.Combine A := Combine_comm A B hA hB
  rw [h]
  exact ⟨rfl, rfl⟩

/-- Witness for C5: the empty accumulator and one with overflowed halves. -/
theorem C5_Combine_commutative_witness :
    NewMuHash.WF ∧ (MuHash.mk (ofNat (2 ^ 3072 - 1)) (ofNat prime)).WF ∧
      (NewMuHash.Clone.Combine (MuHash.mk (ofNat (2 ^ 3072 - 1)) (ofNat prime))).Serialize.2
        = ((MuHash.mk (ofNat (2 ^ 3072 - 1)) (ofNat prime)).Clone.Combine NewMuHash).Serialize.2 ∧
      ((NewMuHash.Clone.Combine (MuHash.mk (ofNat (2 ^ 3072 - 1)) (ofNat prime))).Finalize
          zeroStream).2
        = (((MuHash.mk (ofNat (2 ^ 3072 - 1)) (ofNat prime)).Clone.Combine NewMuHash).Finalize
          zeroStream).2 :=
  ⟨NewMuHash_WF, ⟨WF_ofNat _, WF_ofNat _⟩,
    C5_Combine_commutative zeroStream NewMuHash _ NewMuHash_WF ⟨WF_ofNat _, WF_ofNat _⟩⟩

/-- C6: `Combine` is associative. For all accumulators `A`, `B` and `C`, combining
`A.Combine(B)` with `C` gives the same `Serialize` bytes and `Finalize` digest as
combining `A` with `B.Combine(C)`. -/
theorem C6_Combine_associative (P : Primitives) (A B C : MuHash) (hA : A.WF) (hB : B.WF)
    (hC : C.WF) :
    ((A.Combine B).Combine C).Serialize.2 = (A.Combine (B.Combine C)).Serialize.2 ∧
      (((A.Combine B).Combine C).Finalize P).2 = ((A.Combine (B.Combine C)).Finalize P).2 := by
  rw [Combine_assoc A B C hA hB hC]
  exact ⟨rfl, rfl⟩

/-- Witness for C6: three accumulators, two of them with overflowed halves. -/
theorem C6_Combine_associative_witness :
    NewMuHash.WF ∧ (MuHash.mk (ofNat (2 ^ 3072 - 1)) (ofNat prime)).WF ∧
      (MuHash.mk (ofNat 5) (ofNat (prime + 7))).WF ∧
      ((NewMuHash.Combine (MuHash.mk (ofNat (2 ^ 3072 - 1)) (ofNat prime))).Combine
          (MuHash.mk (ofNat 5) (ofNat (prime + 7)))).Serialize.2
        = (NewMuHash.Combine ((MuHash.mk (ofNat (2 ^ 3072 - 1)) (ofNat prime)).Combine
          (MuHash.mk (ofNat 5) (ofNat (prime + 7))))).Serialize.2 ∧
      (((NewMuHash.Combine (MuHash.mk (ofNat (2 ^ 3072 - 1)) (ofNat prime))).Combine
          (MuHash.mk (ofNat 5) (ofNat (prime + 7)))).Finalize zeroStream).2
        = ((NewMuHash.Combine ((MuHash.mk (ofNat (2 ^ 3072 - 1)) (ofNat prime)).Combine
          (MuHash.mk (ofNat 5) (ofNat (prime + 7))))).Finalize zeroStream).2 :=
  ⟨NewMuHash_WF, ⟨WF_ofNat _, WF_ofNat _⟩, ⟨WF_ofNat _, WF_ofNat _⟩,
    C6_Combine_associative zeroStream NewMuHash _ _ NewMuHash_WF ⟨WF_ofNat _, WF_ofNat _⟩
      ⟨WF_ofNat _, WF_ofNat _⟩⟩

/-- C7: `Serialize`/`Deserialize` round trip. For every accumulator `m` (any numerator
and denominator limbs) `DeserializeMuHash(m.Serialize())` returns no error, and the
accumulator it returns has the same `Serialize` bytes and the same `Finalize` digest as
`m`. -/
theorem C7_Serialize_Deserialize_round_trip (m : MuHash) (hm : m.WF) :
    ∃ m2, DeserializeMuHash m.Serialize.2 = Except.ok m2 ∧
      m2.Serialize.2 = m.Serialize.2 ∧
      ∀ P : Primitives, (m2.Finalize P).2 = (m.Finalize P).2 := by
  have hl := logical_lt m
  have hlt : logical m < 2 ^ 3072 := by have := prime_lt; omega
  have hw : (MuHash.mk (ofNat (logical m)) num3072.oneNum3072).WF := ⟨WF_ofNat _, one_WF⟩
  have hlog : logical (MuHash.mk (ofNat (logical m)) num3072.oneNum3072) = logical m := by
    rw [logical_over_one, val_ofNat_lt _ hlt, Nat.mod_eq_of_lt hl]
  refine ⟨MuHash.mk (ofNat (logical m)) num3072.oneNum3072, ?_, ?_, ?_⟩
  · rw [Serialize_eq m hm, DeserializeMuHash_eq, bytesVal_bytesOfNat, Nat.mod_eq_of_lt hlt,
      if_neg (by omega)]
  · exact (Serialize_congr zeroStream _ _ hw hm hlog).1
  · intro P
    exact (Serialize_congr P _ _ hw hm hlog).2

/-- Witness for C7: an accumulator whose two halves are overflowed. -/
theorem C7_Serialize_Deserialize_round_trip_witness :
    (MuHash.mk (ofNat (2 ^ 3072 - 1)) (ofNat prime)).WF ∧
      ∃ m2, DeserializeMuHash (MuHash.mk (ofNat (2 ^ 3072 - 1)) (ofNat prime)).Serialize.2
          = Except.ok m2 ∧
        m2.Serialize.2 = (MuHash.mk (ofNat (2 ^ 3072 - 1)) (ofNat prime)).Serialize.2 ∧
        ∀ P : Primitives, (m2.Finalize P).2
          = ((MuHash.mk (ofNat (2 ^ 3072 - 1)) (ofNat prime)).Finalize P).2 :=
  ⟨⟨WF_ofNat _, WF_ofNat _⟩,
    C7_Serialize_Deserialize_round_trip _ ⟨WF_ofNat _, WF_ofNat _⟩⟩

/-- C8: `DeserializeMuHash` returns `errOverflow` (and no accumulator) if and only if
the 384 input bytes, read as a little-endian integer, are at least
`p = 2^3072 - 1103717`; for every smaller value it succeeds and returns an accumulator
whose numerator limbs are the little-endian words of the input and whose denominator is
one. The encoding of `p` fails and the encoding of `p - 1` succeeds. -/
theorem C8_Deserialize_overflow (b : SerializedMuHash) :
    (DeserializeMuHash b = Except.error MuHashError.errOverflow ↔ prime ≤ bytesVal b) ∧
      (bytesVal b < prime →
        DeserializeMuHash b
            = Except.ok (MuHash.mk (bytesToWordsLE b) num3072.oneNum3072) ∧
          bytesToWordsLE b = ofNat (bytesVal b) ∧
          ∀ i : Fin limbs, bytesToWordsLE b i = Uint64LE b (i.val * wordSizeInBytes)) ∧
      DeserializeMuHash (bytesOfNat prime) = Except.error MuHashError.errOverflow ∧
      DeserializeMuHash (bytesOfNat (prime - 1))
        = Except.ok (MuHash.mk (ofNat (prime - 1)) num3072.oneNum3072) := by
  have hp := prime_lt
  have hp1 := prime_gt_one
  refine ⟨?_, ?_, ?_, ?_⟩
  · rw [DeserializeMuHash_eq]
    constructor
    · intro h
      by_contra hc
      rw [if_neg hc] at h
      exact absurd h (by simp)
    · intro h
      rw [if_pos h]
  · intro h
    refine ⟨?_, bytesToWordsLE_eq b, ?_⟩
    · rw [DeserializeMuHash_eq, if_neg (by omega), bytesToWordsLE_eq]
    · intro i
      have := idx_bytesToWordsLE b i.val i.isLt
      rw [idx_lt _ _ i.isLt] at this
      exact this
  · rw [DeserializeMuHash_eq, bytesVal_bytesOfNat, Nat.mod_eq_of_lt hp, if_pos (le_refl _)]
  · rw [DeserializeMuHash_eq, bytesVal_bytesOfNat, Nat.mod_eq_of_lt (by omega),
      if_neg (by omega)]

/-- The encoding written by `Serialize`, for an invertible denominator. For every
accumulator `m` whose denominator is invertible modulo `p` (as every denominator that is
nonzero modulo `p` is, if `p` is prime), `m.Serialize()` is the 384-byte little-endian
encoding, byte `k` holding the bits `8k .. 8k+7`, of the canonical value `v` in `[0, p)`
with `v * val(denominator) ≡ val(numerator) (mod p)`, and `bytesToWordsLE` reads back
exactly the limbs that were written. -/
theorem Serialize_encoding_of_invertible (m : MuHash) (hm : m.WF)
    (hd : Nat.Coprime (val m.denominator) prime ∨
      (Nat.Prime prime ∧ val m.denominator % prime ≠ 0)) :
    ∃ v, v < prime ∧ (v * val m.denominator) % prime = val m.numerator % prime ∧
      m.Serialize.2 = bytesOfNat v ∧
      (∀ k : Fin elementByteSize, (m.Serialize.2 k).toNat = (v / 2 ^ (8 * k.val)) % 2 ^ 8) ∧
      bytesVal m.Serialize.2 = v ∧
      bytesToWordsLE m.Serialize.2 = m.Serialize.1.numerator := by
  have hc : Nat.Coprime (val m.denominator) prime := by
    rcases hd with h | ⟨hp, hne⟩
    · exact h
    · exact coprime_of_prime hp _ hne
  have hl := logical_lt m
  have hlt : logical m < 2 ^ 3072 := by have := prime_lt; omega
  refine ⟨logical m, hl, logical_mul_den m hc, ?_, ?_, ?_, ?_⟩
  · rw [Serialize_eq m hm]
  · intro k
    rw [Serialize_eq m hm]
    rfl
  · rw [Serialize_eq m hm, bytesVal_bytesOfNat, Nat.mod_eq_of_lt hlt]
  · rw [Serialize_eq m hm, bytesToWordsLE_bytesOfNat]

/-- What `normalize` leaves. For every accumulator `(n, d)`, after `normalize` the
denominator is exactly the element one and the numerator is not overflowed
(`val(n') < p`); and `val(n') * val(d) ≡ val(n) (mod p)` when `val(d)` is invertible
modulo `p` (as every value that is nonzero modulo `p` is, if `p` is prime). -/
theorem normalize_of_invertible (m : MuHash) (hm : m.WF) :
    m.normalize.denominator = num3072.oneNum3072 ∧
      WF m.normalize.numerator ∧
      val m.normalize.numerator < prime ∧
      num3072.IsOverflow m.normalize.numerator = false ∧
      ((Nat.Coprime (val m.denominator) prime ∨
          (Nat.Prime prime ∧ val m.denominator % prime ≠ 0)) →
        (val m.normalize.numerator * val m.denominator) % prime
          = val m.numerator % prime) := by
  have hl := logical_lt m
  have hlt : logical m < 2 ^ 3072 := by have := prime_lt; omega
  have hv : val (ofNat (logical m)) = logical m := val_ofNat_lt _ hlt
  rw [normalize_eq m hm]
  refine ⟨rfl, WF_ofNat _, ?_, ?_, ?_⟩
  · show val (ofNat (logical m)) < prime
    rw [hv]; exact hl
  · show num3072.IsOverflow (ofNat (logical m)) = false
    have hiff := num_IsOverflow_iff (ofNat (logical m)) (WF_ofNat _)
    rw [hv] at hiff
    cases h : num3072.IsOverflow (ofNat (logical m)) with
    | false => rfl
    | true => exact absurd (hiff.mp h) (by omega)
  · intro hd
    show (val (ofNat (logical m)) * val m.denominator) % prime = _
    rw [hv]
    rcases hd with h | ⟨hp, hne⟩
    · exact logical_mul_den m h
    · exact logical_mul_den m (coprime_of_prime hp _ hne)

end muhash

namespace muhash

/-- C11: `IsOverflow` is exact. For every 48-limb value `a`, `IsOverflow(a)` is true if
and only if `val(a) ≥ p = 2^3072 - 1103717`, which holds if and only if limbs `1..47`
are all-ones and limb 0 is at least `2^64 - 1103717`; the `uint3072` and the `num3072`
versions agree on every input. -/
theorem C11_IsOverflow_exact (a : uint3072) (ha : WF a) :
    (uint3072.IsOverflow a = true ↔ prime ≤ val a) ∧
      (prime ≤ val a ↔
        (2 ^ 64 - 1103717 ≤ idx a 0 ∧ ∀ i, 1 ≤ i → i < limbs → idx a i = 2 ^ 64 - 1)) ∧
      num3072.IsOverflow a = uint3072.IsOverflow a :=
  ⟨IsOverflow_iff a ha, (IsOverflow_iff a ha).symm.trans (IsOverflow_limbs a), rfl⟩

/-- Witness for C11 at the bit pattern of `p`. -/
theorem C11_IsOverflow_exact_witness :
    WF (ofNat prime) ∧
      (uint3072.IsOverflow (ofNat prime) = true ↔ prime ≤ val (ofNat prime)) ∧
      (prime ≤ val (ofNat prime) ↔
        (2 ^ 64 - 1103717 ≤ idx (ofNat prime) 0 ∧
          ∀ i, 1 ≤ i → i < limbs → idx (ofNat prime) i = 2 ^ 64 - 1)) ∧
      num3072.IsOverflow (ofNat prime) = uint3072.IsOverflow (ofNat prime) :=
  ⟨WF_ofNat _, C11_IsOverflow_exact (ofNat prime) (WF_ofNat _)⟩

/-- C12: `FullReduce` subtracts `p` from an overflowed value. For every `a`, after
`a.FullReduce()` the value is `(val(a) + 1103717) mod 2^3072`; therefore for every `a`
with `IsOverflow(a)` the new value is `val(a) - p`, which is below `1103717` and not
overflowed. -/
theorem C12_FullReduce_subtracts_prime (a : uint3072) (ha : WF a) :
    WF (uint3072.FullReduce a) ∧
      val (uint3072.FullReduce a) = (val a + 1103717) % 2 ^ 3072 ∧
      (uint3072.IsOverflow a = true →
        val (uint3072.FullReduce a) = val a - prime ∧
          val (uint3072.FullReduce a) < 1103717 ∧
          uint3072.IsOverflow (uint3072.FullReduce a) = false) := by
  have hw := FullReduce_WF a ha
  have hv := FullReduce_val a ha
  have hlt := val_lt a ha
  refine ⟨hw, hv, ?_⟩
  intro ho
  have hge := (IsOverflow_iff a ha).mp ho
  have e : val (uint3072.FullReduce a) = val a - prime := by
    rw [hv]
    unfold prime primeDiff at *
    omega
  have hsmall : val (uint3072.FullReduce a) < 1103717 := by
    rw [e]
    unfold prime primeDiff at *
    omega
  refine ⟨e, hsmall, ?_⟩
  cases h : uint3072.IsOverflow (uint3072.FullReduce a) with
  | false => rfl
  | true =>
    have := (IsOverflow_iff _ hw).mp h
    unfold prime primeDiff at this
    omega

/-- Witness for C12 at the overflowed value `2^3072 - 1`. -/
theorem C12_FullReduce_subtracts_prime_witness :
    WF (ofNat (2 ^ 3072 - 1)) ∧ uint3072.IsOverflow (ofNat (2 ^ 3072 - 1)) = true ∧
      WF (uint3072.FullReduce (ofNat (2 ^ 3072 - 1))) ∧
      val (uint3072.FullReduce (ofNat (2 ^ 3072 - 1)))
        = (val (ofNat (2 ^ 3072 - 1)) + 1103717) % 2 ^ 3072 ∧
      (uint3072.IsOverflow (ofNat (2 ^ 3072 - 1)) = true →
        val (uint3072.FullReduce (ofNat (2 ^ 3072 - 1))) = val (ofNat (2 ^ 3072 - 1)) - prime ∧
          val (uint3072.FullReduce (ofNat (2 ^ 3072 - 1))) < 1103717 ∧
          uint3072.IsOverflow (uint3072.FullReduce (ofNat (2 ^ 3072 - 1))) = false) :=
  ⟨WF_ofNat _,
    (IsOverflow_iff _ (WF_ofNat _)).mpr (by
      rw [val_ofNat_lt _ (by norm_num)]
      unfold prime primeDiff
      norm_num),
    C12_FullReduce_subtracts_prime (ofNat (2 ^ 3072 - 1)) (WF_ofNat _)⟩

/-- C13: `Divide` computes `a * b^-1 mod p`. For every `a` and every `b` with `val(b)`
nonzero modulo `p` (`p` taken as prime; or, without that assumption, `val(b)` invertible
modulo `p`), `a.Divide(&b)` on `uint3072` passes every `assert`, its result is canonical
(`val(a') < p`) and `val(a') * val(b) ≡ val(a) (mod p)`, for overflowed and
non-overflowed operands alike. -/
theorem C13_Divide_is_quotient (a b : uint3072) (ha : WF a) (hb : WF b)
    (hc : Nat.Coprime (val b) prime ∨ (Nat.Prime prime ∧ val b % prime ≠ 0)) :
    ∃ r b1, uint3072.Divide a b = some (r, b1) ∧ WF r ∧ val r < prime ∧
      (val r * val b) % prime = val a % prime := by
  have hcop : Nat.Coprime (val b) prime := by
    rcases hc with h | ⟨hp, hne⟩
    · exact h
    · exact coprime_of_prime hp _ hne
  obtain ⟨r, hr, hw, hv⟩ := uDivide_spec a b ha hb
  refine ⟨r, _, hr, hw, ?_, ?_⟩
  · rw [hv]; exact Nat.mod_lt _ prime_pos
  · rw [hv]; exact quotient_mul _ _ hcop

/-- Witness for C13: the overflowed operands `2^3072 - 1` and `p + 1`. -/
theorem C13_Divide_is_quotient_witness :
    WF (ofNat (2 ^ 3072 - 1)) ∧ WF (ofNat (prime + 1)) ∧
      ∃ r b1, uint3072.Divide (ofNat (2 ^ 3072 - 1)) (ofNat (prime + 1)) = some (r, b1) ∧
        WF r ∧ val r < prime ∧
        (val r * val (ofNat (prime + 1))) % prime = val (ofNat (2 ^ 3072 - 1)) % prime :=
  ⟨WF_ofNat _, WF_ofNat _,
    C13_Divide_is_quotient (ofNat (2 ^ 3072 - 1)) (ofNat (prime + 1)) (WF_ofNat _) (WF_ofNat _)
      (Or.inl (by
        rw [val_ofNat_lt _ (by unfold prime primeDiff; norm_num)]
        exact coprime_succ_prime))⟩

/-- C14: `uint3072.GetInverse` raises to the literal exponent `p - 2`. For every 48-limb
value `a` it passes every `assert` and `val(GetInverse(a)) = val(a)^(p-2) mod p`: the
repunit powers followed by the fourteen `squareNmul` steps compose to the exponent
`2^3072 - 1103719`. -/
theorem C14_GetInverse_exponent (a : uint3072) (ha : WF a) :
    ∃ r, uint3072.GetInverse a = some r ∧ WF r ∧
      val r = val a ^ (2 ^ 3072 - 1103719) % prime ∧ 2 ^ 3072 - 1103719 = prime - 2 ∧
      inverseExponent = 2 ^ 3072 - 1103719 := by
  have e : 2 ^ 3072 - 1103719 = prime - 2 := by
    unfold prime primeDiff; norm_num
  obtain ⟨r, hr, hw, hv⟩ := uGetInverse_spec a ha
  refine ⟨r, hr, hw, ?_, e, ?_⟩
  · rw [e]; exact hv
  · rw [e]; exact inverseExponent_eq

/-- Witness for C14 at the overflowed value `2^3072 - 1`. -/
theorem C14_GetInverse_exponent_witness :
    WF (ofNat (2 ^ 3072 - 1)) ∧
      ∃ r, uint3072.GetInverse (ofNat (2 ^ 3072 - 1)) = some r ∧ WF r ∧
        val r = val (ofNat (2 ^ 3072 - 1)) ^ (2 ^ 3072 - 1103719) % prime ∧
        2 ^ 3072 - 1103719 = prime - 2 ∧ inverseExponent = 2 ^ 3072 - 1103719 :=
  ⟨WF_ofNat _, C14_GetInverse_exponent (ofNat (2 ^ 3072 - 1)) (WF_ofNat _)⟩

/-- C15: `Square` is interchangeable with `Mul(a, a)`. For every 48-limb value `a`,
`a.Square()` passes every `assert` and leaves exactly the limbs that `a.Mul(&c)` leaves
when `c` is a copy of `a`. -/
theorem C15_Square_is_Mul_self (a : uint3072) (ha : WF a) :
    ∃ r, uint3072.Square a = some r ∧ uint3072.Mul a a = some r := by
  obtain ⟨r, hr, _, _⟩ := Mul_spec a a ha ha
  exact ⟨r, by rw [Square_eq_Mul a ha, hr], hr⟩

/-- Witness for C15 at the overflowed value `2^3072 - 1`. -/
theorem C15_Square_is_Mul_self_witness :
    WF (ofNat (2 ^ 3072 - 1)) ∧
      ∃ r, uint3072.Square (ofNat (2 ^ 3072 - 1)) = some r ∧
        uint3072.Mul (ofNat (2 ^ 3072 - 1)) (ofNat (2 ^ 3072 - 1)) = some r :=
  ⟨WF_ofNat _, C15_Square_is_Mul_self (ofNat (2 ^ 3072 - 1)) (WF_ofNat _)⟩

end muhash

namespace muhash

/-- C16: double-inverse law. For any nonzero field element `a` (`0 < val(a) < p`, `p`
taken as prime; or, without that assumption, `val(a)^(p-1) ≡ 1 (mod p)`),
`GetInverse(GetInverse(a))` equals `a` limb for limb, for `uint3072.GetInverse` and for
`num3072.GetInverse` (`big.Int` `ModInverse`). -/
theorem C16_double_inverse (a : uint3072) (ha : WF a) (h0 : 0 < val a) (hlt : val a < prime)
    (hp : Nat.Prime prime ∨ val a ^ (prime - 1) % prime = 1) :
    (∃ r, uint3072.GetInverse a = some r ∧ uint3072.GetInverse r = some a) ∧
      (num3072.GetInverse (num3072.GetInverse a).2).2 = a := by
  have hmod : val a % prime = val a := Nat.mod_eq_of_lt hlt
  have hF : val a ^ (prime - 1) % prime = 1 := by
    rcases hp with h | h
    · exact fermat_nat prime (val a) h (by rw [hmod]; omega)
    · exact h
  have hcop : Nat.Coprime (val a) prime := coprime_of_pow prime (val a) prime_ge_three hF
  constructor
  · obtain ⟨r1, h1, w1, v1⟩ := uGetInverse_spec a ha
    obtain ⟨r2, h2, w2, v2⟩ := uGetInverse_spec r1 w1
    have e : r2 = a := by
      apply val_inj _ _ w2 ha
      rw [v2, v1, double_pow prime (val a) prime_ge_three hF, hmod]
    rw [e] at h2
    exact ⟨r1, h1, h2⟩
  · obtain ⟨_, _, w1, v1⟩ := GetInverse_spec a ha
    obtain ⟨_, _, w2, v2⟩ := GetInverse_spec (num3072.GetInverse a).2 w1
    apply val_inj _ _ w2 ha
    rw [v2, v1, invMod_invMod _ hcop, hmod]

/-- Witness for C16 at the limb pattern of `p - 1`. -/
theorem C16_double_inverse_witness :
    WF primeMinusOne ∧ 0 < val primeMinusOne ∧ val primeMinusOne < prime ∧
      (∃ r, uint3072.GetInverse primeMinusOne = some r ∧
        uint3072.GetInverse r = some primeMinusOne) ∧
      (num3072.GetInverse (num3072.GetInverse primeMinusOne).2).2 = primeMinusOne := by
  have hv := val_primeMinusOne
  have hp := prime_ge_three
  exact ⟨primeMinusOne_WF, by omega, by omega,
    C16_double_inverse primeMinusOne primeMinusOne_WF (by omega) (by omega)
      (Or.inr primeMinusOne_fermat)⟩

/-- C17: multiplicative identity law. With `a` the limb pattern of `p - 1` (limb 0 is
`2^64 - 1 - 1103717`, limbs `1..47` all-ones) and `c` a copy of `a`, `a.Mul(&c)` leaves
`a` equal to the element one (limb 0 is 1, all other limbs 0). -/
theorem C17_Mul_max :
    (∀ i : Fin limbs,
        primeMinusOne i = (if i.val = 0 then 2 ^ 64 - 1 - 1103717 else 2 ^ 64 - 1)) ∧
      (∀ i : Fin limbs, uint3072.one i = (if i.val = 0 then 1 else 0)) ∧
      val primeMinusOne = prime - 1 ∧
      uint3072.Mul primeMinusOne primeMinusOne = some uint3072.one := by
  refine ⟨fun _ => rfl, fun _ => rfl, val_primeMinusOne, ?_⟩
  rw [uMul_eq _ _ primeMinusOne_WF primeMinusOne_WF, val_primeMinusOne,
    pred_sq_mod prime (by have := prime_ge_three; omega), ofNat_one]

/-- C18 fails as stated: with the empty list and the overflowed start value
`2^3072 - 1` (no element of the list is zero modulo `p`, there being none) no `Mul` and
no `Divide` is executed, and what is left is `2^3072 - 1` itself, which is not the
canonical representative `1103716` of its class. -/
theorem C18_Mul_Divide_round_trip_counterexample :
    WF (ofNat (2 ^ 3072 - 1)) ∧ (∀ e ∈ ([] : List uint3072), WF e ∧ val e % prime ≠ 0) ∧
      (mulAll (ofNat (2 ^ 3072 - 1)) []).bind (fun x => divAll x [])
        = some (ofNat (2 ^ 3072 - 1)) ∧
      val (ofNat (2 ^ 3072 - 1)) = 2 ^ 3072 - 1 ∧
      val (ofNat (2 ^ 3072 - 1)) % prime = 1103716 ∧
      (mulAll (ofNat (2 ^ 3072 - 1)) []).bind (fun x => divAll x [])
        ≠ some (ofNat (val (ofNat (2 ^ 3072 - 1)) % prime)) := by
  have hv : val (ofNat (2 ^ 3072 - 1)) = 2 ^ 3072 - 1 := val_ofNat_lt _ (by norm_num)
  have hm : val (ofNat (2 ^ 3072 - 1)) % prime = 1103716 := by
    rw [hv]
    unfold prime primeDiff
    norm_num
  have hrun : (mulAll (ofNat (2 ^ 3072 - 1)) []).bind (fun x => divAll x [])
      = some (ofNat (2 ^ 3072 - 1)) := rfl
  refine ⟨WF_ofNat _, fun e he => absurd he (List.not_mem_nil e), hrun, hv, hm, ?_⟩
  rw [hrun, hm]
  intro h
  have h2 := congrArg val (Option.some.inj h)
  rw [hv, val_ofNat_lt _ (by norm_num)] at h2
  norm_num at h2

/-- C18 (amended): multiply-then-divide round trip. For every start value `s` and every
nonempty list `e1..en` of 48-limb values each nonzero modulo `p` (`p` taken as prime; or,
without that assumption, each invertible modulo `p`), applying `Mul` by `e1..en` to `s`
and then `Divide` by `e1..en` passes every `assert` and leaves exactly the canonical
representative of `s` (`val(s) mod p`); with the empty list `s` is left as it is, which is
its canonical representative when `val(s) < p`; starting from `one()` the result is
`one()`, for the empty list too. -/
theorem C18_Mul_Divide_round_trip (s : uint3072) (es : List uint3072) (hs : WF s)
    (hes : ∀ e ∈ es, WF e)
    (hc : (∀ e ∈ es, Nat.Coprime (val e) prime) ∨
      (Nat.Prime prime ∧ ∀ e ∈ es, val e % prime ≠ 0))
    (hne : es ≠ [] ∨ val s < prime) :
    (mulAll s es).bind (fun x => divAll x es) = some (ofNat (val s % prime)) ∧
      val (ofNat (val s % prime)) = val s % prime ∧
      (mulAll uint3072.one es).bind (fun x => divAll x es) = some uint3072.one := by
  have hcop : ∀ e ∈ es, Nat.Coprime (val e) prime := by
    rcases hc with h | ⟨hp, hne⟩
    · exact h
    · exact fun e he => coprime_of_prime hp _ (hne e he)
  have hplt := prime_lt
  have hmod : val s % prime < prime := Nat.mod_lt _ prime_pos
  refine ⟨mulDiv_spec s es hs hes hcop hne, val_ofNat_lt _ (by omega), ?_⟩
  have h1 := mulDiv_spec uint3072.one es uone_WF hes hcop
    (Or.inr (by rw [val_uone]; exact prime_gt_one))
  rw [val_uone, Nat.mod_eq_of_lt prime_gt_one, ofNat_one] at h1
  exact h1

/-- Witness for C18: the overflowed start `2^3072 - 1` and the list `p + 1`, `p - 1`. -/
theorem C18_Mul_Divide_round_trip_witness :
    WF (ofNat (2 ^ 3072 - 1)) ∧ (∀ e ∈ [ofNat (prime + 1), primeMinusOne], WF e) ∧
      (∀ e ∈ [ofNat (prime + 1), primeMinusOne], Nat.Coprime (val e) prime) ∧
      (mulAll (ofNat (2 ^ 3072 - 1)) [ofNat (prime + 1), primeMinusOne]).bind
          (fun x => divAll x [ofNat (prime + 1), primeMinusOne])
        = some (ofNat (val (ofNat (2 ^ 3072 - 1)) % prime)) ∧
      val (ofNat (val (ofNat (2 ^ 3072 - 1)) % prime)) = val (ofNat (2 ^ 3072 - 1)) % prime ∧
      (mulAll uint3072.one [ofNat (prime + 1), primeMinusOne]).bind
          (fun x => divAll x [ofNat (prime + 1), primeMinusOne])
        = some uint3072.one := by
  have hw : ∀ e ∈ [ofNat (prime + 1), primeMinusOne], WF e := by
    intro e he
    rw [List.mem_cons, List.mem_singleton] at he
    rcases he with rfl | rfl
    · exact WF_ofNat _
    · exact primeMinusOne_WF
  have hc : ∀ e ∈ [ofNat (prime + 1), primeMinusOne], Nat.Coprime (val e) prime := by
    intro e he
    rw [List.mem_cons, List.mem_singleton] at he
    rcases he with rfl | rfl
    · rw [val_ofNat_lt _ (by unfold prime primeDiff; norm_num)]
      exact coprime_succ_prime
    · exact coprime_of_pow prime _ prime_ge_three primeMinusOne_fermat
  exact ⟨WF_ofNat _, hw, hc,
    C18_Mul_Divide_round_trip (ofNat (2 ^ 3072 - 1)) [ofNat (prime + 1), primeMinusOne]
      (WF_ofNat _) hw (Or.inl hc) (Or.inl (by simp))⟩

end muhash

namespace muhash

/-- C19: dividing by one canonicalises. For every `i` with `1 ≤ i ≤ 1103717`, if `a` is
the 48-limb value `2^3072 - i` then `a.Divide(&one)` leaves `a` equal to the single-word
value `1103717 - i` (limb 0 is `1103717 - i`, limbs `1..47` are zero); and when
`i ≠ 1103717`, dividing `a` by a copy of itself leaves the element one (the modulus has
no prime factor below `1103717`, so `1103717 - i` is invertible). -/
theorem C19_Divide_overflown (i : Nat) (h1 : 1 ≤ i) (h2 : i ≤ 1103717) (a : uint3072)
    (ha : WF a) (hv : val a = 2 ^ 3072 - i) :
    uint3072.Divide a uint3072.one = some (singleWord (1103717 - i), uint3072.one) ∧
      (∀ k : Fin limbs, singleWord (1103717 - i) k = (if k.val = 0 then 1103717 - i else 0)) ∧
      (i ≠ 1103717 →
        uint3072.Divide a a = some (uint3072.one, singleWord (1103717 - i))) := by
  have hmod : val a % prime = 1103717 - i := overflown_mod i (val a) h1 h2 hv
  have hplt := prime_lt
  have hsmall : 1103717 - i < 2 ^ 64 := by omega
  have hred : (if uint3072.IsOverflow a then uint3072.FullReduce a else a)
      = singleWord (1103717 - i) := by
    obtain ⟨w, v⟩ := ureduce_spec a ha
    exact eq_singleWord _ _ w hsmall (by rw [v, hmod])
  refine ⟨?_, fun _ => rfl, ?_⟩
  · rw [uDivide_one a ha, hmod, ofNat_small _ hsmall]
  · intro hne
    have hcw : Nat.Coprime (1103717 - i) prime := coprime_small _ (by omega) (by omega)
    have hcop : Nat.Coprime (val a) prime := coprime_of_mod _ _ hmod hcw
    rw [uDivide_eq a a ha ha, invMod_coprime _ hcop, ofNat_one, hred]

/-- Witness for C19: `i = 1000`, the value `2^3072 - 1000`, which reduces to 1102717. -/
theorem C19_Divide_overflown_witness :
    1 ≤ 1000 ∧ 1000 ≤ 1103717 ∧ WF (ofNat (2 ^ 3072 - 1000)) ∧
      val (ofNat (2 ^ 3072 - 1000)) = 2 ^ 3072 - 1000 ∧
      uint3072.Divide (ofNat (2 ^ 3072 - 1000)) uint3072.one
        = some (singleWord (1103717 - 1000), uint3072.one) ∧
      (∀ k : Fin limbs,
        singleWord (1103717 - 1000) k = (if k.val = 0 then 1103717 - 1000 else 0)) ∧
      (1000 ≠ 1103717 →
        uint3072.Divide (ofNat (2 ^ 3072 - 1000)) (ofNat (2 ^ 3072 - 1000))
          = some (uint3072.one, singleWord (1103717 - 1000))) :=
  ⟨by decide, by decide, WF_ofNat _, val_ofNat_lt _ (by norm_num),
    C19_Divide_overflown 1000 (by decide) (by decide) (ofNat (2 ^ 3072 - 1000))
      (WF_ofNat _) (val_ofNat_lt _ (by norm_num))⟩

/-- C20: the element one is the multiplicative identity. For every field element `a`
with `val(a) < p`, `a.Mul(&one)` leaves `a` unchanged limb for limb and `a.Divide(&one)`
leaves `a` unchanged limb for limb, where `one` is the value produced by `SetToOne` and
`one()`. -/
theorem C20_one_is_identity (a : uint3072) (ha : WF a) (hlt : val a < prime) :
    uint3072.Mul a uint3072.one = some a ∧
      uint3072.Divide a uint3072.one = some (a, uint3072.one) := by
  have hmod : val a % prime = val a := Nat.mod_eq_of_lt hlt
  constructor
  · rw [uMul_eq a _ ha uone_WF, val_uone, Nat.mul_one, hmod, ofNat_val a ha]
  · rw [uDivide_one a ha, hmod, ofNat_val a ha]

/-- Witness for C20 at the largest field element `p - 1`. -/
theorem C20_one_is_identity_witness :
    WF primeMinusOne ∧ val primeMinusOne < prime ∧
      uint3072.Mul primeMinusOne uint3072.one = some primeMinusOne ∧
      uint3072.Divide primeMinusOne uint3072.one = some (primeMinusOne, uint3072.one) := by
  have hv := val_primeMinusOne
  have hp := prime_ge_three
  exact ⟨primeMinusOne_WF, by omega,
    C20_one_is_identity primeMinusOne primeMinusOne_WF (by omega)⟩

end muhash

namespace muhash

/-- C21: zero annihilates. For every accumulator state `m`, after `addElement` of the
all-zero field element `Serialize` returns 384 zero bytes, `DeserializeMuHash` of those
bytes succeeds with the same normalized numerator, and the serialization stays all-zero
after any further `Add`, `Remove` or `Combine` calls (made after the `Serialize` call or
without it). -/
theorem C21_zero_annihilates (P : Primitives) (m : MuHash) (hm : m.WF) (calls : List Call)
    (hc : ∀ c ∈ calls, c.WF) :
    (m.addElement (fun _ => 0)).Serialize.2 = (fun _ => 0) ∧
      (∃ d, DeserializeMuHash (m.addElement (fun _ => 0)).Serialize.2 = Except.ok d ∧
        d.normalize.numerator = (m.addElement (fun _ => 0)).normalize.numerator ∧
        d.numerator = (m.addElement (fun _ => 0)).Serialize.1.numerator) ∧
      ((m.addElement (fun _ => 0)).run P calls).Serialize.2 = (fun _ => 0) ∧
      ((m.addElement (fun _ => 0)).Serialize.1.run P calls).Serialize.2 = (fun _ => 0) := by
  have hz : (m.addElement (fun _ => 0)).WF := addElement_WF m _ hm zero_WF
  have hnum := addElement_zero_num m hm
  have hser := Serialize_num_zero _ hz hnum
  have hw0 : (MuHash.mk (fun _ => 0) num3072.oneNum3072).WF := ⟨zero_WF, one_WF⟩
  have hn0 : val (MuHash.mk (fun _ => 0) num3072.oneNum3072).numerator % prime = 0 := by
    simp only
    rw [val_zero, Nat.zero_mod]
  refine ⟨by rw [hser], ?_, ?_, ?_⟩
  · refine ⟨MuHash.mk (fun _ => 0) num3072.oneNum3072, ?_, ?_, ?_⟩
    · rw [hser]
      exact Deserialize_zero
    · rw [normalize_eq _ hw0, normalize_eq _ hz, logical_num_zero _ hn0,
        logical_num_zero _ hnum]
    · rw [hser]
  · exact congrArg Prod.snd (Serialize_num_zero _ (run_WF P calls _ hz hc)
      (run_num_zero P calls hc _ hz hnum))
  · rw [hser]
    exact congrArg Prod.snd (Serialize_num_zero _ (run_WF P calls _ hw0 hc)
      (run_num_zero P calls hc _ hw0 hn0))

/-- Witness for C21: an accumulator with overflowed halves (the denominator is zero
modulo `p`) and one further call of each kind. -/
theorem C21_zero_annihilates_witness :
    (MuHash.mk (ofNat (2 ^ 3072 - 1)) (ofNat prime)).WF ∧
      (∀ c ∈ [Call.add [1], Call.remove [2], Call.combine NewMuHash], c.WF) ∧
      ((MuHash.mk (ofNat (2 ^ 3072 - 1)) (ofNat prime)).addElement (fun _ => 0)).Serialize.2
        = (fun _ => 0) ∧
      (∃ d, DeserializeMuHash
          ((MuHash.mk (ofNat (2 ^ 3072 - 1)) (ofNat prime)).addElement (fun _ => 0)).Serialize.2
            = Except.ok d ∧
        d.normalize.numerator
          = ((MuHash.mk (ofNat (2 ^ 3072 - 1)) (ofNat prime)).addElement
              (fun _ => 0)).normalize.numerator ∧
        d.numerator
          = ((MuHash.mk (ofNat (2 ^ 3072 - 1)) (ofNat prime)).addElement
              (fun _ => 0)).Serialize.1.numerator) ∧
      (((MuHash.mk (ofNat (2 ^ 3072 - 1)) (ofNat prime)).addElement (fun _ => 0)).run twoStream
          [Call.add [1], Call.remove [2], Call.combine NewMuHash]).Serialize.2 = (fun _ => 0) ∧
      (((MuHash.mk (ofNat (2 ^ 3072 - 1)) (ofNat prime)).addElement
          (fun _ => 0)).Serialize.1.run twoStream
          [Call.add [1], Call.remove [2], Call.combine NewMuHash]).Serialize.2
        = (fun _ => 0) := by
  have hc : ∀ c ∈ [Call.add [1], Call.remove [2], Call.combine NewMuHash], c.WF := by
    intro c h
    simp only [List.mem_cons, List.mem_singleton, List.not_mem_nil, or_false] at h
    rcases h with rfl | rfl | rfl
    · exact True.intro
    · exact True.intro
    · exact NewMuHash_WF
  exact ⟨⟨WF_ofNat _, WF_ofNat _⟩, hc,
    C21_zero_annihilates twoStream _ ⟨WF_ofNat _, WF_ofNat _⟩ _ hc⟩

/-- Cancellation across two accumulators, for an invertible encoding. For every element
`X` whose encoding is invertible modulo `p` (as every encoding that is nonzero modulo `p`
is, if `p` is prime), if `A` is `NewMuHash()` after `Add(X)` and `B` is `NewMuHash()`
after `Remove(X)`, then after `A.Combine(B)` the `Serialize` bytes and the `Finalize`
digest of `A` equal those of a fresh `NewMuHash()`. -/
theorem cross_cancellation_of_invertible (P : Primitives) (x : List UInt8)
    (hx : Nat.Coprime (val (dataToElement P x)) prime ∨
      (Nat.Prime prime ∧ val (dataToElement P x) % prime ≠ 0)) :
    ((NewMuHash.Add P x).Combine (NewMuHash.Remove P x)).Serialize.2
        = NewMuHash.Serialize.2 ∧
      (((NewMuHash.Add P x).Combine (NewMuHash.Remove P x)).Finalize P).2
        = (NewMuHash.Finalize P).2 := by
  have he := dataToElement_WF P x
  have hA : (NewMuHash.Add P x).WF := addElement_WF _ _ NewMuHash_WF he
  have hB : (NewMuHash.Remove P x).WF := removeElement_WF _ _ NewMuHash_WF he
  have h1 : logical ((NewMuHash.Add P x).Combine (NewMuHash.replay P [Update.remove x]))
      = logical ((NewMuHash.Add P x).replay P [Update.remove x]) :=
    logical_combine_replay P _ hA _
  have h2 : logical ((NewMuHash.Add P x).Remove P x) = logical NewMuHash := by
    apply logical_add_remove P NewMuHash NewMuHash_WF x
    rcases hx with h | h
    · refine Or.inl ⟨h, ?_⟩
      show Nat.Coprime (val num3072.oneNum3072) prime
      rw [val_one]
      exact Nat.coprime_one_left _
    · exact Or.inr h
  exact Serialize_congr P _ _ (Combine_WF _ _ hA hB) NewMuHash_WF (h1.trans h2)

/-- C23: `Reset` restores the empty state. For every accumulator state `m`, after
`Reset()` the numerator and the denominator are both exactly the element one (limb 0 is
1, all other limbs 0), so the accumulator is field for field equal to `NewMuHash()` and
has the same `Serialize` bytes and `Finalize` digest. -/
theorem C23_Reset_restores_empty (m : MuHash) :
    m.Reset.numerator = num3072.oneNum3072 ∧ m.Reset.denominator = num3072.oneNum3072 ∧
      (∀ i : Fin limbs, m.Reset.numerator i = (if i.val = 0 then 1 else 0) ∧
        m.Reset.denominator i = (if i.val = 0 then 1 else 0)) ∧
      m.Reset = NewMuHash ∧ m.Reset.Serialize.2 = NewMuHash.Serialize.2 ∧
      ∀ P : Primitives, (m.Reset.Finalize P).2 = (NewMuHash.Finalize P).2 := by
  have e : m.Reset = NewMuHash := rfl
  refine ⟨rfl, rfl, fun _ => ⟨rfl, rfl⟩, e, ?_, ?_⟩
  · rw [e]
  · intro P
    rw [e]

end muhash

namespace muhash

/-- C24: `Clone` is an independent copy. For every accumulator `m` (the cell `p` of a
heap), `m.Clone()` returns a new cell with the same numerator and denominator limbs as
`m`, and every list of `Add`, `Remove`, `Combine`, `Reset`, `Serialize` or `Finalize`
calls on the clone returns and leaves the numerator and denominator of `m` (and every
other cell) unchanged, and vice versa. -/
theorem C24_Clone_independent (P : Primitives) (s : Store) (p : Nat) (m : MuHash)
    (ms : List Method) (hp : s.get? p = some m)
    (hms : ∀ q, Method.Combine q ∈ ms → q ≤ s.length) :
    ∃ s1 c, Store.Clone s p = some (s1, c) ∧ c ≠ p ∧
      s1.get? c = some m ∧ s1.get? p = some m ∧
      (∃ s2, Store.invokeAll P s1 c ms = some s2 ∧ s2.get? p = some m ∧
        ∀ r, r ≠ c → s2.get? r = s1.get? r) ∧
      (∃ s2, Store.invokeAll P s1 p ms = some s2 ∧ s2.get? c = some m ∧
        ∀ r, r ≠ p → s2.get? r = s1.get? r) := by
  have hlt : p < s.length := by
    by_contra hge
    rw [List.get?_eq_none.mpr (by omega)] at hp
    exact absurd hp (by simp)
  have hlen : (s ++ [m]).length = s.length + 1 := by
    rw [List.length_append, List.length_singleton]
  have hc1 : (s ++ [m]).get? s.length = some m := by
    rw [List.get?_eq_getElem?, List.getElem?_append_right (le_refl _), Nat.sub_self]
    rfl
  have hp1 : (s ++ [m]).get? p = some m := by
    rw [List.get?_eq_getElem?, List.getElem?_append_left hlt, ← List.get?_eq_getElem?]
    exact hp
  have hms1 : ∀ q, Method.Combine q ∈ ms → q < (s ++ [m]).length := by
    intro q hq
    have := hms q hq
    omega
  refine ⟨s ++ [m], s.length, ?_, by omega, hc1, hp1, ?_, ?_⟩
  · unfold Store.Clone
    rw [hp, Option.map_some']
    rfl
  · obtain ⟨s2, h2, _, hf⟩ := invokeAll_frame P s.length ms (s ++ [m]) (by omega) hms1
    exact ⟨s2, h2, (hf p (by omega)).trans hp1, hf⟩
  · obtain ⟨s2, h2, _, hf⟩ := invokeAll_frame P p ms (s ++ [m]) (by omega) hms1
    exact ⟨s2, h2, (hf s.length (by omega)).trans hc1, hf⟩

/-- Witness for C24: a heap of two accumulators, the second one cloned, and a list with
every method, `Combine` with the original, with the clone itself and with a third
accumulator. -/
theorem C24_Clone_independent_witness :
    [NewMuHash, MuHash.mk (ofNat 5) (ofNat 7)].get? 1 = some (MuHash.mk (ofNat 5) (ofNat 7)) ∧
      ∃ s1 c, Store.Clone [NewMuHash, MuHash.mk (ofNat 5) (ofNat 7)] 1 = some (s1, c) ∧
        c ≠ 1 ∧ s1.get? c = some (MuHash.mk (ofNat 5) (ofNat 7)) ∧
        s1.get? 1 = some (MuHash.mk (ofNat 5) (ofNat 7)) ∧
        (∃ s2, Store.invokeAll twoStream s1 c
            [Method.Add [1], Method.Combine 1, Method.Combine 2, Method.Remove [2],
              Method.Serialize, Method.Combine 0, Method.Reset, Method.Finalize] = some s2 ∧
          s2.get? 1 = some (MuHash.mk (ofNat 5) (ofNat 7)) ∧
          ∀ r, r ≠ c → s2.get? r = s1.get? r) ∧
        (∃ s2, Store.invokeAll twoStream s1 1
            [Method.Add [1], Method.Combine 1, Method.Combine 2, Method.Remove [2],
              Method.Serialize, Method.Combine 0, Method.Reset, Method.Finalize] = some s2 ∧
          s2.get? c = some (MuHash.mk (ofNat 5) (ofNat 7)) ∧
          ∀ r, r ≠ 1 → s2.get? r = s1.get? r) :=
  ⟨rfl, C24_Clone_independent twoStream [NewMuHash, MuHash.mk (ofNat 5) (ofNat 7)] 1
    (MuHash.mk (ofNat 5) (ofNat 7)) _ rfl (by
      intro q hq
      simp only [List.mem_cons, Method.Combine.injEq, List.mem_singleton, List.not_mem_nil,
        reduceCtorEq, false_or, or_false] at hq
      show q ≤ 2
      omega)⟩

/-- C25 fails as stated: on the empty accumulator after `Remove` of an element that
encodes to the field element 2 (through the key stream, and directly through
`removeElement`), `Serialize` and `Finalize` leave the element one in the stored
denominator, which held the value 2 before the call. -/
theorem C25_Serialize_read_only_counterexample :
    (NewMuHash.Remove twoStream [1]).Serialize.1.denominator
        ≠ (NewMuHash.Remove twoStream [1]).denominator ∧
      ((NewMuHash.Remove twoStream [1]).Finalize twoStream).1.denominator
        ≠ (NewMuHash.Remove twoStream [1]).denominator ∧
      (NewMuHash.removeElement (ofNat 2)).Serialize.1.denominator
        ≠ (NewMuHash.removeElement (ofNat 2)).denominator := by
  have key : ∀ e : num3072, WF e → val e = 2 →
      (NewMuHash.removeElement e).Serialize.1.denominator
          ≠ (NewMuHash.removeElement e).denominator ∧
        ∀ P : Primitives, ((NewMuHash.removeElement e).Finalize P).1.denominator
          ≠ (NewMuHash.removeElement e).denominator := by
    intro e he hv
    have hw : (NewMuHash.removeElement e).WF := removeElement_WF _ _ NewMuHash_WF he
    have hden : (NewMuHash.removeElement e).denominator
        = num3072.Mul num3072.oneNum3072 e := by
      simp only [MuHash.removeElement, NewMuHash]
    have h2 : val (NewMuHash.removeElement e).denominator = 2 := by
      rw [hden, num_Mul_val _ _ one_WF he, hv, val_one, Nat.one_mul]
      exact Nat.mod_eq_of_lt (by have := prime_ge_three; omega)
    have hne : num3072.oneNum3072 ≠ (NewMuHash.removeElement e).denominator := by
      intro h
      have h3 := congrArg val h
      rw [val_one, h2] at h3
      omega
    constructor
    · rw [Serialize_fst _ hw]
      exact hne
    · intro P
      rw [Finalize_fst P _ hw]
      exact hne
  have h1 := key _ (dataToElement_WF twoStream [1]) (dataToElement_twoStream [1])
  have h2 := key (ofNat 2) (WF_ofNat _) (val_ofNat_lt _ (by norm_num))
  exact ⟨h1.1, h1.2 twoStream, h2.1⟩

/-- C25 (amended): `Serialize` and `Finalize` normalize the accumulator in place. For
every accumulator `m`, after `m.Serialize()` or `m.Finalize()` the stored denominator is
the element one and the stored numerator is the canonical value that was written out, so
the stored limbs are the same as before the call exactly when `m` was normalized already
(denominator one, numerator below `p`); the `Serialize` bytes and the `Finalize` digest
of `m` after the call are those returned by the call. -/
theorem C25_Serialize_normalizes_in_place (P : Primitives) (m : MuHash) (hm : m.WF) :
    m.Serialize.1 = m.normalize ∧ (m.Finalize P).1 = m.normalize ∧
      m.normalize.denominator = num3072.oneNum3072 ∧
      m.normalize.numerator = bytesToWordsLE m.Serialize.2 ∧
      val m.normalize.numerator < prime ∧
      (m.normalize = m ↔ (m.denominator = num3072.oneNum3072 ∧ val m.numerator < prime)) ∧
      m.Serialize.1.Serialize.2 = m.Serialize.2 ∧
      ((m.Finalize P).1.Finalize P).2 = (m.Finalize P).2 := by
  have hs := Serialize_fst m hm
  have hf := Finalize_fst P m hm
  have hn := normalize_eq m hm
  have hc := Serialize_congr P _ m (normalized_WF m) hm (logical_normalized m)
  refine ⟨hs.trans hn.symm, hf.trans hn.symm, ?_, ?_, ?_, ?_, ?_, ?_⟩
  · rw [hn]
  · rw [hn, Serialize_eq m hm, bytesToWordsLE_bytesOfNat]
  · rw [hn]
    simp only
    rw [val_ofNat_logical]
    exact logical_lt m
  · rw [hn]
    exact normalized_iff m hm
  · rw [hs]
    exact hc.1
  · rw [hf]
    exact hc.2

/-- Witness for C25: numerator `2^3072 - 1` over the overflowed denominator `p + 1`. -/
theorem C25_Serialize_normalizes_in_place_witness :
    (MuHash.mk (ofNat (2 ^ 3072 - 1)) (ofNat (prime + 1))).WF ∧
      ((MuHash.mk (ofNat (2 ^ 3072 - 1)) (ofNat (prime + 1))).Serialize.1
          = (MuHash.mk (ofNat (2 ^ 3072 - 1)) (ofNat (prime + 1))).normalize ∧
        ((MuHash.mk (ofNat (2 ^ 3072 - 1)) (ofNat (prime + 1))).Finalize twoStream).1
          = (MuHash.mk (ofNat (2 ^ 3072 - 1)) (ofNat (prime + 1))).normalize ∧
        (MuHash.mk (ofNat (2 ^ 3072 - 1)) (ofNat (prime + 1))).normalize.denominator
          = num3072.oneNum3072 ∧
        (MuHash.mk (ofNat (2 ^ 3072 - 1)) (ofNat (prime + 1))).normalize.numerator
          = bytesToWordsLE (MuHash.mk (ofNat (2 ^ 3072 - 1)) (ofNat (prime + 1))).Serialize.2 ∧
        val (MuHash.mk (ofNat (2 ^ 3072 - 1)) (ofNat (prime + 1))).normalize.numerator
          < prime ∧
        ((MuHash.mk (ofNat (2 ^ 3072 - 1)) (ofNat (prime + 1))).normalize
            = MuHash.mk (ofNat (2 ^ 3072 - 1)) (ofNat (prime + 1)) ↔
          ((MuHash.mk (ofNat (2 ^ 3072 - 1)) (ofNat (prime + 1))).denominator
              = num3072.oneNum3072 ∧
            val (MuHash.mk (ofNat (2 ^ 3072 - 1)) (ofNat (prime + 1))).numerator < prime)) ∧
        (MuHash.mk (ofNat (2 ^ 3072 - 1)) (ofNat (prime + 1))).Serialize.1.Serialize.2
          = (MuHash.mk (ofNat (2 ^ 3072 - 1)) (ofNat (prime + 1))).Serialize.2 ∧
        (((MuHash.mk (ofNat (2 ^ 3072 - 1)) (ofNat (prime + 1))).Finalize twoStream).1.Finalize
            twoStream).2
          = ((MuHash.mk (ofNat (2 ^ 3072 - 1)) (ofNat (prime + 1))).Finalize twoStream).2) :=
  ⟨⟨WF_ofNat _, WF_ofNat _⟩,
    C25_Serialize_normalizes_in_place twoStream _ ⟨WF_ofNat _, WF_ofNat _⟩⟩

end muhash

namespace muhash

/-- Histories with `Serialize` and `Finalize` calls in between. For every accumulator
`m` and every list of `Add`/`Remove`/`Combine` calls with `Serialize` and `Finalize`
calls before them or at any point in between, the final `Serialize` bytes and `Finalize`
digest are those of the same calls without the `Serialize` and `Finalize` calls, when
every factor of a denominator is invertible or zero modulo `p` (as every value is, if
`p` is prime). -/
theorem steps_Serialize_congr (P : Primitives) (m : MuHash) (hm : m.WF)
    (l : List Step) (hc : ∀ c ∈ Step.calls l, c.WF)
    (hu : Nat.Prime prime ∨
      (unitOrZero (val m.denominator) ∧ ∀ c ∈ Step.calls l, c.unitOrZero P)) :
    (m.steps P l).Serialize.2 = (m.run P (Step.calls l)).Serialize.2 ∧
      ((m.steps P l).Finalize P).2 = ((m.run P (Step.calls l)).Finalize P).2 := by
  have hu2 : unitOrZero (val m.denominator) ∧ ∀ c ∈ Step.calls l, c.unitOrZero P := by
    rcases hu with hp | h
    · refine ⟨unitOrZero_of_prime hp _, ?_⟩
      intro c _
      cases c with
      | add data => exact True.intro
      | remove data => exact unitOrZero_of_prime hp _
      | combine other => exact unitOrZero_of_prime hp _
    · exact h
  obtain ⟨h1, h2, h3⟩ := steps_logical P l hc hu2.2 m m hm hm hu2.1 hu2.1 rfl
  exact Serialize_congr P _ _ h1 h2 h3

/-- C27: empty-set constant. `NewMuHash().Finalize()` is the keyed hash (key
`MuHashFinalize`) of the 384-byte little-endian encoding of 1 (byte 0 is 1, all other
bytes 0), whatever the hash is; with BLAKE2b-256 as the keyed hash it equals the constant
`EmptyMuHashHash` (54 4e b3 14 ... ca c0). -/
theorem C27_empty_set_constant :
    (∀ P : Primitives,
        (NewMuHash.Finalize P).2
          = P.blake2b256 "MuHashFinalize" (List.ofFn (bytesOfNat 1))) ∧
      (∀ k : Fin elementByteSize, bytesOfNat 1 k = if k.val = 0 then 1 else 0) ∧
      blake2b.New256 "MuHashFinalize" (List.ofFn (bytesOfNat 1)) = EmptyMuHashHash ∧
      (∀ stream : Hash → SerializedMuHash,
        (NewMuHash.Finalize (blakePrimitives stream)).2 = EmptyMuHashHash) ∧
      List.ofFn EmptyMuHashHash
        = [0x54, 0x4e, 0xb3, 0x14, 0x2c, 0x0, 0xf, 0xa, 0xd2, 0xc7, 0x6a, 0xc4, 0x1f, 0x42,
           0x22, 0xab, 0xba, 0xba, 0xbe, 0xd8, 0x30, 0xee, 0xaf, 0xee, 0x4b, 0x6d, 0xc5, 0x6b,
           0x52, 0xd5, 0xca, 0xc0] := by
  refine ⟨Finalize_NewMuHash, bytesOfNat_one_apply, New256_one, ?_, by decide⟩
  intro stream
  rw [Finalize_NewMuHash]
  exact New256_one

/-- C28: `Hash.SetBytes` fails exactly on a length mismatch and is atomic. For every hash
and every byte slice `b`, `SetBytes(b)` returns an error if and only if
`len(b) != 32`; on error the hash is left unchanged; on success the 32 bytes of the hash
are those of `b`. -/
theorem C28_SetBytes (hash : Hash) (b : List UInt8) :
    ((Hash.SetBytes hash b).2 ≠ none ↔ b.length ≠ 32) ∧
      ((Hash.SetBytes hash b).2 ≠ none → (Hash.SetBytes hash b).1 = hash) ∧
      ((Hash.SetBytes hash b).2 = none →
        List.ofFn (Hash.SetBytes hash b).1 = b ∧
          ∀ i : Fin HashSize, (Hash.SetBytes hash b).1 i = b.getD i.val 0) := by
  by_cases h : b.length = HashSize
  · obtain ⟨h1, h2, h3⟩ := SetBytes_ok hash b h
    refine ⟨?_, ?_, fun _ => ⟨h2, h3⟩⟩
    · rw [h1]
      exact ⟨fun hne => absurd rfl hne, fun hne => absurd h hne⟩
    · intro hne
      exact absurd h1 hne
  · obtain ⟨h1, h2⟩ := SetBytes_error hash b h
    exact ⟨⟨fun _ => h, fun _ => h2⟩, fun _ => h1, fun hn => absurd hn h2⟩

end muhash

namespace muhash

/-- C29: `GetInverse` handles overflowed representations. For every 48-limb value `a`,
including `a` in `[p, 2^3072)`, the result of `GetInverse(a)` is not overflowed
(`val < p`) and equals `GetInverse` applied to the canonical reduction of `a` (the value
`val(a) - p` when `a` is overflowed), for `uint3072.GetInverse`, which passes every
`assert`, and for `num3072.GetInverse`. -/
theorem C29_GetInverse_overflowed (a : uint3072) (ha : WF a) :
    (∃ r, uint3072.GetInverse a = some r ∧ WF r ∧ val r < prime ∧
        uint3072.IsOverflow r = false ∧
        uint3072.GetInverse (if uint3072.IsOverflow a then uint3072.FullReduce a else a)
          = some r) ∧
      (WF (num3072.GetInverse a).2 ∧ val (num3072.GetInverse a).2 < prime ∧
        num3072.IsOverflow (num3072.GetInverse a).2 = false ∧
        (num3072.GetInverse (if num3072.IsOverflow a then num3072.FullReduce a else a)).2
          = (num3072.GetInverse a).2) ∧
      val (if uint3072.IsOverflow a then uint3072.FullReduce a else a) = val a % prime ∧
      (uint3072.IsOverflow a = true →
        val (uint3072.FullReduce a) = val a - prime ∧ val a - prime < prime) := by
  obtain ⟨u1, u2⟩ := ureduce_spec a ha
  obtain ⟨n1, n2⟩ := reduce_spec a ha
  refine ⟨?_, ?_, u2, ?_⟩
  · obtain ⟨r, hr, hw, hv⟩ := uGetInverse_spec a ha
    have hlt : val r < prime := by rw [hv]; exact Nat.mod_lt _ prime_pos
    refine ⟨r, hr, hw, hlt, not_overflow_of_lt r hw hlt, ?_⟩
    rw [← hr]
    exact uGetInverse_congr _ _ u1 ha (by rw [u2, Nat.mod_mod])
  · obtain ⟨_, _, hw, hv⟩ := GetInverse_spec a ha
    have hlt : val (num3072.GetInverse a).2 < prime := by rw [hv]; exact invMod_lt _
    refine ⟨hw, hlt, ?_, ?_⟩
    · rw [num_IsOverflow_eq]
      exact not_overflow_of_lt _ hw hlt
    · exact nGetInverse_congr _ _ n1 ha (by rw [n2, Nat.mod_mod])
  · intro ho
    have hge := (IsOverflow_iff a ha).mp ho
    have hlt := val_lt a ha
    have hv := FullReduce_val a ha
    constructor
    · rw [hv]
      unfold prime primeDiff at *
      omega
    · unfold prime primeDiff at *
      omega

/-- Witness for C29 at the overflowed value `2^3072 - 1`. -/
theorem C29_GetInverse_overflowed_witness :
    WF (ofNat (2 ^ 3072 - 1)) ∧ uint3072.IsOverflow (ofNat (2 ^ 3072 - 1)) = true ∧
      ((∃ r, uint3072.GetInverse (ofNat (2 ^ 3072 - 1)) = some r ∧ WF r ∧ val r < prime ∧
          uint3072.IsOverflow r = false ∧
          uint3072.GetInverse
              (if uint3072.IsOverflow (ofNat (2 ^ 3072 - 1))
                then uint3072.FullReduce (ofNat (2 ^ 3072 - 1)) else ofNat (2 ^ 3072 - 1))
            = some r) ∧
        (WF (num3072.GetInverse (ofNat (2 ^ 3072 - 1))).2 ∧
          val (num3072.GetInverse (ofNat (2 ^ 3072 - 1))).2 < prime ∧
          num3072.IsOverflow (num3072.GetInverse (ofNat (2 ^ 3072 - 1))).2 = false ∧
          (num3072.GetInverse
              (if num3072.IsOverflow (ofNat (2 ^ 3072 - 1))
                then num3072.FullReduce (ofNat (2 ^ 3072 - 1)) else ofNat (2 ^ 3072 - 1))).2
            = (num3072.GetInverse (ofNat (2 ^ 3072 - 1))).2) ∧
        val (if uint3072.IsOverflow (ofNat (2 ^ 3072 - 1))
            then uint3072.FullReduce (ofNat (2 ^ 3072 - 1)) else ofNat (2 ^ 3072 - 1))
          = val (ofNat (2 ^ 3072 - 1)) % prime ∧
        (uint3072.IsOverflow (ofNat (2 ^ 3072 - 1)) = true →
          val (uint3072.FullReduce (ofNat (2 ^ 3072 - 1)))
              = val (ofNat (2 ^ 3072 - 1)) - prime ∧
            val (ofNat (2 ^ 3072 - 1)) - prime < prime)) :=
  ⟨WF_ofNat _,
    (IsOverflow_iff _ (WF_ofNat _)).mpr (by
      rw [val_ofNat_lt _ (by norm_num)]
      unfold prime primeDiff
      norm_num),
    C29_GetInverse_overflowed (ofNat (2 ^ 3072 - 1)) (WF_ofNat _)⟩

/-- C30: the two inverse strategies agree. For every 48-limb value `a` (`p` taken as
prime; or, without that assumption, `val(a)^(p-1) ≡ 1 (mod p)` or `val(a) ≡ 0`), the
addition-chain result `uint3072.GetInverse(a)` has exactly the limbs of the `big.Int`
`ModInverse(val(a) mod p, p)` that `num3072.GetInverse` returns and that
`uint3072.Divide` multiplies by, with the inverse of a value that is zero modulo `p`
taken as zero. -/
theorem C30_inverse_strategies_agree (a : uint3072) (ha : WF a)
    (hp : Nat.Prime prime ∨ val a ^ (prime - 1) % prime = 1 ∨ val a % prime = 0) :
    ∃ r, uint3072.GetInverse a = some r ∧ r = (num3072.GetInverse a).2 ∧
      val r = (bigModInverse (val a % prime) prime).getD (val a % prime) ∧
      (val a % prime = 0 → val r = 0) ∧
      (Nat.Coprime (val a) prime → (val a * val r) % prime = 1) ∧
      ∀ b : uint3072, WF b →
        uint3072.Divide b a = (uint3072.Mul b r).map
          (fun x => (x, if uint3072.IsOverflow a then uint3072.FullReduce a else a)) := by
  have hF : val a ^ (prime - 1) % prime = 1 ∨ val a % prime = 0 := by
    rcases hp with h | h
    · by_cases hz : val a % prime = 0
      · exact Or.inr hz
      · exact Or.inl (fermat_nat prime (val a) h hz)
    · exact h
  have hpow := pow_eq_invMod (val a) hF
  have hlt : invMod (val a) < 2 ^ 3072 := Nat.lt_trans (invMod_lt _) prime_lt
  have hv : val (ofNat (invMod (val a))) = invMod (val a) := val_ofNat_lt _ hlt
  have hget : (bigModInverse (val a % prime) prime).getD (val a % prime) = invMod (val a) := by
    unfold invMod
    cases bigModInverse (val a % prime) prime <;> rfl
  refine ⟨ofNat (invMod (val a)), ?_, (nGetInverse_eq a ha).symm, ?_, ?_, ?_, ?_⟩
  · rw [uGetInverse_eq a ha, hpow]
  · rw [hv, hget]
  · intro hz
    rw [hv, invMod_zero _ hz]
  · intro hc
    rw [hv]
    exact invMod_coprime _ hc
  · intro b hb
    rw [uDivide_eq b a hb ha, uMul_eq b _ hb (WF_ofNat _), hv, Option.map_some']

/-- Witness for C30 at the limb pattern of `p - 1`. -/
theorem C30_inverse_strategies_agree_witness :
    WF primeMinusOne ∧ val primeMinusOne ^ (prime - 1) % prime = 1 ∧
      ∃ r, uint3072.GetInverse primeMinusOne = some r ∧
        r = (num3072.GetInverse primeMinusOne).2 ∧
        val r = (bigModInverse (val primeMinusOne % prime) prime).getD
          (val primeMinusOne % prime) ∧
        (val primeMinusOne % prime = 0 → val r = 0) ∧
        (Nat.Coprime (val primeMinusOne) prime → (val primeMinusOne * val r) % prime = 1) ∧
        ∀ b : uint3072, WF b →
          uint3072.Divide b primeMinusOne = (uint3072.Mul b r).map
            (fun x => (x, if uint3072.IsOverflow primeMinusOne
              then uint3072.FullReduce primeMinusOne else primeMinusOne)) :=
  ⟨primeMinusOne_WF, primeMinusOne_fermat,
    C30_inverse_strategies_agree primeMinusOne primeMinusOne_WF
      (Or.inr (Or.inl primeMinusOne_fermat))⟩

end muhash

namespace muhash

/-- C31: equality of serializations is equality of logical values. For all accumulators
`(n1, d1)` and `(n2, d2)` whose denominators are nonzero modulo `p` (`p` taken as prime;
or, without that assumption, invertible modulo `p`), the `Serialize` bytes are equal if
and only if `val(n1) * val(d2) ≡ val(n2) * val(d1) (mod p)`, whichever operands are held
in overflowed representation. -/
theorem C31_Serialize_eq_iff (m1 m2 : MuHash) (h1 : m1.WF) (h2 : m2.WF)
    (hd : (Nat.Coprime (val m1.denominator) prime ∧ Nat.Coprime (val m2.denominator) prime) ∨
      (Nat.Prime prime ∧ val m1.denominator % prime ≠ 0 ∧ val m2.denominator % prime ≠ 0)) :
    m1.Serialize.2 = m2.Serialize.2 ↔
      (val m1.numerator * val m2.denominator) % prime
        = (val m2.numerator * val m1.denominator) % prime := by
  have hc : Nat.Coprime (val m1.denominator) prime ∧ Nat.Coprime (val m2.denominator) prime := by
    rcases hd with h | ⟨hp, z1, z2⟩
    · exact h
    · exact ⟨coprime_of_prime hp _ z1, coprime_of_prime hp _ z2⟩
  exact (Serialize_eq_iff m1 m2 h1 h2).trans (logical_eq_iff m1 m2 hc.1 hc.2)

/-- Witness for C31: an accumulator with both halves overflowed against one with small
halves. -/
theorem C31_Serialize_eq_iff_witness :
    (MuHash.mk (ofNat (2 ^ 3072 - 1)) (ofNat (prime + 1))).WF ∧
      (MuHash.mk (ofNat 5) (ofNat 2)).WF ∧
      Nat.Coprime (val (MuHash.mk (ofNat (2 ^ 3072 - 1)) (ofNat (prime + 1))).denominator)
        prime ∧
      Nat.Coprime (val (MuHash.mk (ofNat 5) (ofNat 2)).denominator) prime ∧
      ((MuHash.mk (ofNat (2 ^ 3072 - 1)) (ofNat (prime + 1))).Serialize.2
          = (MuHash.mk (ofNat 5) (ofNat 2)).Serialize.2 ↔
        (val (MuHash.mk (ofNat (2 ^ 3072 - 1)) (ofNat (prime + 1))).numerator
            * val (MuHash.mk (ofNat 5) (ofNat 2)).denominator) % prime
          = (val (MuHash.mk (ofNat 5) (ofNat 2)).numerator
            * val (MuHash.mk (ofNat (2 ^ 3072 - 1)) (ofNat (prime + 1))).denominator)
              % prime) := by
  have c1 : Nat.Coprime (val (MuHash.mk (ofNat (2 ^ 3072 - 1)) (ofNat (prime + 1))).denominator)
      prime := by
    simp only
    rw [val_ofNat_lt _ (by unfold prime primeDiff; norm_num)]
    exact coprime_succ_prime
  have c2 : Nat.Coprime (val (MuHash.mk (ofNat 5) (ofNat 2)).denominator) prime := by
    simp only
    rw [val_ofNat_lt _ (by norm_num)]
    exact coprime_two_prime
  exact ⟨⟨WF_ofNat _, WF_ofNat _⟩, ⟨WF_ofNat _, WF_ofNat _⟩, c1, c2,
    C31_Serialize_eq_iff _ _ ⟨WF_ofNat _, WF_ofNat _⟩ ⟨WF_ofNat _, WF_ofNat _⟩
      (Or.inl ⟨c1, c2⟩)⟩

/-- C32: no assertion in the field engine can fail. For every pair of 48-limb inputs
`uint3072.Mul` and `uint3072.Square` run to completion without reaching the panic of
`assert`: the highest carry is 0 before the last column, and after the second reduction
the carried-out value is 0 or 1 (`carryLow` in `Mul`, `low` in `Square`) and the higher
carry is 0 (`carryHigh` and `carryHighest` in `Mul`, `high` in `Square`). -/
theorem C32_no_assert_fails (a b : uint3072) (ha : WF a) (hb : WF b) :
    (∃ r, uint3072.Mul a b = some r) ∧ (∃ r, uint3072.Square a = some r) ∧
      (uint3072.Mul.firstPass a b).1.2.2 = 0 ∧
      (uint3072.Mul.lastColumn a b (uint3072.Mul.firstPass a b)).1.2.2 = 0 ∧
      ((uint3072.Mul.secondReduction a
          (uint3072.Mul.lastColumn a b (uint3072.Mul.firstPass a b))).1 = 0 ∨
        (uint3072.Mul.secondReduction a
          (uint3072.Mul.lastColumn a b (uint3072.Mul.firstPass a b))).1 = 1) ∧
      (uint3072.Mul.secondReduction a
        (uint3072.Mul.lastColumn a b (uint3072.Mul.firstPass a b))).2.1 = 0 ∧
      (uint3072.Square.firstPass a).1.2.2 = 0 ∧
      (uint3072.Square.secondReduction a
        (uint3072.Square.lastColumn a (uint3072.Square.firstPass a))).2.1 = 0 ∧
      ((uint3072.Square.secondReduction a
          (uint3072.Square.lastColumn a (uint3072.Square.firstPass a))).1 = 0 ∨
        (uint3072.Square.secondReduction a
          (uint3072.Square.lastColumn a (uint3072.Square.firstPass a))).1 = 1) := by
  obtain ⟨r, hr, _, _⟩ := Mul_spec a b ha hb
  obtain ⟨q, hq, _, _⟩ := Square_spec a ha
  obtain ⟨m1, m2, m3, _, _⟩ := mulLimbs_spec a b ha hb
  obtain ⟨_, l1, l2, l3, l4, _⟩ := lastColumn_spec a b ha hb
  obtain ⟨s1, _, s3, _, _⟩ := mulLimbs_spec a a ha ha
  obtain ⟨_, k1, k2, k3, k4, _⟩ := lastColumn_spec a a ha ha
  have hs : uint3072.Square.secondReduction a
      (uint3072.Square.lastColumn a (uint3072.Square.firstPass a))
      = uint3072.Mul.secondReduction a
        (uint3072.Mul.lastColumn a a (uint3072.Mul.firstPass a a)) := by
    rw [sq_firstPass_eq a ha, sq_lastColumn_eq a ha, sq_secondReduction_eq]
  refine ⟨⟨r, hr⟩, ⟨q, hq⟩, m1, m2, m3, secondReduction_high a _ l1 l2 l3 l4, ?_, ?_, ?_⟩
  · rw [sq_firstPass_eq a ha]
    exact s1
  · rw [hs]
    exact secondReduction_high a _ k1 k2 k3 k4
  · rw [hs]
    exact s3

/-- Witness for C32 at the overflowed value `2^3072 - 1` and the bit pattern of `p`. -/
theorem C32_no_assert_fails_witness :
    WF (ofNat (2 ^ 3072 - 1)) ∧ WF (ofNat prime) ∧
      (∃ r, uint3072.Mul (ofNat (2 ^ 3072 - 1)) (ofNat prime) = some r) ∧
      (∃ r, uint3072.Square (ofNat (2 ^ 3072 - 1)) = some r) :=
  ⟨WF_ofNat _, WF_ofNat _,
    (C32_no_assert_fails (ofNat (2 ^ 3072 - 1)) (ofNat prime) (WF_ofNat _) (WF_ofNat _)).1,
    (C32_no_assert_fails (ofNat (2 ^ 3072 - 1)) (ofNat prime) (WF_ofNat _) (WF_ofNat _)).2.1⟩

/-- C33: inverting zero yields zero and never fails. For `b` equal to the all-zero
element or to the bit pattern of `p`, `GetInverse(b)` is the all-zero element (`uint3072`,
with every `assert` passed, and `num3072`), and for every `a`, `a.Divide(&b)` leaves `a`
equal to the all-zero element without error or panic. -/
theorem C33_inverse_of_zero (a b : uint3072) (ha : WF a)
    (hb : b = (fun _ => 0) ∨ b = ofNat prime) :
    uint3072.GetInverse b = some (fun _ => 0) ∧
      (num3072.GetInverse b).2 = (fun _ => 0) ∧
      (∃ b1, uint3072.Divide a b = some (fun _ => 0, b1)) ∧
      (num3072.Divide a b).1 = (fun _ => 0) ∧
      val (ofNat prime) = prime := by
  have hw : WF b := by
    rcases hb with h | h
    · rw [h]; exact zero_WF
    · rw [h]; exact WF_ofNat _
  have hz : val b % prime = 0 := by
    rcases hb with h | h
    · rw [h, val_zero, Nat.zero_mod]
    · rw [h, val_ofNat_prime, Nat.mod_self]
  exact ⟨uGetInverse_zero b hw hz, nGetInverse_zero b hw hz,
    ⟨_, uDivide_zero a b ha hw hz⟩, nDivide_zero a b ha hw hz, val_ofNat_prime⟩

/-- Witness for C33: the overflowed `2^3072 - 1` divided by the bit pattern of `p`. -/
theorem C33_inverse_of_zero_witness :
    WF (ofNat (2 ^ 3072 - 1)) ∧
      uint3072.GetInverse (ofNat prime) = some (fun _ => 0) ∧
      (num3072.GetInverse (ofNat prime)).2 = (fun _ => 0) ∧
      (∃ b1, uint3072.Divide (ofNat (2 ^ 3072 - 1)) (ofNat prime) = some (fun _ => 0, b1)) ∧
      (num3072.Divide (ofNat (2 ^ 3072 - 1)) (ofNat prime)).1 = (fun _ => 0) ∧
      val (ofNat prime) = prime :=
  ⟨WF_ofNat _, C33_inverse_of_zero (ofNat (2 ^ 3072 - 1)) (ofNat prime) (WF_ofNat _)
    (Or.inr rfl)⟩

end muhash

namespace muhash

/-- C34: `Serialize` is idempotent. For every accumulator `m`, a second `m.Serialize()`
(or `m.Finalize()`) immediately after a first returns the same bytes (digest), also when
the two calls are one of each kind, and the accumulator state left by the first call
(canonical numerator, denominator one) is a fixed point of `normalize`. -/
theorem C34_Serialize_idempotent (P : Primitives) (m : MuHash) (hm : m.WF) :
    m.Serialize.1.Serialize.2 = m.Serialize.2 ∧
      ((m.Finalize P).1.Finalize P).2 = (m.Finalize P).2 ∧
      (m.Serialize.1.Finalize P).2 = (m.Finalize P).2 ∧
      (m.Finalize P).1.Serialize.2 = m.Serialize.2 ∧
      m.Serialize.1.normalize = m.Serialize.1 ∧
      (m.Finalize P).1.normalize = (m.Finalize P).1 ∧
      m.Serialize.1.denominator = num3072.oneNum3072 ∧
      val m.Serialize.1.numerator < prime ∧
      (m.Finalize P).1 = m.Serialize.1 := by
  have hs := Serialize_fst m hm
  have hf := Finalize_fst P m hm
  have hc := Serialize_congr P _ m (normalized_WF m) hm (logical_normalized m)
  have hfix := normalForm_fixed _ (normalized_WF m) (normalized_normalForm m)
  have hn := normalized_normalForm m
  rw [hs, hf]
  exact ⟨hc.1, hc.2, hc.2, hc.1, hfix, hfix, hn.1, hn.2.1, rfl⟩

/-- Witness for C34: numerator `2^3072 - 1` over the overflowed denominator `p + 1`. -/
theorem C34_Serialize_idempotent_witness :
    (MuHash.mk (ofNat (2 ^ 3072 - 1)) (ofNat (prime + 1))).WF ∧
      (MuHash.mk (ofNat (2 ^ 3072 - 1)) (ofNat (prime + 1))).Serialize.1.Serialize.2
        = (MuHash.mk (ofNat (2 ^ 3072 - 1)) (ofNat (prime + 1))).Serialize.2 ∧
      (((MuHash.mk (ofNat (2 ^ 3072 - 1)) (ofNat (prime + 1))).Finalize twoStream).1.Finalize
          twoStream).2
        = ((MuHash.mk (ofNat (2 ^ 3072 - 1)) (ofNat (prime + 1))).Finalize twoStream).2 :=
  ⟨⟨WF_ofNat _, WF_ofNat _⟩,
    (C34_Serialize_idempotent twoStream _ ⟨WF_ofNat _, WF_ofNat _⟩).1,
    (C34_Serialize_idempotent twoStream _ ⟨WF_ofNat _, WF_ofNat _⟩).2.1⟩

/-- C35: normal-form invariant. Every accumulator returned by `NewMuHash` or by a
successful `DeserializeMuHash` (it succeeds on every encoding below `p`), and every
accumulator state left by `Reset`, `normalize`, `Serialize` or `Finalize`, has
denominator exactly equal to the element one and a numerator that is not overflowed
(`val < p`). -/
theorem C35_normal_form (P : Primitives) (m : MuHash) (hm : m.WF) (b : SerializedMuHash) :
    (∀ mu : MuHash, mu.normalForm ↔
        (mu.denominator = num3072.oneNum3072 ∧ val mu.numerator < prime ∧
          num3072.IsOverflow mu.numerator = false)) ∧
      NewMuHash.normalForm ∧
      (∀ d, DeserializeMuHash b = Except.ok d → d.normalForm) ∧
      (bytesVal b < prime → ∃ d, DeserializeMuHash b = Except.ok d) ∧
      m.Reset.normalForm ∧ m.normalize.normalForm ∧ m.Serialize.1.normalForm ∧
      (m.Finalize P).1.normalForm := by
  have hr : m.Reset = NewMuHash := rfl
  refine ⟨fun _ => Iff.rfl, NewMuHash_normalForm, Deserialize_normalForm b, ?_, ?_, ?_, ?_, ?_⟩
  · intro hlt
    rw [DeserializeMuHash_eq, if_neg (by omega)]
    exact ⟨_, rfl⟩
  · rw [hr]
    exact NewMuHash_normalForm
  · rw [normalize_eq m hm]
    exact normalized_normalForm m
  · rw [Serialize_fst m hm]
    exact normalized_normalForm m
  · rw [Finalize_fst P m hm]
    exact normalized_normalForm m

/-- Witness for C35: an accumulator with overflowed halves and the encoding of `p - 1`,
which `DeserializeMuHash` accepts. -/
theorem C35_normal_form_witness :
    (MuHash.mk (ofNat (2 ^ 3072 - 1)) (ofNat prime)).WF ∧
      (∃ d, DeserializeMuHash (bytesOfNat (prime - 1)) = Except.ok d ∧ d.normalForm) ∧
      (MuHash.mk (ofNat (2 ^ 3072 - 1)) (ofNat prime)).normalize.normalForm ∧
      (MuHash.mk (ofNat (2 ^ 3072 - 1)) (ofNat prime)).Serialize.1.normalForm ∧
      ((MuHash.mk (ofNat (2 ^ 3072 - 1)) (ofNat prime)).Finalize twoStream).1.normalForm := by
  have h := C35_normal_form twoStream (MuHash.mk (ofNat (2 ^ 3072 - 1)) (ofNat prime))
    ⟨WF_ofNat _, WF_ofNat _⟩ (bytesOfNat (prime - 1))
  have hlt : bytesVal (bytesOfNat (prime - 1)) < prime := by
    have hp := prime_lt
    have h1 := prime_gt_one
    rw [bytesVal_bytesOfNat, Nat.mod_eq_of_lt (by omega)]
    omega
  obtain ⟨d, hd⟩ := h.2.2.2.1 hlt
  exact ⟨⟨WF_ofNat _, WF_ofNat _⟩, ⟨d, hd, h.2.2.1 d hd⟩, h.2.2.2.2.2.1, h.2.2.2.2.2.2.1,
    h.2.2.2.2.2.2.2⟩

/-- C36: `Combine`, `Add` and `Remove` change only what they name. For all accumulators
`mu` and `other` (two cells of a heap), `mu.Combine(other)` returns and leaves the
numerator and denominator of `other` unchanged; `Add(data)` leaves the denominator of
`mu` unchanged and `Remove(data)` leaves the numerator of `mu` unchanged, and both leave
every other accumulator unchanged; and `uint3072.Mul` passes every `assert` and never
modifies its right operand (another cell than the receiver). -/
theorem C36_frame (P : Primitives) (s : Store) (p q : Nat) (mu other : MuHash)
    (data : List UInt8) (h : List uint3072) (l r : Nat) (a b : uint3072)
    (hp : s.get? p = some mu) (hq : s.get? q = some other) (hpq : q ≠ p)
    (hl : h.get? l = some a) (hr : h.get? r = some b) (hlr : r ≠ l)
    (ha : WF a) (hb : WF b) :
    (∃ t, Store.invoke P s p (Method.Combine q) = some t ∧ t.get? q = some other ∧
        t.get? p = some (mu.Combine other)) ∧
      (∃ t, Store.invoke P s p (Method.Add data) = some t ∧
        t.get? p = some (mu.Add P data) ∧ (mu.Add P data).denominator = mu.denominator ∧
        ∀ k, k ≠ p → t.get? k = s.get? k) ∧
      (∃ t, Store.invoke P s p (Method.Remove data) = some t ∧
        t.get? p = some (mu.Remove P data) ∧ (mu.Remove P data).numerator = mu.numerator ∧
        ∀ k, k ≠ p → t.get? k = s.get? k) ∧
      (∃ t x, uint3072.MulAt h l r = some t ∧ t.get? r = some b ∧
        uint3072.Mul a b = some x ∧ t.get? l = some x) := by
  have inv : ∀ (m : Method) (x : MuHash), m.run P s mu = some x →
      Store.invoke P s p m = some (s.set p x) := by
    intro m x hx
    unfold Store.invoke
    rw [hp, Option.some_bind, hx, Option.map_some']
  have fr : ∀ x : MuHash, ∀ k, k ≠ p → (s.set p x).get? k = s.get? k := by
    intro x k hk
    simp only [List.get?_eq_getElem?]
    exact List.getElem?_set_ne (Ne.symm hk)
  refine ⟨?_, ?_, ?_, ?_⟩
  · refine ⟨_, inv (Method.Combine q) (mu.Combine other) ?_, ?_, get_set_self s p _ mu hp⟩
    · show (s.get? q).map (fun o => mu.Combine o) = some (mu.Combine other)
      rw [hq, Option.map_some']
    · rw [fr _ q hpq]
      exact hq
  · exact ⟨_, inv (Method.Add data) (mu.Add P data) rfl, get_set_self s p _ mu hp, rfl, fr _⟩
  · exact ⟨_, inv (Method.Remove data) (mu.Remove P data) rfl, get_set_self s p _ mu hp, rfl,
      fr _⟩
  · obtain ⟨x, hx, hm, hf⟩ := MulAt_frame h l r a b hl hr ha hb
    exact ⟨_, x, hm, (hf r hlr).trans hr, hx, get_set_self h l _ a hl⟩

/-- Witness for C36: a heap of two accumulators and a heap of two field elements. -/
theorem C36_frame_witness :
    [NewMuHash, MuHash.mk (ofNat 5) (ofNat 7)].get? 0 = some NewMuHash ∧
      [NewMuHash, MuHash.mk (ofNat 5) (ofNat 7)].get? 1
        = some (MuHash.mk (ofNat 5) (ofNat 7)) ∧
      [ofNat (2 ^ 3072 - 1), ofNat prime].get? 0 = some (ofNat (2 ^ 3072 - 1)) ∧
      [ofNat (2 ^ 3072 - 1), ofNat prime].get? 1 = some (ofNat prime) ∧
      (∃ t, Store.invoke twoStream [NewMuHash, MuHash.mk (ofNat 5) (ofNat 7)] 0
          (Method.Combine 1) = some t ∧
        t.get? 1 = some (MuHash.mk (ofNat 5) (ofNat 7)) ∧
        t.get? 0 = some (NewMuHash.Combine (MuHash.mk (ofNat 5) (ofNat 7)))) ∧
      (∃ t x, uint3072.MulAt [ofNat (2 ^ 3072 - 1), ofNat prime] 0 1 = some t ∧
        t.get? 1 = some (ofNat prime) ∧
        uint3072.Mul (ofNat (2 ^ 3072 - 1)) (ofNat prime) = some x ∧ t.get? 0 = some x) := by
  have h := C36_frame twoStream [NewMuHash, MuHash.mk (ofNat 5) (ofNat 7)] 0 1 NewMuHash
    (MuHash.mk (ofNat 5) (ofNat 7)) [1] [ofNat (2 ^ 3072 - 1), ofNat prime] 0 1
    (ofNat (2 ^ 3072 - 1)) (ofNat prime) rfl rfl (by decide) rfl rfl (by decide)
    (WF_ofNat _) (WF_ofNat _)
  exact ⟨rfl, rfl, rfl, rfl, h.1, h.2.2.2⟩

end muhash

namespace muhash

/-- C37: `mulnadd3` is a 192-bit multiply-accumulate whose third word is an output only.
For all words `c0, c1, c2, d0, d1, d2, n`, after `mulnadd3` the triple satisfies
`c0' + c1'*2^64 + c2'*2^128 = (c0 + c1*2^64 + n*(d0 + d1*2^64 + d2*2^128)) mod 2^192`
with three 64-bit words, independent of the initial `c2`. -/
theorem C37_mulnadd3 (c0 c1 c2 d0 d1 d2 n : Nat) (h0 : c0 < 2 ^ 64) (h1 : c1 < 2 ^ 64)
    (k0 : d0 < 2 ^ 64) (k1 : d1 < 2 ^ 64) (k2 : d2 < 2 ^ 64) (hn : n < 2 ^ 64) :
    (uint3072.mulnadd3 (c0, c1, c2) (d0, d1, d2) n).1
        + (uint3072.mulnadd3 (c0, c1, c2) (d0, d1, d2) n).2.1 * 2 ^ 64
        + (uint3072.mulnadd3 (c0, c1, c2) (d0, d1, d2) n).2.2 * 2 ^ 128
        = (c0 + c1 * 2 ^ 64 + n * (d0 + d1 * 2 ^ 64 + d2 * 2 ^ 128)) % 2 ^ 192 ∧
      (uint3072.mulnadd3 (c0, c1, c2) (d0, d1, d2) n).1 < 2 ^ 64 ∧
      (uint3072.mulnadd3 (c0, c1, c2) (d0, d1, d2) n).2.1 < 2 ^ 64 ∧
      (uint3072.mulnadd3 (c0, c1, c2) (d0, d1, d2) n).2.2 < 2 ^ 64 ∧
      ∀ e2 : Nat, uint3072.mulnadd3 (c0, c1, e2) (d0, d1, d2) n
        = uint3072.mulnadd3 (c0, c1, c2) (d0, d1, d2) n := by
  obtain ⟨q, q1, q2, q3⟩ := mulnadd3_mod (c0, c1, c2) (d0, d1, d2) n h0 h1 k0 k1 k2 hn
  refine ⟨?_, q1, q2, q3, fun _ => rfl⟩
  simp only [v3] at q
  have e : c0 + c1 * 2 ^ 64 + n * (d0 + d1 * 2 ^ 64 + d2 * 2 ^ 128)
      = c0 + 2 ^ 64 * c1 + n * (d0 + 2 ^ 64 * d1 + 2 ^ 128 * d2) := by ring
  rw [e, ← q]
  ring

/-- Witness for C37: the first vector of `Test_mulnadd3`, with its expected result. -/
theorem C37_mulnadd3_witness :
    uint3072.mulnadd3 (2 ^ 64 - 1 - 99, 2 ^ 64 - 1 - 75, 2 ^ 64 - 1 - 100)
        (2 ^ 64 - 1 - 30, 2 ^ 64 - 1 - 3452, 2 ^ 64 - 1 - 321) (2 ^ 64 - 1 - 543)
        = (16764, 1877782, 171173) ∧
      (uint3072.mulnadd3 (2 ^ 64 - 1 - 99, 2 ^ 64 - 1 - 75, 2 ^ 64 - 1 - 100)
          (2 ^ 64 - 1 - 30, 2 ^ 64 - 1 - 3452, 2 ^ 64 - 1 - 321) (2 ^ 64 - 1 - 543)).1
        + (uint3072.mulnadd3 (2 ^ 64 - 1 - 99, 2 ^ 64 - 1 - 75, 2 ^ 64 - 1 - 100)
          (2 ^ 64 - 1 - 30, 2 ^ 64 - 1 - 3452, 2 ^ 64 - 1 - 321) (2 ^ 64 - 1 - 543)).2.1 * 2 ^ 64
        + (uint3072.mulnadd3 (2 ^ 64 - 1 - 99, 2 ^ 64 - 1 - 75, 2 ^ 64 - 1 - 100)
          (2 ^ 64 - 1 - 30, 2 ^ 64 - 1 - 3452, 2 ^ 64 - 1 - 321) (2 ^ 64 - 1 - 543)).2.2
            * 2 ^ 128
        = (2 ^ 64 - 1 - 99 + (2 ^ 64 - 1 - 75) * 2 ^ 64
            + (2 ^ 64 - 1 - 543) * (2 ^ 64 - 1 - 30 + (2 ^ 64 - 1 - 3452) * 2 ^ 64
              + (2 ^ 64 - 1 - 321) * 2 ^ 128)) % 2 ^ 192 :=
  ⟨by decide,
    (C37_mulnadd3 (2 ^ 64 - 1 - 99) (2 ^ 64 - 1 - 75) (2 ^ 64 - 1 - 100) (2 ^ 64 - 1 - 30)
      (2 ^ 64 - 1 - 3452) (2 ^ 64 - 1 - 321) (2 ^ 64 - 1 - 543) (by decide) (by decide)
      (by decide) (by decide) (by decide) (by decide)).1⟩

/-- C38: `muldbladd3` adds twice the product into a three-word accumulator. For all words
`low, high, carry, a, b`, after `muldbladd3` the triple satisfies
`low' + high'*2^64 + carry'*2^128 = (low + high*2^64 + carry*2^128 + 2*a*b) mod 2^192`,
and `muladd3` satisfies the same equation with `a*b` in place of `2*a*b`; the three
words stay below `2^64`. -/
theorem C38_muldbladd3 (low high carry a b : Nat) (h0 : low < 2 ^ 64) (h1 : high < 2 ^ 64)
    (h2 : carry < 2 ^ 64) (ha : a < 2 ^ 64) (hb : b < 2 ^ 64) :
    ((uint3072.muldbladd3 (low, high, carry) a b).1
        + (uint3072.muldbladd3 (low, high, carry) a b).2.1 * 2 ^ 64
        + (uint3072.muldbladd3 (low, high, carry) a b).2.2 * 2 ^ 128
        = (low + high * 2 ^ 64 + carry * 2 ^ 128 + 2 * a * b) % 2 ^ 192 ∧
      (uint3072.muldbladd3 (low, high, carry) a b).1 < 2 ^ 64 ∧
      (uint3072.muldbladd3 (low, high, carry) a b).2.1 < 2 ^ 64 ∧
      (uint3072.muldbladd3 (low, high, carry) a b).2.2 < 2 ^ 64) ∧
      ((uint3072.muladd3 (low, high, carry) a b).1
        + (uint3072.muladd3 (low, high, carry) a b).2.1 * 2 ^ 64
        + (uint3072.muladd3 (low, high, carry) a b).2.2 * 2 ^ 128
        = (low + high * 2 ^ 64 + carry * 2 ^ 128 + a * b) % 2 ^ 192 ∧
      (uint3072.muladd3 (low, high, carry) a b).1 < 2 ^ 64 ∧
      (uint3072.muladd3 (low, high, carry) a b).2.1 < 2 ^ 64 ∧
      (uint3072.muladd3 (low, high, carry) a b).2.2 < 2 ^ 64) := by
  obtain ⟨q, q1, q2, q3⟩ := muldbladd3_mod (low, high, carry) a b h0 h1 h2 ha hb
  obtain ⟨r, r1, r2, r3⟩ := muladd3_mod (low, high, carry) a b h0 h1 h2 ha hb
  simp only [v3] at q r
  refine ⟨⟨?_, q1, q2, q3⟩, ⟨?_, r1, r2, r3⟩⟩
  · have e : low + high * 2 ^ 64 + carry * 2 ^ 128 + 2 * a * b
        = low + 2 ^ 64 * high + 2 ^ 128 * carry + 2 * (a * b) := by ring
    rw [e, ← q]
    ring
  · have e : low + high * 2 ^ 64 + carry * 2 ^ 128 + a * b
        = low + 2 ^ 64 * high + 2 ^ 128 * carry + a * b := by ring
    rw [e, ← r]
    ring

/-- Witness for C38: the first vector of `Test_muldbladd3` and of `Test_muladd3`, with
the expected results. -/
theorem C38_muldbladd3_witness :
    uint3072.muldbladd3 (2 ^ 64 - 1 - 99, 2 ^ 64 - 1 - 75, 2 ^ 64 - 1 - 100) (2 ^ 64 - 1 - 30)
        (2 ^ 64 - 1 - 3452) = (213986, 18446744073709544573, 18446744073709551517) ∧
      uint3072.muladd3 (2 ^ 64 - 1 - 99, 2 ^ 64 - 1 - 75, 2 ^ 64 - 1 - 100) (2 ^ 64 - 1 - 30)
        (2 ^ 64 - 1 - 3452) = (106943, 18446744073709548057, 18446744073709551516) ∧
      (uint3072.muldbladd3 (2 ^ 64 - 1 - 99, 2 ^ 64 - 1 - 75, 2 ^ 64 - 1 - 100)
          (2 ^ 64 - 1 - 30) (2 ^ 64 - 1 - 3452)).1
        + (uint3072.muldbladd3 (2 ^ 64 - 1 - 99, 2 ^ 64 - 1 - 75, 2 ^ 64 - 1 - 100)
          (2 ^ 64 - 1 - 30) (2 ^ 64 - 1 - 3452)).2.1 * 2 ^ 64
        + (uint3072.muldbladd3 (2 ^ 64 - 1 - 99, 2 ^ 64 - 1 - 75, 2 ^ 64 - 1 - 100)
          (2 ^ 64 - 1 - 30) (2 ^ 64 - 1 - 3452)).2.2 * 2 ^ 128
        = (2 ^ 64 - 1 - 99 + (2 ^ 64 - 1 - 75) * 2 ^ 64 + (2 ^ 64 - 1 - 100) * 2 ^ 128
            + 2 * (2 ^ 64 - 1 - 30) * (2 ^ 64 - 1 - 3452)) % 2 ^ 192 :=
  ⟨by decide, by decide,
    (C38_muldbladd3 (2 ^ 64 - 1 - 99) (2 ^ 64 - 1 - 75) (2 ^ 64 - 1 - 100) (2 ^ 64 - 1 - 30)
      (2 ^ 64 - 1 - 3452) (by decide) (by decide) (by decide) (by decide) (by decide)).1.1⟩

end muhash
